import Mathlib

/-!
Verification of the chemical-environment graph model: the in-memory
representation of a parsed SMIRKS-style pattern as a graph of Atom nodes and
Bond edges, together with the macro expander, the pattern parser, the
position classifier (indexed / alpha / beta), the mutation API and the
serializer.  The Python module implementing this core is not present in the
repository snapshot (only a notebook exercising it is), so every definition
below is modelled from the specification document, with the notebook's
recorded inputs and outputs as concrete test points.
-/

namespace ChemEnv

/-- Modelled from the spec: the error taxonomy of §7 for the missing
`environment` module.  All failures are local and synchronous. -/
inductive EnvError where
  | lexErr
  | unknownMacroErr
  | unbalancedErr
  | duplicateTagErr
  | tagCountErr
  | tagShapeErr
  | indexedAtomErr
  | beyondBetaErr
deriving DecidableEq, Repr

/-- Modelled from the spec: an Atom descriptor of the missing `environment`
module — an optional tag (index), an ordered list of OR-entries (each a base
token with its decorator tokens) and an ordered list of AND-entries. -/
structure AtomInfo where
  index : Option Nat
  ORtypes : List (String × List String)
  ANDtypes : List String
deriving DecidableEq, Repr

/-- Modelled from the spec: a Bond descriptor of the missing `environment`
module — the same OR/AND shape as an Atom but over bond-type tokens. -/
structure BondInfo where
  ORtypes : List (String × List String)
  ANDtypes : List String
deriving DecidableEq, Repr

/-- Modelled from the spec: the Environment Graph of the missing
`environment` module — a node/edge table with integer node identifiers
(§9), atoms and bonds kept in insertion order, plus a fresh-id counter.
The designated root is the first atom of the table. -/
structure Graph where
  atoms : List (Nat × AtomInfo)
  bonds : List (Nat × Nat × BondInfo)
  fresh : Nat
deriving DecidableEq, Repr

/-- Modelled from the spec: look up the Atom descriptor stored at a node id. -/
def Graph.findAtom (G : Graph) (i : Nat) : Option AtomInfo :=
  (G.atoms.find? (fun p => p.1 == i)).map (fun p => p.2)

/-- Modelled from the spec: the node ids present in the graph. -/
def Graph.atomIds (G : Graph) : List Nat :=
  G.atoms.map (fun p => p.1)

/-- Modelled from the spec: the designated root atom (the first atom of the
table), from which traversal and serialization start. -/
def Graph.root (G : Graph) : Option Nat :=
  G.atomIds.head?

/-- Modelled from the spec: the adjacency index of a node — the neighbours
reached by each incident edge, in edge insertion order. -/
def Graph.adj (G : Graph) (i : Nat) : List (Nat × BondInfo) :=
  G.bonds.filterMap (fun e =>
    if e.1 = i then some (e.2.1, e.2.2)
    else if e.2.1 = i then some (e.1, e.2.2) else none)

/-- Modelled from the spec: `getBond` — the Bond connecting two atoms when
one exists, and `none` (not an error) when the atoms are not bonded. -/
def Graph.getBond (G : Graph) (a b : Nat) : Option BondInfo :=
  (G.bonds.find? (fun e => (e.1 == a && e.2.1 == b) || (e.1 == b && e.2.1 == a))).map
    (fun e => e.2.2)

/-- Modelled from the spec: `selectAtom` with an integer descriptor — the
atom carrying that tag, with its node id. -/
def Graph.selectAtom (G : Graph) (n : Nat) : Option (Nat × AtomInfo) :=
  G.atoms.find? (fun p => p.2.index == some n)

/-- Modelled from the spec: `selectBond` with an integer descriptor `n` —
the bond between the tagged atoms `n` and `n+1`. -/
def Graph.selectBond (G : Graph) (n : Nat) : Option BondInfo := do
  let a ← G.selectAtom n
  let b ← G.selectAtom (n + 1)
  G.getBond a.1 b.1

/-- Modelled from the spec: the tags already used in the graph (uniqueness
is enforced at insertion). -/
def Graph.usedTags (G : Graph) : List Nat :=
  G.atoms.filterMap (fun p => p.2.index)

/-- Modelled from the spec: `isIndexed` — the node itself carries a tag. -/
def Graph.isIndexed (G : Graph) (i : Nat) : Bool :=
  match G.findAtom i with
  | some a => a.index.isSome
  | none => false

/-- Modelled from the spec: `isAlpha` — distance 1 from some tagged node and
not itself tagged. -/
def Graph.isAlpha (G : Graph) (i : Nat) : Bool :=
  !G.isIndexed i && (G.adj i).any (fun p => G.isIndexed p.1)

/-- Modelled from the spec: `isBeta` — distance 2 from the nearest tagged
node (via an alpha node), not itself tagged or alpha. -/
def Graph.isBeta (G : Graph) (i : Nat) : Bool :=
  !G.isIndexed i && !G.isAlpha i && (G.adj i).any (fun p => G.isAlpha p.1)

/-- Modelled from the spec: `isUnindexed` — a node of the graph with no tag. -/
def Graph.isUnindexed (G : Graph) (i : Nat) : Bool :=
  (G.findAtom i).isSome && !G.isIndexed i

/-- Modelled from the spec: `addAtom` — creates a new Atom bonded to the
anchor.  Fails with `BeyondBetaError` unless `allowBeyondBeta` or the anchor
is Indexed/Alpha; fails with `DuplicateTagError` if the requested tag
collides; otherwise returns the updated graph and the new atom's id. -/
def Graph.addAtom (G : Graph) (anchor : Nat) (bondOR : List (String × List String))
    (bondAND : List String) (atomOR : List (String × List String)) (atomAND : List String)
    (tag : Option Nat) (allowBeyondBeta : Bool) : Except EnvError (Graph × Nat) :=
  if !allowBeyondBeta && !(G.isIndexed anchor || G.isAlpha anchor) then
    .error .beyondBetaErr
  else if (match tag with | some t => G.usedTags.contains t | none => false) then
    .error .duplicateTagErr
  else
    let i := G.fresh
    .ok (⟨G.atoms ++ [(i, ⟨tag, atomOR, atomAND⟩)],
          G.bonds ++ [(anchor, i, ⟨bondOR, bondAND⟩)], i + 1⟩, i)

/-- Modelled from the spec: breadth-first collection of the nodes reachable
from the frontier while avoiding one node, used by `removeAtom` to delete a
pendant subtree.  Fuel-bounded so the definition is executable. -/
def Graph.reachAux (G : Graph) (avoid : Nat) :
    Nat → List Nat → List Nat → List Nat
  | 0, visited, _ => visited
  | _ + 1, visited, [] => visited
  | fuel + 1, visited, f :: fs =>
    if f == avoid || visited.contains f then
      G.reachAux avoid fuel visited fs
    else
      G.reachAux avoid fuel (visited ++ [f]) (fs ++ (G.adj f).map (fun p => p.1))

/-- Modelled from the spec: the nodes still reachable from the root when one
node is deleted. -/
def Graph.reachAvoiding (G : Graph) (avoid : Nat) : List Nat :=
  match G.root with
  | none => []
  | some r => G.reachAux avoid (G.atoms.length + 2 * G.bonds.length + 2) [] [r]

/-- Modelled from the spec: `removeAtom` — fails with `IndexedAtomError` if
the atom is tagged (so the graph is left unchanged); with `requireEmpty`
set, removes only an atom with exactly one OR-entry and no AND-entries
(returning `false` for the no-op case); otherwise deletes the atom together
with its pendant subtree, keeping the part still reachable from the root. -/
def Graph.removeAtom (G : Graph) (i : Nat) (requireEmpty : Bool) :
    Except EnvError (Graph × Bool) :=
  if G.isIndexed i then
    .error .indexedAtomErr
  else
    match G.findAtom i with
    | none => .ok (G, false)
    | some a =>
      if requireEmpty && !(a.ORtypes.length == 1 && a.ANDtypes.length == 0) then
        .ok (G, false)
      else
        let kept := G.reachAvoiding i
        .ok (⟨G.atoms.filter (fun p => kept.contains p.1),
              G.bonds.filter (fun e => kept.contains e.1 && kept.contains e.2.1),
              G.fresh⟩, true)

/-- Modelled from the spec: look up a macro name in the replacement table. -/
def lookupMacro (M : List (String × String)) (name : List Char) : Option String :=
  (M.find? (fun p => p.1.data == name)).map (fun p => p.2)

/-- Modelled from the spec: one textual substitution pass of the Macro
Expander — every `$name` placeholder is replaced by its literal replacement
text; `$(` introduces a recursive group, not a placeholder; a placeholder
with no matching name fails with `UnknownMacroError`.  Fuel-bounded (one
unit per consumed character) so the definition is executable. -/
def expandOnePass (M : List (String × String)) : Nat → List Char → Except EnvError (List Char)
  | 0, _ => .error .unknownMacroErr
  | _ + 1, [] => .ok []
  | fuel + 1, c :: cs =>
    if c = '$' then
      if cs.head? = some '(' then
        (expandOnePass M fuel cs).map (fun t => c :: t)
      else
        let name := cs.takeWhile Char.isAlphanum
        if name.isEmpty then .error .unknownMacroErr
        else
          match lookupMacro M name with
          | none => .error .unknownMacroErr
          | some r =>
            (expandOnePass M fuel (cs.dropWhile Char.isAlphanum)).map
              (fun t => r.data ++ t)
    else
      (expandOnePass M fuel cs).map (fun t => c :: t)

/-- Modelled from the spec: the coordinated expansion — substitution passes
are repeated until the text stops changing, so that macro replacements that
themselves reference other macros resolve; a table whose nesting does not
resolve within the pass budget fails. -/
def expandFix (M : List (String × String)) : Nat → List Char → Except EnvError (List Char)
  | 0, _ => .error .unknownMacroErr
  | n + 1, s =>
    match expandOnePass M (s.length + 1) s with
    | .error e => .error e
    | .ok t => if t = s then .ok t else expandFix M n t

/-- Modelled from the spec: the Macro Expander entry point — replaces every
`$name` placeholder with its replacement text, resolving nested references,
before any further processing. -/
def expand (M : List (String × String)) (s : String) : Except EnvError String :=
  (expandFix M (M.length + 1) s.data).map String.mk

/-- Modelled from the spec: the order implied by one bond-type base token
(single, aromatic, ring and wildcard all imply order 1; double 2; triple 3). -/
def bondBaseOrder (s : String) : Nat :=
  if s = "=" then 2 else if s = "#" then 3 else 1

/-- Modelled from the spec: `Bond.getOrder` — the minimum bond order, the
lowest order implied by any OR-alternative; a wildcard bond (no OR-entries)
has minimum order 1. -/
def BondInfo.getOrder (b : BondInfo) : Nat :=
  match b.ORtypes.map (fun e => bondBaseOrder e.1) with
  | [] => 1
  | o :: os => os.foldl Nat.min o

/-- Modelled from the spec: the character for one decimal digit. -/
def digitChar (d : Nat) : Char := Char.ofNat (48 + d)

/-- Modelled from the spec: decimal rendering of a number, most significant
digit first, fuel-bounded so the definition is executable. -/
def natToDigits : Nat → Nat → List Char
  | 0, _ => []
  | fuel + 1, n =>
    if n < 10 then [digitChar n]
    else natToDigits fuel (n / 10) ++ [digitChar (n % 10)]

/-- Modelled from the spec: the number denoted by a decimal digit string. -/
def digitsToNat (l : List Char) : Nat :=
  l.foldl (fun acc c => 10 * acc + (c.toNat - 48)) 0

/-- Modelled from the spec: the serialized form of one OR-entry — its base
token followed by its decorator tokens. -/
def entryChars (e : String × List String) : List Char :=
  e.1.data ++ (e.2.map String.data).flatten

/-- Modelled from the spec: groups joined by a separator character. -/
def sepBy (sep : Char) : List (List Char) → List Char
  | [] => []
  | [x] => x
  | x :: xs => x ++ sep :: sepBy sep xs

/-- Modelled from the spec: the serialized OR-entry list — entries joined by
commas, with a wildcard placeholder when the list is empty. -/
def orChars (l : List (String × List String)) (wild : Char) : List Char :=
  if l.isEmpty then [wild] else sepBy ',' (l.map entryChars)

/-- Modelled from the spec: the serialized AND-entry list — every entry
preceded by a semicolon. -/
def andChars (l : List String) : List Char :=
  (l.map (fun s => ';' :: s.data)).flatten

/-- Modelled from the spec: the serialized optional tag — a colon and the
decimal tag number. -/
def tagChars : Option Nat → List Char
  | some n => ':' :: natToDigits n n
  | none => []

/-- Modelled from the spec: the interior of one serialized bracketed atom,
up to and including the closing bracket. -/
def AtomInfo.bodyChars (a : AtomInfo) : List Char :=
  orChars a.ORtypes '*' ++ andChars a.ANDtypes ++ tagChars a.index ++ [']']

/-- Modelled from the spec: `Atom.asSMIRKS` — the bracketed group for one
atom: OR-entries joined by commas, AND-entries preceded by semicolons and
the tag, when present, as a trailing colon-number. -/
def AtomInfo.asSMIRKS (a : AtomInfo) : String :=
  String.mk ('[' :: a.bodyChars)

/-- Modelled from the spec: the serialized characters of one bond — OR-entries
joined by commas (a bare wildcard bond prints as a tilde), AND-entries
preceded by semicolons. -/
def BondInfo.chars (b : BondInfo) : List Char :=
  orChars b.ORtypes '~' ++ andChars b.ANDtypes

/-- Modelled from the spec: `Bond.asSMIRKS` — the serialized bond string. -/
def BondInfo.asSMIRKS (b : BondInfo) : String :=
  String.mk b.chars

/-- Modelled from the spec: the bond-type symbol characters of the grammar. -/
def isBondChar (c : Char) : Bool :=
  c = '-' || c = '=' || c = '#' || c = ':' || c = '~' || c = '@' || c = '/' || c = '\\'

/-- Modelled from the spec: the characters ending a token inside a bracketed
atom (OR separator, AND separator, tag marker, bracket close). -/
def isStopChar (c : Char) : Bool :=
  c = ',' || c = ';' || c = ':' || c = ']'

/-- Modelled from the spec: scan to the parenthesis matching an already-open
one, tracking nesting depth; used for recursive `$(...)` groups. -/
def scanParen : Nat → List Char → Option (List Char × List Char)
  | _, [] => none
  | depth, c :: rest =>
    if c = ')' then
      if depth = 0 then some ([], rest)
      else (scanParen (depth - 1) rest).map (fun p => (c :: p.1, p.2))
    else if c = '(' then
      (scanParen (depth + 1) rest).map (fun p => (c :: p.1, p.2))
    else
      (scanParen depth rest).map (fun p => (c :: p.1, p.2))

/-- Modelled from the spec: the two-letter atomic symbols recognised by the
tokenizer's bare-symbol rule. -/
def twoLetterSym (c d : Char) : Bool :=
  (c = 'C' && d = 'l') || (c = 'B' && d = 'r')

/-- Modelled from the spec: the tokenizer's rule for one bracket-interior
base/decorator token body: an atomic number, a wildcard, a recursive
`$(...)` group, a `$name` reference, a chirality mark, a signed charge, a
hybridisation mark or a letter token with an optional count. -/
def lexCore : List Char → Option (List Char × List Char)
  | [] => none
  | c :: cs =>
    if c = '#' then
      if (cs.takeWhile Char.isDigit).isEmpty then none
      else some (c :: cs.takeWhile Char.isDigit, cs.dropWhile Char.isDigit)
    else if c = '*' then some ([c], cs)
    else if c = '$' then
      match cs with
      | d :: rest =>
        if d = '(' then
          (scanParen 0 rest).map (fun p => (c :: d :: (p.1 ++ [')']), p.2))
        else
          if (cs.takeWhile Char.isAlphanum).isEmpty then none
          else some (c :: cs.takeWhile Char.isAlphanum, cs.dropWhile Char.isAlphanum)
      | [] => none
    else if c = '@' then
      match cs with
      | d :: rest => if d = '@' then some ([c, d], rest) else some ([c], cs)
      | [] => some ([c], cs)
    else if c = '+' || c = '-' || c = '^' then
      some (c :: cs.takeWhile Char.isDigit, cs.dropWhile Char.isDigit)
    else if c.isAlpha then
      match cs with
      | d :: rest =>
        if twoLetterSym c d then
          some (c :: d :: rest.takeWhile Char.isDigit, rest.dropWhile Char.isDigit)
        else
          some (c :: cs.takeWhile Char.isDigit, cs.dropWhile Char.isDigit)
      | [] => some ([c], [])
    else none

/-- Modelled from the spec: one bracket-interior token, possibly negated by
a leading bang, which stays part of the single entry it negates. -/
def lexItem : List Char → Option (List Char × List Char)
  | [] => none
  | c :: cs =>
    if c = '!' then (lexCore cs).map (fun p => (c :: p.1, p.2))
    else lexCore (c :: cs)

/-- Modelled from the spec: the consecutive tokens of one bracket-interior
group, up to the next separator character. -/
def lexItems (stop : Char → Bool) : Nat → List Char → Option (List (List Char) × List Char)
  | 0, _ => none
  | _ + 1, [] => some ([], [])
  | fuel + 1, c :: cs =>
    if stop c then some ([], c :: cs)
    else
      match lexItem (c :: cs) with
      | none => none
      | some (t, rest) => (lexItems stop fuel rest).map (fun p => (t :: p.1, p.2))

/-- Modelled from the spec: an OR-entry assembled from its tokens — the
first token is the base, the remaining tokens its decorators. -/
def entryOfToks : List (List Char) → Option (String × List String)
  | [] => none
  | t :: ts => some (String.mk t, ts.map String.mk)

/-- Modelled from the spec: the comma-separated OR-entry list of a
bracketed atom. -/
def parseORList : Nat → List Char → Option (List (String × List String) × List Char)
  | 0, _ => none
  | fuel + 1, l =>
    match lexItems isStopChar (l.length + 1) l with
    | none => none
    | some (toks, rest) =>
      match entryOfToks toks with
      | none => none
      | some e =>
        match rest with
        | c0 :: rest2 =>
          if c0 = ',' then (parseORList fuel rest2).map (fun p => (e :: p.1, p.2))
          else some ([e], c0 :: rest2)
        | [] => some ([e], [])

/-- Modelled from the spec: the semicolon-separated AND-entry list of a
bracketed atom; each group's tokens are kept as one entry string. -/
def parseANDList : Nat → List Char → Option (List String × List Char)
  | 0, _ => none
  | fuel + 1, l =>
    match l with
    | c0 :: rest =>
      if c0 = ';' then
        match lexItems isStopChar (rest.length + 1) rest with
        | none => none
        | some (toks, rest2) =>
          if toks.isEmpty then none
          else (parseANDList fuel rest2).map
            (fun p => (String.mk toks.flatten :: p.1, p.2))
      else some ([], c0 :: rest)
    | [] => some ([], [])

/-- Modelled from the spec: the optional tag and the closing bracket at the
end of a bracketed atom. -/
def parseTagClose : List Char → Option (Option Nat × List Char)
  | [] => none
  | c :: rest =>
    if c = ':' then
      if (rest.takeWhile Char.isDigit).isEmpty then none
      else
        match rest.dropWhile Char.isDigit with
        | d :: r =>
          if d = ']' then some (some (digitsToNat (rest.takeWhile Char.isDigit)), r)
          else none
        | [] => none
    else if c = ']' then some (none, rest)
    else none

/-- Modelled from the spec: a lone wildcard OR-entry on an atom denotes
"any atom" and is stored as an empty OR-entry list. -/
def normalizeAtomORs (l : List (String × List String)) : List (String × List String) :=
  if l = [("*", [])] then [] else l

/-- Modelled from the spec: a lone wildcard OR-entry on a bond denotes "any
bond" and is stored as an empty OR-entry list. -/
def normalizeBondORs (l : List (String × List String)) : List (String × List String) :=
  if l = [("~", [])] then [] else l

/-- Modelled from the spec: the interior of a bracketed atom, after the
opening bracket — OR-entries, AND-entries, optional tag, closing bracket. -/
def parseAtomBody (l : List Char) : Option (AtomInfo × List Char) :=
  match parseORList (l.length + 1) l with
  | none => none
  | some (ors, r1) =>
    match parseANDList (r1.length + 1) r1 with
    | none => none
    | some (ands, r2) =>
      match parseTagClose r2 with
      | none => none
      | some (tag, rest) => some (⟨tag, normalizeAtomORs ors, ands⟩, rest)

/-- Modelled from the spec: an un-bracketed bare atomic symbol outside
square brackets, normalized to an implicit single-OR-entry bracketed atom
(a bare wildcard stays a wildcard). -/
def lexBareAtom : List Char → Option (AtomInfo × List Char)
  | [] => none
  | c :: cs =>
    if c = '*' then some (⟨none, [], []⟩, cs)
    else if c.isAlpha then
      match cs with
      | d :: rest =>
        if twoLetterSym c d then some (⟨none, [(String.mk [c, d], [])], []⟩, rest)
        else some (⟨none, [(String.mk [c], [])], []⟩, cs)
      | [] => some (⟨none, [(String.mk [c], [])], []⟩, [])
    else none

/-- Modelled from the spec: one bond-type token, possibly negated by a
leading bang; bond tokens never absorb trailing digits, which belong to
ring closures. -/
def lexBondTok : List Char → Option (List Char × List Char)
  | [] => none
  | c :: cs =>
    if c = '!' then
      match cs with
      | d :: rest => if isBondChar d then some ([c, d], rest) else none
      | [] => none
    else if isBondChar c then some ([c], cs)
    else none

/-- Modelled from the spec: the consecutive bond tokens of one bond group. -/
def lexBondToks : Nat → List Char → Option (List (List Char) × List Char)
  | 0, _ => none
  | fuel + 1, l =>
    match lexBondTok l with
    | none => some ([], l)
    | some (t, rest) => (lexBondToks fuel rest).map (fun p => (t :: p.1, p.2))

/-- Modelled from the spec: the comma-separated OR-entry list of a bond. -/
def parseBondORList : Nat → List Char → Option (List (String × List String) × List Char)
  | 0, _ => none
  | fuel + 1, l =>
    match lexBondToks (l.length + 1) l with
    | none => none
    | some (toks, rest) =>
      match entryOfToks toks with
      | none => none
      | some e =>
        match rest with
        | c0 :: rest2 =>
          if c0 = ',' then (parseBondORList fuel rest2).map (fun p => (e :: p.1, p.2))
          else some ([e], c0 :: rest2)
        | [] => some ([e], [])

/-- Modelled from the spec: the semicolon-separated AND-entry list of a
bond. -/
def parseBondANDList : Nat → List Char → Option (List String × List Char)
  | 0, _ => none
  | fuel + 1, l =>
    match l with
    | c0 :: rest =>
      if c0 = ';' then
        match lexBondToks (rest.length + 1) rest with
        | none => none
        | some (toks, rest2) =>
          if toks.isEmpty then none
          else (parseBondANDList fuel rest2).map
            (fun p => (String.mk toks.flatten :: p.1, p.2))
      else some ([], c0 :: rest)
    | [] => some ([], [])

/-- Modelled from the spec: an explicit bond group between two chain
positions, when one is present; an omitted bond symbol is reported as
`none` and normalized by the caller. -/
def parseBondSection (l : List Char) : Option (Option BondInfo × List Char) :=
  match l with
  | [] => some (none, [])
  | c :: _ =>
    if isBondChar c || c = '!' then
      match parseBondORList (l.length + 1) l with
      | none => none
      | some (ors, r1) =>
        match parseBondANDList (r1.length + 1) r1 with
        | none => none
        | some (ands, rest) => some (some ⟨normalizeBondORs ors, ands⟩, rest)
    else some (none, l)

/-- Modelled from the spec: the normalization of an omitted bond symbol
between two atoms — the literal single-or-aromatic OR-set. -/
def defaultBond : BondInfo := ⟨[("-", []), (":", [])], []⟩

/-- Modelled from the spec: the mutable state of the Recursive-Descent
Builder — the graph under construction, the current-atom cursor, the branch
stack and the pending ring-closure registrations. -/
structure PState where
  g : Graph
  cursor : Option Nat
  stack : List Nat
  rings : List (Nat × Nat × Option BondInfo)
deriving DecidableEq, Repr

/-- Modelled from the spec: the pending ring-closure registration for a
digit, if any. -/
def ringLookup (rs : List (Nat × Nat × Option BondInfo)) (d : Nat) :
    Option (Nat × Option BondInfo) :=
  (rs.find? (fun p => p.1 == d)).map (fun p => p.2)

/-- Modelled from the spec: consume a ring-closure digit once the closure
resolves, so the digit may be reused afterwards. -/
def ringRemove (rs : List (Nat × Nat × Option BondInfo)) (d : Nat) :
    List (Nat × Nat × Option BondInfo) :=
  rs.filter (fun p => p.1 != d)

/-- Modelled from the spec: the builder's commit of a parsed atom — fails
with `DuplicateTagError` on a tag collision, otherwise appends the atom,
bonded to the cursor via the pending bond (normalized when omitted), or as
the root when it is the first atom. -/
def attachAtom (st : PState) (a : AtomInfo) (obnd : Option BondInfo) :
    Except EnvError PState :=
  if (match a.index with | some t => st.g.usedTags.contains t | none => false) then
    .error .duplicateTagErr
  else
    let i := st.g.fresh
    match st.cursor with
    | none =>
      if obnd.isSome then .error .lexErr
      else .ok { st with g := ⟨st.g.atoms ++ [(i, a)], st.g.bonds, i + 1⟩, cursor := some i }
    | some c =>
      .ok { st with
            g := ⟨st.g.atoms ++ [(i, a)], st.g.bonds ++ [(c, i, obnd.getD defaultBond)], i + 1⟩,
            cursor := some i }

/-- Modelled from the spec: the Recursive-Descent Builder loop over the
token stream — branch parentheses push and pop the cursor, ring-closure
digits register and resolve back-edges, and atoms are committed bonded to
the cursor; end-of-input with unresolved closures or unbalanced branches
fails with `UnbalancedStructureError`. -/
def parseChain : Nat → List Char → PState → Except EnvError PState
  | 0, _, _ => .error .lexErr
  | _ + 1, [], st =>
    if st.stack.isEmpty && st.rings.isEmpty then .ok st else .error .unbalancedErr
  | fuel + 1, c0 :: rest0, st =>
    if c0 = '(' then
      match st.cursor with
      | some c => parseChain fuel rest0 { st with stack := c :: st.stack }
      | none => .error .unbalancedErr
    else if c0 = ')' then
      match st.stack with
      | p :: ps => parseChain fuel rest0 { st with cursor := some p, stack := ps }
      | [] => .error .unbalancedErr
    else
      match parseBondSection (c0 :: rest0) with
      | none => .error .lexErr
      | some (obnd, rest) =>
        match rest with
        | c :: rest2 =>
          if c.isDigit then
            match st.cursor with
            | none => .error .unbalancedErr
            | some cur =>
              let d := c.toNat - 48
              match ringLookup st.rings d with
              | some (a, openB) =>
                let b := match obnd with
                         | some b => b
                         | none => match openB with | some b => b | none => defaultBond
                parseChain fuel rest2 { st with
                  g := ⟨st.g.atoms, st.g.bonds ++ [(a, cur, b)], st.g.fresh⟩,
                  rings := ringRemove st.rings d }
              | none =>
                parseChain fuel rest2 { st with rings := st.rings ++ [(d, cur, obnd)] }
          else if c = '[' then
            match parseAtomBody rest2 with
            | none => .error .lexErr
            | some (a, rest3) =>
              match attachAtom st a obnd with
              | .error e => .error e
              | .ok st2 => parseChain fuel rest3 st2
          else
            match lexBareAtom rest with
            | none => .error .lexErr
            | some (a, rest3) =>
              match attachAtom st a obnd with
              | .error e => .error e
              | .ok st2 => parseChain fuel rest3 st2
        | [] =>
          if obnd.isSome then .error .unbalancedErr
          else if st.stack.isEmpty && st.rings.isEmpty then .ok st
          else .error .unbalancedErr

/-- Modelled from the spec: the parse entry point — runs the
recursive-descent builder over a pattern string and returns the finished
Environment Graph (the empty string yields the empty generic environment). -/
def parseSmirks (s : String) : Except EnvError Graph :=
  if s.data.isEmpty then .ok ⟨[], [], 0⟩
  else (parseChain (s.data.length + 1) s.data ⟨⟨[], [], 0⟩, none, [], []⟩).map
    (fun st => st.g)

/-- Modelled from the spec: the serializer's depth-first walk from the root
over the node/edge table, children visited in edge insertion order — an
explicit-stack loop computing the visit order, the spanning-tree parent of
every non-root node, and the non-tree (ring-closure) back edges. -/
def dfsLoop (G : Graph) :
    Nat → List (Nat × Option Nat × List (Nat × BondInfo)) →
    List Nat → List (Nat × Nat) → List (Nat × Nat × BondInfo) →
    (List Nat × List (Nat × Nat) × List (Nat × Nat × BondInfo))
  | 0, _, visited, par, backs => (visited, par, backs)
  | _ + 1, [], visited, par, backs => (visited, par, backs)
  | fuel + 1, (_, _, []) :: rest, visited, par, backs =>
    dfsLoop G fuel rest visited par backs
  | fuel + 1, (u, p, (v, b) :: es) :: rest, visited, par, backs =>
    if some v = p then
      dfsLoop G fuel ((u, p, es) :: rest) visited par backs
    else if visited.contains v then
      if backs.any (fun e => (e.1 == u && e.2.1 == v) || (e.1 == v && e.2.1 == u)) then
        dfsLoop G fuel ((u, p, es) :: rest) visited par backs
      else
        dfsLoop G fuel ((u, p, es) :: rest) visited par (backs ++ [(u, v, b)])
    else
      dfsLoop G fuel ((v, some u, G.adj v) :: (u, p, es) :: rest)
        (visited ++ [v]) (par ++ [(v, u)]) backs

/-- Modelled from the spec: the whole depth-first walk of a graph, starting
at the root. -/
def Graph.dfs (G : Graph) :
    List Nat × List (Nat × Nat) × List (Nat × Nat × BondInfo) :=
  match G.root with
  | none => ([], [], [])
  | some r =>
    dfsLoop G (G.atoms.length + 2 * G.bonds.length + 2) [(r, none, G.adj r)] [r] [] []

/-- Modelled from the spec: orient every back edge so that its first
component is the endpoint printed first during the walk (the ring-closure
digit opens there and closes, with the bond, at the other endpoint). -/
def orientBacks (visited : List Nat) (backs : List (Nat × Nat × BondInfo)) :
    List (Nat × Nat × BondInfo) :=
  backs.map (fun e =>
    if visited.indexOf e.1 ≤ visited.indexOf e.2.1 then e else (e.2.1, e.1, e.2.2))

/-- Modelled from the spec: the serializer's branch layout — every
non-final child parenthesized, the final child emitted inline. -/
def assembleKids : List (List Char × List Char) → List Char
  | [] => []
  | [(b, s)] => b ++ s
  | (b, s) :: rest => ('(' :: (b ++ s)) ++ (')' :: assembleKids rest)

/-- Modelled from the spec: the children of a node in the serializer's
spanning tree — the adjacent nodes whose recorded tree parent is this node,
in edge insertion order. -/
def childrenOf (G : Graph) (par : List (Nat × Nat)) (u : Nat) : List (Nat × BondInfo) :=
  (G.adj u).filterMap
    (fun q => if (par.find? (fun pr => pr.1 == q.1)).map (fun pr => pr.2) == some u
      then some q else none)

/-- Modelled from the spec: the serializer's recursive emission from one
node — the bracketed atom, its ring-closure digits (fresh small integers
unique within the walk, emitted once at each endpoint, the bond at the
closing one), then the children as branches. -/
def printFrom (G : Graph) (par : List (Nat × Nat))
    (oriented : List (Nat × Nat × Nat × BondInfo)) :
    Nat → Nat → List Char
  | 0, _ => []
  | fuel + 1, u =>
    let astr := (match G.findAtom u with | some a => a.asSMIRKS.data | none => [])
    let ops := oriented.filterMap
      (fun q => if q.2.1 == u then some (digitChar q.1) else none)
    let cls := (oriented.filterMap
      (fun q => if q.2.2.1 == u then
          some (q.2.2.2.asSMIRKS.data ++ [digitChar q.1]) else none)).flatten
    astr ++ ops ++ cls ++
      assembleKids ((childrenOf G par u).map
        (fun q => (q.2.asSMIRKS.data, printFrom G par oriented fuel q.1)))

/-- Modelled from the spec: the Serializer — a canonical pattern string from
a depth-first walk from the root, with ring-closure renumbering; the empty
graph (the generic environment) serializes to the empty string. -/
def Graph.asSMIRKS (G : Graph) : String :=
  match G.root with
  | none => ""
  | some r =>
    let t := G.dfs
    let oriented := (orientBacks t.1 t.2.2).enum.map (fun q => (q.1 + 1, q.2))
    String.mk (printFrom G t.2.1 oriented (G.atoms.length + 1) r)

/-- Modelled from the spec: the five Variant kinds of the catalog. -/
inductive VariantKind where
  | atomKind
  | bondKind
  | angleKind
  | torsionKind
  | improperKind
deriving DecidableEq, Repr

/-- Modelled from the spec: the required tag count of each Variant. -/
def VariantKind.requiredTagCount : VariantKind → Nat
  | .atomKind => 1
  | .bondKind => 2
  | .angleKind => 3
  | .torsionKind => 4
  | .improperKind => 4

/-- Modelled from the spec: the default (generic) skeleton pattern of each
Variant; the improper torsion's third tagged atom is a branch off the
second. -/
def VariantKind.defaultPattern : VariantKind → String
  | .atomKind => "[*:1]"
  | .bondKind => "[*:1]~[*:2]"
  | .angleKind => "[*:1]~[*:2]~[*:3]"
  | .torsionKind => "[*:1]~[*:2]~[*:3]~[*:4]"
  | .improperKind => "[*:1]~[*:2](~[*:3])~[*:4]"

/-- Modelled from the spec: the number of tagged atoms of a graph. -/
def Graph.taggedCount (G : Graph) : Nat :=
  G.usedTags.length

/-- Modelled from the spec: the improper-torsion shape check — the third
and fourth tagged atoms both attach to the second, so the third tagged atom
is a branch off the second rather than a chain continuation. -/
def improperShapeOk (G : Graph) : Bool :=
  match G.selectAtom 2, G.selectAtom 3, G.selectAtom 4 with
  | some a2, some a3, some a4 =>
    (G.getBond a2.1 a3.1).isSome && (G.getBond a2.1 a4.1).isSome
  | _, _, _ => false

/-- Modelled from the spec: `createVariant` — with the pattern omitted,
builds the graph from the Variant's default skeleton; otherwise runs the
parse pipeline, then fails with `TagCountError` on a tag-count mismatch or
`TagShapeError` for a malformed improper. -/
def createVariant (k : VariantKind) (pattern : Option String) : Except EnvError Graph :=
  match pattern with
  | none => parseSmirks k.defaultPattern
  | some p =>
    match parseSmirks p with
    | .error e => .error e
    | .ok G =>
      if G.taggedCount ≠ k.requiredTagCount then .error .tagCountErr
      else if k == VariantKind.improperKind && !improperShapeOk G then .error .tagShapeErr
      else .ok G

/-- Modelled from the spec: a token group is well-formed when the tokenizer
splits its concatenation back into exactly these tokens. -/
def wfGroupToks (toks : List (List Char)) : Bool :=
  match lexItems isStopChar (toks.flatten.length + 1) (toks.flatten ++ [']']) with
  | some (toks2, rest) => toks2 == toks && rest == [']']
  | none => false

/-- Modelled from the spec: the tokens of one OR-entry — the base token
followed by the decorator tokens. -/
def entryToks (e : String × List String) : List (List Char) :=
  e.1.data :: e.2.map String.data

/-- Modelled from the spec: well-formedness of one atom OR-entry. -/
def wfEntry (e : String × List String) : Bool :=
  wfGroupToks (entryToks e)

/-- Modelled from the spec: well-formedness of one atom AND-entry string —
the tokenizer accepts it whole as one nonempty token group. -/
def wfAndStr (s : String) : Bool :=
  match lexItems isStopChar (s.data.length + 1) (s.data ++ [']']) with
  | some (toks, rest) =>
    decide (toks.flatten = s.data) && decide (rest = [']']) && !toks.isEmpty
  | none => false

/-- Modelled from the spec: tags are positive integers. -/
def wfTag : Option Nat → Bool
  | none => true
  | some n => decide (1 ≤ n)

/-- Modelled from the spec: well-formedness of one Atom descriptor — all
entries tokenizable, the wildcard stored canonically as the empty OR-list,
and a positive tag. -/
def wfAtom (a : AtomInfo) : Bool :=
  a.ORtypes.all wfEntry && decide (a.ORtypes ≠ [("*", [])]) &&
    a.ANDtypes.all wfAndStr && wfTag a.index

/-- Modelled from the spec: a bond token group is well-formed when the bond
tokenizer splits its concatenation back into exactly these tokens. -/
def wfBondGroupToks (toks : List (List Char)) : Bool :=
  match lexBondToks (toks.flatten.length + 1) toks.flatten with
  | some (toks2, rest) => toks2 == toks && rest == []
  | none => false

/-- Modelled from the spec: well-formedness of one bond OR-entry. -/
def wfBondEntry (e : String × List String) : Bool :=
  wfBondGroupToks (entryToks e)

/-- Modelled from the spec: well-formedness of one bond AND-entry string. -/
def wfBondAndStr (s : String) : Bool :=
  match lexBondToks (s.data.length + 1) s.data with
  | some (toks, rest) =>
    decide (toks.flatten = s.data) && decide (rest = []) && !toks.isEmpty
  | none => false

/-- Modelled from the spec: well-formedness of one Bond descriptor. -/
def wfBond (b : BondInfo) : Bool :=
  b.ORtypes.all wfBondEntry && decide (b.ORtypes ≠ [("~", [])]) &&
    b.ANDtypes.all wfBondAndStr

/-- Modelled from the spec: the preorder node sequence of the serializer's
walk — each node followed by its children's subtrees in order. -/
def preorderF (G : Graph) (par : List (Nat × Nat)) : Nat → Nat → List Nat
  | 0, _ => []
  | fuel + 1, u =>
    u :: ((childrenOf G par u).map (fun q => preorderF G par fuel q.1)).flatten

/-- Modelled from the spec: whether the fuel bound suffices to finish the
walk of the whole subtree below a node. -/
def fullF (G : Graph) (par : List (Nat × Nat)) : Nat → Nat → Bool
  | 0, _ => false
  | fuel + 1, u => (childrenOf G par u).all (fun q => fullF G par fuel q.1)

/-- Modelled from the spec: the atom table the builder constructs while
re-reading a serialized node sequence — consecutive fresh ids paired with
the stored descriptors. -/
def imageFrom (G : Graph) : Nat → List Nat → List (Nat × AtomInfo)
  | _, [] => []
  | k, v :: vs => (k, (G.findAtom v).getD ⟨none, [], []⟩) :: imageFrom G (k + 1) vs

/-- Modelled from the spec: the serializer's numbered, oriented ring-closure
list — back edges numbered from 1 in discovery order, opening endpoint
first. -/
def orientedOf (G : Graph) : List (Nat × Nat × Nat × BondInfo) :=
  (orientBacks G.dfs.1 G.dfs.2.2).enum.map (fun q => (q.1 + 1, q.2))

/-- Modelled from the spec: the ring-closure bonds recorded when a node is
reached — one per numbered back edge closing there, endpoints translated to
builder ids. -/
def closesAt (oriented : List (Nat × Nat × Nat × BondInfo)) (visited : List Nat) (u : Nat) :
    List (Nat × Nat × BondInfo) :=
  oriented.filterMap (fun q =>
    if q.2.2.1 == u then some (visited.indexOf q.2.1, visited.indexOf u, q.2.2.2) else none)

/-- Modelled from the spec: the bond table the builder appends while
re-reading one serialized subtree — ring closures at the node, then, per
child, its tree bond followed by the child's own events. -/
def evBonds (G : Graph) (par : List (Nat × Nat))
    (oriented : List (Nat × Nat × Nat × BondInfo)) (visited : List Nat) :
    Nat → Nat → List (Nat × Nat × BondInfo)
  | 0, _ => []
  | fuel + 1, u =>
    closesAt oriented visited u ++
      ((childrenOf G par u).map (fun q =>
        (visited.indexOf u, visited.indexOf q.1, q.2) ::
          evBonds G par oriented visited fuel q.1)).flatten

/-- Modelled from the spec: the pending ring registrations the builder holds
once `m` atoms are attached — exactly one entry per numbered back edge whose
opening endpoint is already attached and whose closing endpoint is not. -/
def RingsInv (oriented : List (Nat × Nat × Nat × BondInfo)) (visited : List Nat)
    (rings : List (Nat × Nat × Option BondInfo)) (m : Nat) : Prop :=
  (∀ e, e ∈ rings ↔ ∃ a c b, (e.1, a, c, b) ∈ oriented ∧ e.2.1 = visited.indexOf a ∧
      e.2.2 = none ∧ visited.indexOf a < m ∧ m ≤ visited.indexOf c) ∧
    rings.Pairwise (fun e1 e2 => e1.1 ≠ e2.1)

/-- Modelled from the spec: a tag-preserving, OR/AND-entry-preserving graph
isomorphism along a node renaming — descriptors carried over verbatim,
bonds corresponding up to endpoint order. -/
def GraphIso (f : Nat → Nat) (G G2 : Graph) : Prop :=
  (∀ v ∈ G.atomIds, ∀ w ∈ G.atomIds, f v = f w → v = w) ∧
  G2.atoms.length = G.atoms.length ∧
  (∀ v a, G.findAtom v = some a → G2.findAtom (f v) = some a) ∧
  G2.bonds.length = G.bonds.length ∧
  (∀ x y b, (x, y, b) ∈ G.bonds → (f x, f y, b) ∈ G2.bonds ∨ (f y, f x, b) ∈ G2.bonds) ∧
  (∀ i j b, (i, j, b) ∈ G2.bonds →
    ∃ x y, f x = i ∧ f y = j ∧ ((x, y, b) ∈ G.bonds ∨ (y, x, b) ∈ G.bonds))

/-- Modelled from the spec: the tags seen along a node sequence. -/
def tagsAlong (G : Graph) (vs : List Nat) : List Nat :=
  vs.filterMap (fun v => match G.findAtom v with | some a => a.index | none => none)

/-- Modelled from the spec: the executable well-formedness check on an
Environment Graph — distinct node ids and tags, canonical descriptors,
simple valid bonds, and a serializer walk that covers the graph exactly:
the visit order enumerates every node once in preorder, spanning-tree and
back edges partition the bonds, and at most nine oriented ring closures. -/
def WellFormed (G : Graph) : Bool :=
  match G.root with
  | none => G.atoms.isEmpty && G.bonds.isEmpty
  | some r =>
    let t := G.dfs
    let visited := t.1
    let par := t.2.1
    let backs := t.2.2
    let oriented := orientedOf G
    let n := G.atoms.length
    decide G.atomIds.Nodup &&
    G.atoms.all (fun p => wfAtom p.2) &&
    G.bonds.all (fun e => wfBond e.2.2) &&
    decide (tagsAlong G visited).Nodup &&
    G.bonds.all (fun e => G.atomIds.contains e.1 && G.atomIds.contains e.2.1 &&
      (e.1 != e.2.1)) &&
    decide (G.bonds.map (fun e => (Nat.min e.1 e.2.1, Nat.max e.1 e.2.1))).Nodup &&
    decide visited.Nodup &&
    (visited.length == n) &&
    visited.all (fun v => G.atomIds.contains v) &&
    decide (par.map Prod.fst = visited.drop 1) &&
    decide (visited = preorderF G par (n + 1) r) &&
    fullF G par (n + 1) r &&
    oriented.all (fun q => visited.contains q.2.1 && visited.contains q.2.2.1 &&
      decide (visited.indexOf q.2.1 < visited.indexOf q.2.2.1)) &&
    decide (backs.length ≤ 9) &&
    decide (oriented.map (fun q => q.1)).Nodup &&
    backs.all (fun e => G.bonds.any (fun fb =>
      ((fb.1 == e.1 && fb.2.1 == e.2.1) || (fb.1 == e.2.1 && fb.2.1 == e.1)) &&
        fb.2.2 == e.2.2)) &&
    (par.length + backs.length == G.bonds.length) &&
    G.bonds.all (fun e =>
      par.any (fun p => (p.1 == e.2.1 && p.2 == e.1) || (p.1 == e.1 && p.2 == e.2.1)) ||
      backs.any (fun q => (q.1 == e.1 && q.2.1 == e.2.1) || (q.1 == e.2.1 && q.2.1 == e.1)))

/-- Modelled from the spec: the builder-serializer simulation statement for
one subtree at a given walk fuel — re-reading a subtree's serialization,
preceded by its tree bond, from a builder state holding the printed prefix
extends the state by exactly the subtree's atoms, bonds and pending rings. -/
def BStmt (G : Graph) (par : List (Nat × Nat)) (oriented : List (Nat × Nat × Nat × BondInfo))
    (visited : List Nat) (fuel : Nat) : Prop :=
  ∀ (v : Nat) (pre post : List Nat) (bv : BondInfo) (cu : Nat) (st : PState)
    (rest : List Char) (F : Nat),
    visited = pre ++ (preorderF G par fuel v ++ post) →
    fullF G par fuel v = true →
    wfBond bv = true →
    st.g.atoms = imageFrom G 0 pre →
    st.g.fresh = pre.length →
    st.cursor = some cu →
    RingsInv oriented visited st.rings pre.length →
    F ≥ (bv.chars ++ (printFrom G par oriented fuel v ++ rest)).length + 1 →
    ∃ F2 cur2 rings2,
      F2 ≥ rest.length + 1 ∧
      RingsInv oriented visited rings2 (pre.length + (preorderF G par fuel v).length) ∧
      parseChain F (bv.chars ++ (printFrom G par oriented fuel v ++ rest)) st =
        parseChain F2 rest
          { g := ⟨imageFrom G 0 (pre ++ preorderF G par fuel v),
                  st.g.bonds ++
                    ((cu, visited.indexOf v, bv) :: evBonds G par oriented visited fuel v),
                  pre.length + (preorderF G par fuel v).length⟩,
            cursor := cur2, stack := st.stack, rings := rings2 }

/-! Helper lemmas about folded minima, used for the bond-order claims. -/

theorem foldl_min_le_init (l : List Nat) (a : Nat) : l.foldl Nat.min a ≤ a := by
  induction l generalizing a with
  | nil => simp
  | cons y ys ih =>
    simp only [List.foldl_cons]
    exact le_trans (ih (Nat.min a y)) (Nat.min_le_left a y)

theorem foldl_min_le_mem (l : List Nat) : ∀ a x, x ∈ l → l.foldl Nat.min a ≤ x := by
  induction l with
  | nil =>
    intro a x hx
    cases hx
  | cons y ys ih =>
    intro a x hx
    simp only [List.foldl_cons]
    rcases List.mem_cons.mp hx with h | h
    · subst h
      exact le_trans (foldl_min_le_init ys (Nat.min a x)) (Nat.min_le_right a x)
    · exact ih (Nat.min a y) x h

theorem foldl_min_mem (l : List Nat) (a : Nat) :
    l.foldl Nat.min a = a ∨ l.foldl Nat.min a ∈ l := by
  induction l generalizing a with
  | nil => left; rfl
  | cons y ys ih =>
    simp only [List.foldl_cons]
    rcases ih (Nat.min a y) with h | h
    · rcases Nat.le_total a y with hay | hya
      · left
        rw [h]
        exact Nat.min_eq_left hay
      · right
        have hmin : Nat.min a y = y := Nat.min_eq_right hya
        rw [h, hmin]
        exact List.mem_cons_self y ys
    · right
      exact List.mem_cons_of_mem y h

/-- Decidable equality for fallible results, used to evaluate the model's
operations on concrete inputs. -/
instance {ε α : Type} [DecidableEq ε] [DecidableEq α] : DecidableEq (Except ε α) :=
  fun a b =>
    match a, b with
    | .ok x, .ok y =>
      if h : x = y then .isTrue (by rw [h]) else .isFalse (by intro q; cases q; exact h rfl)
    | .error x, .error y =>
      if h : x = y then .isTrue (by rw [h]) else .isFalse (by intro q; cases q; exact h rfl)
    | .ok _, .error _ => .isFalse (by intro q; cases q)
    | .error _, .ok _ => .isFalse (by intro q; cases q)

/-- C2: parsing the pattern `"[#6X3,#7:1]~;@[#8;r:2]~;@[#6X3,#7:3]"` and
selecting the atom tagged 1 yields exactly the OR-entry list
`[("#6",["X3"]), ("#7",[])]` and an empty AND-entry list, and selecting
bond 1 (between tagged atoms 1 and 2) yields an empty OR-entry list and
the AND-entry list `["@"]`. -/
theorem scenario2_select_atom_and_bond :
    ((parseSmirks "[#6X3,#7:1]~;@[#8;r:2]~;@[#6X3,#7:3]").toOption.bind
        (fun g => g.selectAtom 1)).map (fun p => (p.2.ORtypes, p.2.ANDtypes)) =
      some ([("#6", ["X3"]), ("#7", [])], []) ∧
    ((parseSmirks "[#6X3,#7:1]~;@[#8;r:2]~;@[#6X3,#7:3]").toOption.bind
        (fun g => g.selectBond 1)).map (fun b => (b.ORtypes, b.ANDtypes)) =
      some ([], ["@"]) :=
  ⟨rfl, rfl⟩

/-- C4: `removeAtom` on any tagged atom fails with `IndexedAtomError`
regardless of the `requireEmpty` argument — since the operation fails, no
updated graph is produced and the graph is left unchanged, so a tagged atom
is never deleted by `removeAtom`. -/
theorem removeAtom_indexed_fails (G : Graph) (i : Nat) (re : Bool)
    (h : G.isIndexed i = true) :
    G.removeAtom i re = .error .indexedAtomErr := by
  simp [Graph.removeAtom, h]

/-- Witness for C4: removing the atom tagged 1 of the parsed angle pattern
fails with `IndexedAtomError`, for both values of `requireEmpty`. -/
theorem removeAtom_indexed_fails_witness :
    (Graph.isIndexed ⟨[(0, ⟨some 1, [], []⟩), (1, ⟨none, [("#6", [])], []⟩)],
        [(0, 1, defaultBond)], 2⟩ 0 = true) ∧
    Graph.removeAtom ⟨[(0, ⟨some 1, [], []⟩), (1, ⟨none, [("#6", [])], []⟩)],
        [(0, 1, defaultBond)], 2⟩ 0 true = .error .indexedAtomErr ∧
    Graph.removeAtom ⟨[(0, ⟨some 1, [], []⟩), (1, ⟨none, [("#6", [])], []⟩)],
        [(0, 1, defaultBond)], 2⟩ 0 false = .error .indexedAtomErr :=
  ⟨by decide,
   removeAtom_indexed_fails _ 0 true (by decide),
   removeAtom_indexed_fails _ 0 false (by decide)⟩

/-- C5: each of the five Variants constructed with the pattern argument
omitted serializes to that Variant's default skeleton pattern, and its
number of tagged atoms equals the Variant's required tag count; the
improper's third tagged atom is attached as a branch off the second. -/
theorem createVariant_default_skeletons :
    (∀ k : VariantKind,
      (createVariant k none).map Graph.asSMIRKS = .ok k.defaultPattern ∧
      (createVariant k none).map Graph.taggedCount = .ok k.requiredTagCount) ∧
    (createVariant VariantKind.improperKind none).map improperShapeOk = .ok true := by
  refine ⟨fun k => ?_, rfl⟩
  cases k <;> exact ⟨rfl, rfl⟩

/-- C6: the derived minimum bond order is the lowest order implied by any
OR-alternative — it is attained by some OR-entry and bounds every OR-entry
from below; in particular a bond with OR-entries single and double reports
minimum order 1, and a bond whose sole OR-entry is double reports 2. -/
theorem getOrder_is_minimum :
    (∀ b : BondInfo, b.ORtypes ≠ [] →
      (∃ e ∈ b.ORtypes, bondBaseOrder e.1 = b.getOrder) ∧
      (∀ e ∈ b.ORtypes, b.getOrder ≤ bondBaseOrder e.1)) ∧
    BondInfo.getOrder ⟨[("-", []), ("=", [])], []⟩ = 1 ∧
    BondInfo.getOrder ⟨[("=", [])], []⟩ = 2 := by
  refine ⟨fun b hb => ?_, rfl, rfl⟩
  rcases hor : b.ORtypes with _ | ⟨e0, es⟩
  · exact absurd hor hb
  · have hgo : b.getOrder = (es.map (fun e => bondBaseOrder e.1)).foldl Nat.min
        (bondBaseOrder e0.1) := by
      simp [BondInfo.getOrder, hor]
    constructor
    · rcases foldl_min_mem (es.map (fun e => bondBaseOrder e.1)) (bondBaseOrder e0.1) with
        h | h
      · exact ⟨e0, by simp [hor], by rw [hgo, h]⟩
      · rcases List.mem_map.mp h with ⟨e, he, hee⟩
        exact ⟨e, by simp [hor, he], by rw [hgo, ← hee]⟩
    · intro e he
      have he2 : e ∈ e0 :: es := hor ▸ he
      rw [hgo]
      rcases List.mem_cons.mp he2 with h | h
      · subst h
        exact foldl_min_le_init _ _
      · exact foldl_min_le_mem _ _ _ (List.mem_map.mpr ⟨e, h, rfl⟩)

/-- Witness for C6: the minimum characterisation instantiated at the
single-or-double bond. -/
theorem getOrder_is_minimum_witness :
    (([("-", []), ("=", [])] : List (String × List String)) ≠ []) ∧
    ((∃ e ∈ ([("-", []), ("=", [])] : List (String × List String)),
        bondBaseOrder e.1 = BondInfo.getOrder ⟨[("-", []), ("=", [])], []⟩) ∧
      (∀ e ∈ ([("-", []), ("=", [])] : List (String × List String)),
        BondInfo.getOrder ⟨[("-", []), ("=", [])], []⟩ ≤ bondBaseOrder e.1)) :=
  ⟨by decide, getOrder_is_minimum.1 ⟨[("-", []), ("=", [])], []⟩ (by decide)⟩

/-- C7: an un-bracketed bare atomic symbol is normalized to an implicit
bracketed atom with at most one OR-entry (exactly one for a non-wildcard
symbol), and an omitted bond symbol is normalized to the single-or-aromatic
OR-set: parsing `"CCC"` yields three single-OR-entry atoms joined by the
default bond, serializing to `"[C]-,:[C]-,:[C]"`. -/
theorem bare_atoms_and_omitted_bonds_normalized :
    (∀ l a rest, lexBareAtom l = some (a, rest) →
      a.index = none ∧ a.ANDtypes = [] ∧ a.ORtypes.length ≤ 1) ∧
    defaultBond = ⟨[("-", []), (":", [])], []⟩ ∧
    parseSmirks "CCC" = .ok ⟨[(0, ⟨none, [("C", [])], []⟩), (1, ⟨none, [("C", [])], []⟩),
        (2, ⟨none, [("C", [])], []⟩)],
      [(0, 1, defaultBond), (1, 2, defaultBond)], 3⟩ ∧
    (parseSmirks "CCC").map Graph.asSMIRKS = .ok "[C]-,:[C]-,:[C]" := by
  refine ⟨?_, rfl, by decide, rfl⟩
  intro l a rest h
  rcases l with _ | ⟨c, cs⟩
  · exact Option.noConfusion h
  · simp only [lexBareAtom] at h
    repeat' split at h
    all_goals
      first
        | exact Option.noConfusion h
        | (cases h; exact ⟨rfl, rfl, by simp⟩)

/-- Witness for C7: the bare-symbol normalization instantiated at the bare
carbon symbol. -/
theorem bare_atoms_normalized_witness :
    lexBareAtom ['C'] = some (⟨none, [("C", [])], []⟩, []) ∧
    ((⟨none, [("C", [])], []⟩ : AtomInfo).index = none ∧
      (⟨none, [("C", [])], []⟩ : AtomInfo).ANDtypes = [] ∧
      (⟨none, [("C", [])], []⟩ : AtomInfo).ORtypes.length ≤ 1) :=
  ⟨by decide, bare_atoms_and_omitted_bonds_normalized.1 ['C'] _ [] (by decide)⟩

/-- C9: a Bond with zero OR-entries (a wildcard bond) has minimum order 1
rather than failing; in particular the wildcard-with-ring bond selected as
bond 1 of the parsed angle pattern reports order 1. -/
theorem getOrder_wildcard_bond :
    (∀ b : BondInfo, b.ORtypes = [] → b.getOrder = 1) ∧
    ((parseSmirks "[#6X3,#7:1]~;@[#8;r:2]~;@[#6X3,#7:3]").toOption.bind
        (fun g => g.selectBond 1)).map BondInfo.getOrder = some 1 := by
  refine ⟨fun b hb => ?_, rfl⟩
  simp [BondInfo.getOrder, hb]

/-- Witness for C9: the wildcard-bond order rule instantiated at the bond
with AND-entry at-sign and no OR-entries. -/
theorem getOrder_wildcard_bond_witness :
    (BondInfo.ORtypes ⟨[], ["@"]⟩ = []) ∧ BondInfo.getOrder ⟨[], ["@"]⟩ = 1 :=
  ⟨rfl, getOrder_wildcard_bond.1 ⟨[], ["@"]⟩ rfl⟩

/-! Helper lemmas about list search, used for the mutation-API claims. -/

theorem find?_append_none {α : Type} (p : α → Bool) (l1 l2 : List α)
    (h : l1.find? p = none) : (l1 ++ l2).find? p = l2.find? p := by
  induction l1 with
  | nil => rfl
  | cons x xs ih =>
    by_cases hx : p x = true
    · rw [List.find?_cons_of_pos _ hx] at h
      exact Option.noConfusion h
    · rw [List.find?_cons_of_neg _ hx] at h
      rw [List.cons_append, List.find?_cons_of_neg _ hx]
      exact ih h

/-- Helper for C3: in the graph extended by a fresh atom bonded to the
anchor, the new bond and the new atom are found. -/
theorem addAtom_ok_components (G : Graph) (anchor : Nat)
    (bOR : List (String × List String)) (bAND : List String)
    (aOR : List (String × List String)) (aAND : List String) (tag : Option Nat)
    (hb : ∀ e ∈ G.bonds, e.1 ≠ G.fresh ∧ e.2.1 ≠ G.fresh)
    (ha : ∀ q ∈ G.atoms, q.1 ≠ G.fresh) :
    Graph.getBond ⟨G.atoms ++ [(G.fresh, ⟨tag, aOR, aAND⟩)],
        G.bonds ++ [(anchor, G.fresh, ⟨bOR, bAND⟩)], G.fresh + 1⟩ anchor G.fresh =
      some ⟨bOR, bAND⟩ ∧
    Graph.findAtom ⟨G.atoms ++ [(G.fresh, ⟨tag, aOR, aAND⟩)],
        G.bonds ++ [(anchor, G.fresh, ⟨bOR, bAND⟩)], G.fresh + 1⟩ G.fresh =
      some ⟨tag, aOR, aAND⟩ := by
  constructor
  · unfold Graph.getBond
    have hnone : G.bonds.find? (fun e =>
        (e.1 == anchor && e.2.1 == G.fresh) || (e.1 == G.fresh && e.2.1 == anchor)) =
        none := by
      apply List.find?_eq_none.mpr
      intro e he
      have := hb e he
      simp only [Bool.or_eq_true, Bool.and_eq_true, beq_iff_eq]
      rintro (⟨h1, h2⟩ | ⟨h1, h2⟩)
      · exact this.2 h2
      · exact this.1 h1
    rw [show (⟨G.atoms ++ [(G.fresh, ⟨tag, aOR, aAND⟩)],
        G.bonds ++ [(anchor, G.fresh, ⟨bOR, bAND⟩)], G.fresh + 1⟩ : Graph).bonds =
        G.bonds ++ [(anchor, G.fresh, ⟨bOR, bAND⟩)] from rfl]
    rw [find?_append_none _ _ _ hnone]
    simp
  · unfold Graph.findAtom
    have hnone : G.atoms.find? (fun q => q.1 == G.fresh) = none := by
      apply List.find?_eq_none.mpr
      intro q hq
      simpa using ha q hq
    rw [show (⟨G.atoms ++ [(G.fresh, ⟨tag, aOR, aAND⟩)],
        G.bonds ++ [(anchor, G.fresh, ⟨bOR, bAND⟩)], G.fresh + 1⟩ : Graph).atoms =
        G.atoms ++ [(G.fresh, ⟨tag, aOR, aAND⟩)] from rfl]
    rw [find?_append_none _ _ _ hnone]
    simp

/-- C3: without `allowBeyondBeta`, `addAtom` fails with `BeyondBetaError`
exactly when the anchor is neither Indexed nor Alpha; with the flag set and
valid anchor/descriptors (a non-colliding tag, on a graph whose fresh id is
really fresh) it always succeeds, returning a new atom carrying the given
descriptors and bonded to the anchor. -/
theorem addAtom_beyond_beta_rule :
    (∀ (G : Graph) (anchor : Nat) bOR bAND aOR aAND tag,
      G.addAtom anchor bOR bAND aOR aAND tag false = .error .beyondBetaErr ↔
        (G.isIndexed anchor = false ∧ G.isAlpha anchor = false)) ∧
    (∀ (G : Graph) (anchor : Nat) bOR bAND aOR aAND tag,
      (∀ t, tag = some t → t ∉ G.usedTags) →
      (∀ e ∈ G.bonds, e.1 ≠ G.fresh ∧ e.2.1 ≠ G.fresh) →
      (∀ q ∈ G.atoms, q.1 ≠ G.fresh) →
      ∃ G2 i, G.addAtom anchor bOR bAND aOR aAND tag true = .ok (G2, i) ∧
        G2.getBond anchor i = some ⟨bOR, bAND⟩ ∧
        G2.findAtom i = some ⟨tag, aOR, aAND⟩) := by
  constructor
  · intro G anchor bOR bAND aOR aAND tag
    cases hInd : G.isIndexed anchor <;> cases hAl : G.isAlpha anchor <;>
      simp [Graph.addAtom, hInd, hAl] <;> split <;> simp
  · intro G anchor bOR bAND aOR aAND tag htag hb ha
    have hcomp := addAtom_ok_components G anchor bOR bAND aOR aAND tag hb ha
    refine ⟨⟨G.atoms ++ [(G.fresh, ⟨tag, aOR, aAND⟩)],
        G.bonds ++ [(anchor, G.fresh, ⟨bOR, bAND⟩)], G.fresh + 1⟩, G.fresh,
        ?_, hcomp.1, hcomp.2⟩
    rcases htag2 : tag with _ | t
    · simp [Graph.addAtom]
    · have hc : G.usedTags.contains t = false := by
        cases hc2 : G.usedTags.contains t with
        | false => rfl
        | true => exact absurd (by simpa using hc2) (htag t htag2)
      simp [Graph.addAtom, htag2, hc]
      exact htag t htag2

/-- Witness for C3: on the one-atom tagged graph, `addAtom` without the
flag on the indexed anchor does not report `BeyondBetaError`, and with the
flag it succeeds and bonds the new atom to the anchor. -/
theorem addAtom_beyond_beta_rule_witness :
    (Graph.addAtom ⟨[(0, ⟨some 1, [], []⟩)], [], 1⟩ 0 [] [] [("#6", [])] [] none false =
        .error .beyondBetaErr ↔
      (Graph.isIndexed ⟨[(0, ⟨some 1, [], []⟩)], [], 1⟩ 0 = false ∧
        Graph.isAlpha ⟨[(0, ⟨some 1, [], []⟩)], [], 1⟩ 0 = false)) ∧
    (∃ G2 i, Graph.addAtom ⟨[(0, ⟨some 1, [], []⟩)], [], 1⟩ 0 [] [] [("#6", [])] [] none true =
        .ok (G2, i) ∧
      G2.getBond 0 i = some ⟨[], []⟩ ∧
      G2.findAtom i = some ⟨none, [("#6", [])], []⟩) :=
  ⟨addAtom_beyond_beta_rule.1 ⟨[(0, ⟨some 1, [], []⟩)], [], 1⟩ 0 [] [] [("#6", [])] [] none,
   addAtom_beyond_beta_rule.2 ⟨[(0, ⟨some 1, [], []⟩)], [], 1⟩ 0 [] [] [("#6", [])] [] none
     (by intro t ht; cases ht) (by intro e he; cases he) (by decide)⟩

/-- Helper for C8: a successful coordinated expansion ends at a fixpoint of
the substitution pass. -/
theorem expandFix_fixpoint (M : List (String × String)) :
    ∀ (n : Nat) (s t : List Char), expandFix M n s = .ok t →
      expandOnePass M (t.length + 1) t = .ok t := by
  intro n
  induction n with
  | zero =>
    intro s t h
    exact Except.noConfusion h
  | succ n ih =>
    intro s t h
    rw [expandFix] at h
    split at h
    · exact Except.noConfusion h
    · rename_i u heq
      split at h
      · rename_i hus
        cases h
        rw [hus]
        rw [hus] at heq
        exact heq
      · exact ih u t h

/-- C8: macro expansion is idempotent — whenever `expand` succeeds,
re-running the expander on its own output performs no further substitution
and returns the output unchanged. -/
theorem expand_idempotent (M : List (String × String)) (s t : String)
    (h : expand M s = .ok t) : expand M t = .ok t := by
  unfold expand at h ⊢
  cases hf : expandFix M (M.length + 1) s.data with
  | error e =>
    rw [hf] at h
    exact Except.noConfusion h
  | ok l =>
    rw [hf] at h
    simp only [Except.map] at h
    cases h
    have hfp := expandFix_fixpoint M (M.length + 1) s.data l hf
    have hdata : (String.mk l).data = l := rfl
    rw [hdata, expandFix, hfp]
    simp [Except.map]

/-- Witness for C8: a concrete successful expansion, with the theorem
applied to its output. -/
theorem expand_idempotent_witness :
    expand [("a", "xy")] "w$a" = .ok "wxy" ∧ expand [("a", "xy")] "wxy" = .ok "wxy" :=
  ⟨rfl, expand_idempotent [("a", "xy")] "w$a" "wxy" rfl⟩

/-- C10: `getBond` returns `none` exactly when no edge connects the two
atoms and returns a connecting Bond otherwise; in the parsed three-atom
angle, atoms 1 and 3 are unbonded while atoms 1 and 2 share the
ring-AND-entry bond. -/
theorem getBond_none_iff_unbonded :
    (∀ (G : Graph) (a b : Nat),
      G.getBond a b = none ↔
        ∀ e ∈ G.bonds, ¬((e.1 = a ∧ e.2.1 = b) ∨ (e.1 = b ∧ e.2.1 = a))) ∧
    (∀ (G : Graph) (a b : Nat) (bd : BondInfo),
      G.getBond a b = some bd →
        (a, b, bd) ∈ G.bonds ∨ (b, a, bd) ∈ G.bonds) ∧
    ((parseSmirks "[#6X3,#7:1]~;@[#8;r:2]~;@[#6X3,#7:3]").toOption.bind (fun g =>
        (g.selectAtom 1).bind (fun p1 => (g.selectAtom 3).map (fun p3 =>
          g.getBond p1.1 p3.1)))) = some none ∧
    ((parseSmirks "[#6X3,#7:1]~;@[#8;r:2]~;@[#6X3,#7:3]").toOption.bind (fun g =>
        (g.selectAtom 1).bind (fun p1 => (g.selectAtom 2).map (fun p2 =>
          g.getBond p1.1 p2.1)))) = some (some ⟨[], ["@"]⟩) := by
  refine ⟨?_, ?_, rfl, rfl⟩
  · intro G a b
    unfold Graph.getBond
    rw [Option.map_eq_none', List.find?_eq_none]
    constructor
    · intro h e he
      have := h e he
      simp only [Bool.or_eq_true, Bool.and_eq_true, beq_iff_eq] at this
      exact this
    · intro h e he
      have := h e he
      simp only [Bool.or_eq_true, Bool.and_eq_true, beq_iff_eq]
      exact this
  · intro G a b bd h
    unfold Graph.getBond at h
    rcases Option.map_eq_some'.mp h with ⟨e, hfind, hbd⟩
    have hmem := List.mem_of_find?_eq_some hfind
    have hp := List.find?_some hfind
    simp only [Bool.or_eq_true, Bool.and_eq_true, beq_iff_eq] at hp
    rcases hp with ⟨h1, h2⟩ | ⟨h1, h2⟩
    · left
      have : e = (a, b, bd) := by
        rcases e with ⟨e1, e2, e3⟩
        simp only at h1 h2
        rw [h1, h2, ← hbd]
      rw [← this]
      exact hmem
    · right
      have : e = (b, a, bd) := by
        rcases e with ⟨e1, e2, e3⟩
        simp only at h1 h2
        rw [h1, h2, ← hbd]
      rw [← this]
      exact hmem

/-- Witness for C10: the soundness direction applied to the bond between
atom ids 0 and 1 of a two-atom graph. -/
theorem getBond_none_iff_unbonded_witness :
    Graph.getBond ⟨[(0, ⟨some 1, [], []⟩), (1, ⟨some 2, [], []⟩)], [(0, 1, ⟨[], ["@"]⟩)], 2⟩
        0 1 = some ⟨[], ["@"]⟩ ∧
    ((0, 1, (⟨[], ["@"]⟩ : BondInfo)) ∈
        [((0 : Nat), (1 : Nat), (⟨[], ["@"]⟩ : BondInfo))] ∨
      (1, 0, (⟨[], ["@"]⟩ : BondInfo)) ∈
        [((0 : Nat), (1 : Nat), (⟨[], ["@"]⟩ : BondInfo))]) :=
  ⟨rfl, getBond_none_iff_unbonded.2.1
    ⟨[(0, ⟨some 1, [], []⟩), (1, ⟨some 2, [], []⟩)], [(0, 1, ⟨[], ["@"]⟩)], 2⟩ 0 1 _ rfl⟩

/-! Character-level lemmas: how the tokenizers split a printed token off the
text that follows it, independently of that text. -/

theorem takeWhile_stop (p : Char → Bool) :
    ∀ (ds : List Char) (c : Char) (r : List Char),
      (ds ++ c :: r).takeWhile p = ds → p c = false := by
  intro ds
  induction ds with
  | nil =>
    intro c r h
    cases hc : p c with
    | false => rfl
    | true => simp [List.takeWhile_cons, hc] at h
  | cons x xs ih =>
    intro c r h
    rw [List.cons_append, List.takeWhile_cons] at h
    cases hx : p x with
    | false => simp [hx] at h
    | true =>
      simp only [hx, if_true] at h
      simp only [List.cons.injEq, true_and] at h
      exact ih c r h

theorem takeWhile_all (p : Char → Bool) :
    ∀ (ds : List Char) (c : Char) (r : List Char),
      (ds ++ c :: r).takeWhile p = ds → ∀ x ∈ ds, p x = true := by
  intro ds
  induction ds with
  | nil =>
    intro c r _ x hx
    cases hx
  | cons y ys ih =>
    intro c r h x hx
    rw [List.cons_append, List.takeWhile_cons] at h
    cases hy : p y with
    | false => simp [hy] at h
    | true =>
      simp only [hy, if_true] at h
      simp only [List.cons.injEq, true_and] at h
      rcases List.mem_cons.mp hx with hxy | hxm
      · rw [hxy]; exact hy
      · exact ih c r h x hxm

theorem takeWhile_of_all (p : Char → Bool) :
    ∀ (ds : List Char) (c : Char) (r : List Char),
      (∀ x ∈ ds, p x = true) → p c = false →
      (ds ++ c :: r).takeWhile p = ds ∧ (ds ++ c :: r).dropWhile p = c :: r := by
  intro ds
  induction ds with
  | nil =>
    intro c r _ hc
    constructor
    · simp [List.takeWhile_cons, hc]
    · simp [List.dropWhile_cons, hc]
  | cons y ys ih =>
    intro c r hall hc
    have hy : p y = true := hall y (List.mem_cons_self y ys)
    have ihr := ih c r (fun x hx => hall x (List.mem_cons_of_mem y hx)) hc
    constructor
    · simp only [List.cons_append, List.takeWhile_cons, hy, if_true, ihr.1]
    · simp only [List.cons_append, List.dropWhile_cons, hy, if_true]
      exact ihr.2

theorem map_cons_peel {x : Char} {o : Option (List Char × List Char)}
    {xs r : List Char}
    (h : o.map (fun p => (x :: p.1, p.2)) = some (x :: xs, r)) : o = some (xs, r) := by
  cases o with
  | none => exact Option.noConfusion h
  | some p =>
    rcases p with ⟨p1, p2⟩
    have h2 : (x :: p1, p2) = (x :: xs, r) := Option.some.inj h
    have hfst : x :: p1 = x :: xs := congrArg Prod.fst h2
    have hsnd : p2 = r := congrArg Prod.snd h2
    rw [(List.cons.inj hfst).2, hsnd]

theorem scanParen_local :
    ∀ (mid : List Char) (d : Nat) (r r' : List Char),
      scanParen d (mid ++ ')' :: r) = some (mid, r) →
      scanParen d (mid ++ ')' :: r') = some (mid, r') := by
  intro mid
  induction mid with
  | nil =>
    intro d r r' h
    rw [List.nil_append] at h ⊢
    simp only [scanParen, if_pos rfl] at h ⊢
    by_cases hd : d = 0
    · rw [if_pos hd] at h ⊢
      rfl
    · exfalso
      rw [if_neg hd] at h
      cases hs : scanParen (d - 1) r with
      | none =>
        rw [hs] at h
        exact Option.noConfusion h
      | some p =>
        rw [hs] at h
        have h2 : (')' :: p.1, p.2) = ([], r) := Option.some.inj h
        exact List.noConfusion (congrArg Prod.fst h2)
  | cons x xs ih =>
    intro d r r' h
    rw [List.cons_append] at h ⊢
    by_cases hx : x = ')'
    · subst hx
      simp only [scanParen, if_pos rfl] at h ⊢
      by_cases hd : d = 0
      · exfalso
        rw [if_pos hd] at h
        have := ((Option.some.injEq _ _).mp h)
        exact List.noConfusion (congrArg Prod.fst this)
      · rw [if_neg hd] at h ⊢
        have hs2 := map_cons_peel h
        rw [ih (d - 1) r r' hs2]
        rfl
    · by_cases hx2 : x = '('
      · subst hx2
        simp only [scanParen, if_neg (by decide : ¬('(' : Char) = ')'), if_pos rfl] at h ⊢
        have hs2 := map_cons_peel h
        rw [ih (d + 1) r r' hs2]
        rfl
      · simp only [scanParen, if_neg hx, if_neg hx2] at h ⊢
        have hs2 := map_cons_peel h
        rw [ih d r r' hs2]
        rfl

theorem stopChar_cases (c : Char) (h : isStopChar c = true) :
    c = ',' ∨ c = ';' ∨ c = ':' ∨ c = ']' := by
  simp only [isStopChar, Bool.or_eq_true, decide_eq_true_eq] at h
  tauto

theorem stopChar_not_digit (c : Char) (h : isStopChar c = true) : c.isDigit = false := by
  rcases stopChar_cases c h with h | h | h | h <;> subst h <;> decide

theorem stopChar_not_alnum (c : Char) (h : isStopChar c = true) :
    c.isAlphanum = false := by
  rcases stopChar_cases c h with h | h | h | h <;> subst h <;> decide

theorem stopChar_ne_at (c : Char) (h : isStopChar c = true) : c ≠ '@' := by
  rcases stopChar_cases c h with h | h | h | h <;> subst h <;> decide

theorem stopChar_two (c : Char) (h : isStopChar c = true) (x : Char) :
    twoLetterSym x c = false := by
  rcases stopChar_cases c h with h | h | h | h <;> subst h <;>
    simp [twoLetterSym]

/-- Transfer of a maximal-munch split across a change of boundary character
within the same character class. -/
theorem takeWhile_transfer (p : Char → Bool) {ts : List Char} {c c' : Char}
    {r : List Char} (r' : List Char)
    (ht : (ts ++ c :: r).takeWhile p = ts)
    (hb : c' = c ∨ (isStopChar c = true ∧ isStopChar c' = true))
    (hp : ∀ d, isStopChar d = true → p d = false) :
    (ts ++ c' :: r').takeWhile p = ts ∧ (ts ++ c' :: r').dropWhile p = c' :: r' := by
  have hall := takeWhile_all p ts c r ht
  have hstop := takeWhile_stop p ts c r ht
  have hc' : p c' = false := by
    rcases hb with rfl | ⟨h1, h2⟩
    · exact hstop
    · exact hp c' h2
  exact takeWhile_of_all p ts c' r' hall hc'

theorem lexCore_token_ne_nil : ∀ (l t r : List Char), lexCore l = some (t, r) → t ≠ [] := by
  intro l t r h
  match l with
  | [] => exact Option.noConfusion h
  | c :: cs =>
    simp only [lexCore] at h
    repeat' split at h
    all_goals
      first
        | exact Option.noConfusion h
        | (cases h; simp)
        | (rcases Option.map_eq_some'.mp h with ⟨p, hsp, hf⟩
           cases hf
           simp)

/-- Transfer of a successful single-token lex across a change of the
boundary character (the same character, or both stop characters) and of the
text beyond it: the tokenizer's lookahead never passes the boundary. -/
theorem lexCore_local :
    ∀ (t : List Char) (c c' : Char) (r r' : List Char),
      lexCore (t ++ c :: r) = some (t, c :: r) →
      (c' = c ∨ (isStopChar c = true ∧ isStopChar c' = true)) →
      lexCore (t ++ c' :: r') = some (t, c' :: r') := by
  intro t c c' r r' h hb
  have hbat : c ≠ '@' → c' ≠ '@' := by
    intro hcat
    rcases hb with rfl | ⟨h1, h2⟩
    · exact hcat
    · exact stopChar_ne_at c' h2
  have hbtwo : ∀ x, twoLetterSym x c = false → twoLetterSym x c' = false := by
    intro x hx
    rcases hb with rfl | ⟨h1, h2⟩
    · exact hx
    · exact stopChar_two c' h2 x
  have hbdig : c.isDigit = false → c'.isDigit = false := by
    intro hx
    rcases hb with rfl | ⟨h1, h2⟩
    · exact hx
    · exact stopChar_not_digit c' h2
  match t with
  | [] => exact absurd rfl (lexCore_token_ne_nil _ _ _ h)
  | x :: ts =>
    rw [List.cons_append] at h ⊢
    simp only [lexCore] at h ⊢
    by_cases hx1 : x = '#'
    · rw [if_pos hx1] at h ⊢
      split at h
      · exact Option.noConfusion h
      · rename_i hne
        have h2 := Option.some.inj h
        have htw : (ts ++ c :: r).takeWhile Char.isDigit = ts :=
          (List.cons.inj (congrArg Prod.fst h2)).2
        have htr := takeWhile_transfer Char.isDigit r' htw hb stopChar_not_digit
        have hne2 : ¬ ts.isEmpty = true := by
          rw [htw] at hne
          exact hne
        rw [htr.1, htr.2, if_neg hne2]
    · rw [if_neg hx1] at h ⊢
      by_cases hx2 : x = '*'
      · rw [if_pos hx2] at h ⊢
        have h2 := Option.some.inj h
        have hts : ts = [] := ((List.cons.inj (congrArg Prod.fst h2)).2).symm
        subst hts
        rfl
      · rw [if_neg hx2] at h ⊢
        by_cases hx3 : x = '$'
        · rw [if_pos hx3] at h ⊢
          rcases ts with _ | ⟨u, ts2⟩
          · exfalso
            simp only [List.nil_append] at h
            by_cases hcp : c = '('
            · rw [if_pos hcp] at h
              rcases Option.map_eq_some'.mp h with ⟨p, hsp, hf⟩
              have hfst := congrArg Prod.fst hf
              exact List.noConfusion ((List.cons.inj hfst).2)
            · rw [if_neg hcp] at h
              split at h
              · exact Option.noConfusion h
              · rename_i hne
                have h2 := Option.some.inj h
                have htw : (c :: r).takeWhile Char.isAlphanum = [] :=
                  (List.cons.inj (congrArg Prod.fst h2)).2
                rw [htw] at hne
                exact hne rfl
          · simp only [List.cons_append] at h ⊢
            by_cases hu : u = '('
            · rw [if_pos hu] at h ⊢
              rcases Option.map_eq_some'.mp h with ⟨p, hsp, hf⟩
              have hfst := congrArg Prod.fst hf
              have hsnd := congrArg Prod.snd hf
              have hts2 : p.1 ++ [')'] = ts2 := (List.cons.inj (List.cons.inj hfst).2).2
              have hp2 : p.2 = c :: r := hsnd
              have hscan : scanParen 0 (p.1 ++ ')' :: (c :: r)) = some (p.1, c :: r) := by
                have he : ts2 ++ c :: r = p.1 ++ ')' :: (c :: r) := by
                  rw [← hts2, List.append_assoc]
                  rfl
                rw [he] at hsp
                rw [hsp, ← hp2]
              have hscan2 := scanParen_local p.1 0 (c :: r) (c' :: r') hscan
              have he2 : ts2 ++ c' :: r' = p.1 ++ ')' :: (c' :: r') := by
                rw [← hts2, List.append_assoc]
                rfl
              rw [he2, hscan2]
              show some (x :: u :: (p.1 ++ [')']), c' :: r') = some (x :: u :: ts2, c' :: r')
              rw [hts2]
            · rw [if_neg hu] at h ⊢
              split at h
              · exact Option.noConfusion h
              · rename_i hne
                have h2 := Option.some.inj h
                have htw0 : (u :: (ts2 ++ c :: r)).takeWhile Char.isAlphanum = u :: ts2 :=
                  (List.cons.inj (congrArg Prod.fst h2)).2
                rw [show u :: (ts2 ++ c :: r) = (u :: ts2) ++ c :: r from rfl] at htw0 hne
                have htr := takeWhile_transfer Char.isAlphanum r' htw0 hb stopChar_not_alnum
                rw [show u :: (ts2 ++ c' :: r') = (u :: ts2) ++ c' :: r' from rfl]
                rw [htr.1, htr.2]
                rw [htw0] at hne
                rw [if_neg hne]
        · rw [if_neg hx3] at h ⊢
          by_cases hx4 : x = '@'
          · rw [if_pos hx4] at h ⊢
            rcases ts with _ | ⟨u, ts2⟩
            · simp only [List.nil_append] at h ⊢
              have hcat : ¬c = '@' := by
                intro hcon
                rw [if_pos hcon] at h
                have h2 := Option.some.inj h
                exact List.noConfusion (List.cons.inj (congrArg Prod.fst h2)).2
              rw [if_neg hcat] at h
              rw [if_neg (hbat hcat)]
            · simp only [List.cons_append] at h ⊢
              by_cases hu : u = '@'
              · rw [if_pos hu] at h ⊢
                have h2 := Option.some.inj h
                have hts2 : [] = ts2 :=
                  (List.cons.inj (List.cons.inj (congrArg Prod.fst h2)).2).2
                rw [← hts2]
                rfl
              · rw [if_neg hu] at h
                exfalso
                have h2 := Option.some.inj h
                exact List.noConfusion (List.cons.inj (congrArg Prod.fst h2)).2
          · rw [if_neg hx4] at h ⊢
            by_cases hx5 : (x = '+' || x = '-' || x = '^' : Bool) = true
            · rw [if_pos hx5] at h ⊢
              have h2 := Option.some.inj h
              have htw : (ts ++ c :: r).takeWhile Char.isDigit = ts :=
                (List.cons.inj (congrArg Prod.fst h2)).2
              have htr := takeWhile_transfer Char.isDigit r' htw hb stopChar_not_digit
              rw [htr.1, htr.2]
            · rw [if_neg hx5] at h ⊢
              by_cases hx6 : x.isAlpha = true
              · rw [if_pos hx6] at h ⊢
                rcases ts with _ | ⟨u, ts2⟩
                · simp only [List.nil_append] at h ⊢
                  have htwo : twoLetterSym x c = false := by
                    cases htwo2 : twoLetterSym x c with
                    | false => rfl
                    | true =>
                      rw [if_pos htwo2] at h
                      have h2 := Option.some.inj h
                      exact absurd (List.cons.inj (congrArg Prod.fst h2)).2
                        (by simp)
                  rw [if_neg (by simp [htwo])] at h
                  have h2 := Option.some.inj h
                  have htw : (c :: r).takeWhile Char.isDigit = [] :=
                    (List.cons.inj (congrArg Prod.fst h2)).2
                  have hdig : c.isDigit = false := by
                    have := takeWhile_stop Char.isDigit [] c r
                    rw [List.nil_append] at this
                    exact this htw
                  have hres := takeWhile_of_all Char.isDigit [] c' r'
                    (by intro z hz; cases hz) (hbdig hdig)
                  rw [List.nil_append] at hres
                  rw [if_neg (by simp [hbtwo x htwo])]
                  rw [hres.1, hres.2]
                · simp only [List.cons_append] at h ⊢
                  by_cases htwo : twoLetterSym x u = true
                  · rw [if_pos htwo] at h ⊢
                    have h2 := Option.some.inj h
                    have htw : (ts2 ++ c :: r).takeWhile Char.isDigit = ts2 :=
                      (List.cons.inj (List.cons.inj (congrArg Prod.fst h2)).2).2
                    have htr := takeWhile_transfer Char.isDigit r' htw hb stopChar_not_digit
                    rw [htr.1, htr.2]
                  · rw [if_neg htwo] at h ⊢
                    have h2 := Option.some.inj h
                    have htw : ((u :: ts2) ++ c :: r).takeWhile Char.isDigit = u :: ts2 := by
                      rw [List.cons_append]
                      exact (List.cons.inj (congrArg Prod.fst h2)).2
                    have htr := takeWhile_transfer Char.isDigit r' htw hb stopChar_not_digit
                    rw [show u :: (ts2 ++ c' :: r') = (u :: ts2) ++ c' :: r' from rfl]
                    rw [htr.1, htr.2]
              · rw [if_neg hx6] at h
                exact Option.noConfusion h

theorem scanParen_split : ∀ (l : List Char) (d : Nat) (p : List Char × List Char),
    scanParen d l = some p → l = p.1 ++ ')' :: p.2 := by
  intro l
  induction l with
  | nil =>
    intro d p h
    exact Option.noConfusion h
  | cons x xs ih =>
    intro d p h
    simp only [scanParen] at h
    by_cases hx : x = ')'
    · rw [if_pos hx] at h
      by_cases hd : d = 0
      · rw [if_pos hd] at h
        cases h
        subst hx
        rfl
      · rw [if_neg hd] at h
        rcases Option.map_eq_some'.mp h with ⟨q, hq, hf⟩
        have hxs := ih (d - 1) q hq
        cases hf
        subst hx
        rw [hxs]
        rfl
    · rw [if_neg hx] at h
      by_cases hx2 : x = '('
      · rw [if_pos hx2] at h
        rcases Option.map_eq_some'.mp h with ⟨q, hq, hf⟩
        have hxs := ih (d + 1) q hq
        cases hf
        rw [hxs]
        rfl
      · rw [if_neg hx2] at h
        rcases Option.map_eq_some'.mp h with ⟨q, hq, hf⟩
        have hxs := ih d q hq
        cases hf
        rw [hxs]
        rfl

theorem lexCore_split : ∀ (l t r : List Char), lexCore l = some (t, r) → l = t ++ r := by
  intro l t r h
  match l with
  | [] => exact Option.noConfusion h
  | c :: cs =>
    simp only [lexCore] at h
    repeat' split at h
    all_goals
      first
        | exact Option.noConfusion h
        | (cases h
           simp [List.takeWhile_append_dropWhile])
        | (rcases Option.map_eq_some'.mp h with ⟨p, hp, hf⟩
           cases hf
           have hsp := scanParen_split _ _ _ hp
           rw [hsp]
           simp)

theorem lexItem_split : ∀ (l t r : List Char), lexItem l = some (t, r) → l = t ++ r := by
  intro l t r h
  match l with
  | [] => exact Option.noConfusion h
  | c :: cs =>
    simp only [lexItem] at h
    by_cases hc : c = '!'
    · rw [if_pos hc] at h
      rcases Option.map_eq_some'.mp h with ⟨p, hp, hf⟩
      cases hf
      have := lexCore_split _ _ _ hp
      rw [List.cons_append, ← this]
    · rw [if_neg hc] at h
      exact lexCore_split _ _ _ h

theorem lexItem_token_ne_nil : ∀ (l t r : List Char), lexItem l = some (t, r) → t ≠ [] := by
  intro l t r h
  match l with
  | [] => exact Option.noConfusion h
  | c :: cs =>
    simp only [lexItem] at h
    by_cases hc : c = '!'
    · rw [if_pos hc] at h
      rcases Option.map_eq_some'.mp h with ⟨p, hp, hf⟩
      cases hf
      simp
    · rw [if_neg hc] at h
      exact lexCore_token_ne_nil _ _ _ h

theorem lexItem_local :
    ∀ (t : List Char) (c c' : Char) (r r' : List Char),
      lexItem (t ++ c :: r) = some (t, c :: r) →
      (c' = c ∨ (isStopChar c = true ∧ isStopChar c' = true)) →
      lexItem (t ++ c' :: r') = some (t, c' :: r') := by
  intro t c c' r r' h hb
  match t with
  | [] => exact absurd rfl (lexItem_token_ne_nil _ _ _ h)
  | x :: ts =>
    rw [List.cons_append] at h ⊢
    simp only [lexItem] at h ⊢
    by_cases hx : x = '!'
    · rw [if_pos hx] at h ⊢
      rcases Option.map_eq_some'.mp h with ⟨p, hp, hf⟩
      have hp1 : p.1 = ts := (List.cons.inj (congrArg Prod.fst hf)).2
      have hp2 : p.2 = c :: r := congrArg Prod.snd hf
      have hpe : p = (ts, c :: r) := Prod.ext hp1 hp2
      have hcore : lexCore (ts ++ c :: r) = some (ts, c :: r) := by
        rw [hp, hpe]
      rw [lexCore_local ts c c' r r' hcore hb]
      rfl
    · rw [if_neg hx] at h ⊢
      have hcore : lexCore ((x :: ts) ++ c :: r) = some (x :: ts, c :: r) := by
        rw [List.cons_append]
        exact h
      have := lexCore_local (x :: ts) c c' r r' hcore hb
      rw [List.cons_append] at this
      exact this

theorem lexItems_trans :
    ∀ (toks : List (List Char)) (fuel1 : Nat) (c : Char) (r : List Char) (fuel : Nat),
      lexItems isStopChar fuel1 (toks.flatten ++ [']']) = some (toks, [']']) →
      isStopChar c = true →
      toks.length < fuel →
      lexItems isStopChar fuel (toks.flatten ++ c :: r) = some (toks, c :: r) := by
  intro toks
  induction toks with
  | nil =>
    intro fuel1 c r fuel _ hc hf
    match fuel, hf with
    | f + 1, _ =>
      simp only [List.flatten_nil, List.nil_append, lexItems]
      rw [if_pos hc]
  | cons t ts ih =>
    intro fuel1 c r fuel hrun hc hf
    match fuel1 with
    | 0 => exact Option.noConfusion hrun
    | f1 + 1 =>
      rw [List.flatten_cons, List.append_assoc] at hrun
      cases hinp : t ++ (ts.flatten ++ [']']) with
      | nil =>
        exfalso
        rcases List.append_eq_nil.mp hinp with ⟨_, h2⟩
        rcases List.append_eq_nil.mp h2 with ⟨_, h3⟩
        exact List.noConfusion h3
      | cons e es =>
        rw [hinp] at hrun
        simp only [lexItems] at hrun
        split at hrun
        · exfalso
          have h2 := Option.some.inj hrun
          exact List.noConfusion (congrArg Prod.fst h2)
        · rename_i hstop
          cases hlex : lexItem (e :: es) with
          | none =>
            rw [hlex] at hrun
            exact Option.noConfusion hrun
          | some q =>
            rw [hlex] at hrun
            rcases Option.map_eq_some'.mp hrun with ⟨p, hpp, hf2⟩
            have hq1 : q.1 = t := (List.cons.inj (congrArg Prod.fst hf2)).1
            have hp1 : p.1 = ts := (List.cons.inj (congrArg Prod.fst hf2)).2
            have hp2 : p.2 = [']'] := congrArg Prod.snd hf2
            have hqsplit := lexItem_split _ _ _ hlex
            -- e :: es = q.1 ++ q.2 ; also e :: es = t ++ (ts.flatten ++ [']'])
            have hq2 : q.2 = ts.flatten ++ [']'] := by
              have : q.1 ++ q.2 = t ++ (ts.flatten ++ [']']) := by
                rw [← hqsplit, hinp]
              rw [hq1] at this
              exact (List.append_right_inj t).mp this
            have hlex2 : lexItem (t ++ (ts.flatten ++ [']'])) =
                some (t, ts.flatten ++ [']']) := by
              rw [hinp, hlex, show q = (t, ts.flatten ++ [']']) from Prod.ext hq1 hq2]
            have hrec : lexItems isStopChar f1 (ts.flatten ++ [']']) = some (ts, [']']) := by
              rw [← hq2, hpp, show p = (ts, [']']) from Prod.ext hp1 hp2]
            cases fuel with
            | zero => exact absurd hf (by omega)
            | succ f =>
              have hfts : ts.length < f := by
                have h5 : (t :: ts).length < f + 1 := hf
                simpa using h5
              have hrec2 := ih f1 c r f hrec hc hfts
              have hlex3 : lexItem (t ++ (ts.flatten ++ c :: r)) =
                  some (t, ts.flatten ++ c :: r) := by
                cases hts : ts.flatten with
                | nil =>
                  rw [hts] at hlex2
                  simp only [List.nil_append] at hlex2 ⊢
                  exact lexItem_local t ']' c [] r hlex2 (Or.inr ⟨by decide, hc⟩)
                | cons m ms =>
                  rw [hts] at hlex2
                  rw [List.cons_append] at hlex2 ⊢
                  exact lexItem_local t m m (ms ++ [']']) (ms ++ c :: r) hlex2 (Or.inl rfl)
              rw [List.flatten_cons, List.append_assoc]
              have htne : t ≠ [] := lexItem_token_ne_nil _ _ _ hlex2
              cases ht : t with
              | nil => exact absurd ht htne
              | cons t0 t2 =>
                rw [ht] at hlex3
                rw [List.cons_append] at hlex3
                simp only [lexItems]
                have hstop0 : ¬ isStopChar t0 = true := by
                  have he0 : e = t0 := by
                    rw [ht] at hinp
                    exact (List.cons.inj hinp.symm).1
                  rw [← he0]
                  exact hstop
                rw [if_neg hstop0]
                simp only [List.append_eq]
                rw [hlex3]
                show Option.map (fun p => ((t0 :: t2) :: p.1, p.2))
                    (lexItems isStopChar f (ts.flatten ++ c :: r)) =
                  some ((t0 :: t2) :: ts, c :: r)
                rw [hrec2]
                rfl


theorem lexItems_toks_ne_nil :
    ∀ (fuel : Nat) (l : List Char) (toks : List (List Char)) (r : List Char),
      lexItems isStopChar fuel l = some (toks, r) → ∀ t ∈ toks, t ≠ [] := by
  intro fuel
  induction fuel with
  | zero =>
    intro l toks r h
    exact Option.noConfusion h
  | succ f ih =>
    intro l toks r h t ht
    match l with
    | [] =>
      simp only [lexItems] at h
      cases h
      cases ht
    | c :: cs =>
      simp only [lexItems] at h
      split at h
      · cases h
        cases ht
      · cases hlex : lexItem (c :: cs) with
        | none =>
          rw [hlex] at h
          exact Option.noConfusion h
        | some q =>
          rw [hlex] at h
          rcases Option.map_eq_some'.mp h with ⟨p, hpp, hf⟩
          have hq1 : q.1 :: p.1 = toks := congrArg Prod.fst hf
          rw [← hq1] at ht
          rcases List.mem_cons.mp ht with h1 | h1
          · rw [h1]
            exact lexItem_token_ne_nil _ _ _ (by rw [hlex] : lexItem (c :: cs) = some (q.1, q.2))
          · exact ih q.2 p.1 p.2 (by rw [hpp] : lexItems isStopChar f q.2 = some (p.1, p.2)) t h1

theorem toks_length_le_flatten (toks : List (List Char))
    (h : ∀ t ∈ toks, t ≠ []) : toks.length ≤ toks.flatten.length := by
  induction toks with
  | nil => simp
  | cons t ts ih =>
    rw [List.flatten_cons, List.length_cons, List.length_append]
    have h1 : 1 ≤ t.length := by
      have := h t (List.mem_cons_self t ts)
      cases t with
      | nil => exact absurd rfl this
      | cons a as => simp
    have h2 := ih (fun u hu => h u (List.mem_cons_of_mem t hu))
    omega

theorem map_mk_data : ∀ l : List String, (l.map String.data).map String.mk = l := by
  intro l
  induction l with
  | nil => rfl
  | cons s ss ih =>
    simp [ih]

theorem entryChars_eq_flatten (e : String × List String) :
    entryChars e = (entryToks e).flatten := by
  rw [entryChars, entryToks, List.flatten_cons]

theorem entryOfToks_entryToks (e : String × List String) :
    entryOfToks (entryToks e) = some e := by
  rw [entryToks, entryOfToks]
  rw [map_mk_data]

theorem wfEntry_run (e : String × List String) (h : wfEntry e = true) :
    lexItems isStopChar ((entryToks e).flatten.length + 1)
      ((entryToks e).flatten ++ [']']) = some (entryToks e, [']']) := by
  unfold wfEntry wfGroupToks at h
  cases hrun : lexItems isStopChar ((entryToks e).flatten.length + 1)
      ((entryToks e).flatten ++ [']']) with
  | none =>
    rw [hrun] at h
    exact Bool.noConfusion h
  | some p =>
    rw [hrun] at h
    rcases p with ⟨toks2, rest⟩
    simp only [Bool.and_eq_true, beq_iff_eq] at h
    rw [h.1, h.2]

theorem wfAndStr_run (s : String) (h : wfAndStr s = true) :
    ∃ toks, toks ≠ [] ∧ toks.flatten = s.data ∧
      lexItems isStopChar (s.data.length + 1) (s.data ++ [']']) = some (toks, [']']) := by
  unfold wfAndStr at h
  cases hrun : lexItems isStopChar (s.data.length + 1) (s.data ++ [']']) with
  | none =>
    rw [hrun] at h
    exact Bool.noConfusion h
  | some p =>
    rw [hrun] at h
    rcases p with ⟨toks, rest⟩
    simp only [Bool.and_eq_true, decide_eq_true_eq] at h
    refine ⟨toks, ?_, h.1.1, by rw [h.1.2]⟩
    intro hcon
    have h2 := h.2
    rw [hcon] at h2
    simp at h2

theorem sepBy_length_ge (sep : Char) :
    ∀ (l : List (List Char)), (∀ x ∈ l, x ≠ []) → l.length ≤ (sepBy sep l).length := by
  intro l
  induction l with
  | nil => simp
  | cons x xs ih =>
    intro h
    cases xs with
    | nil =>
      have := h x (List.mem_cons_self x [])
      cases x with
      | nil => exact absurd rfl this
      | cons a as => simp [sepBy]
    | cons y ys =>
      rw [show sepBy sep (x :: y :: ys) = x ++ sep :: sepBy sep (y :: ys) from rfl]
      have h1 : 1 ≤ x.length := by
        have hx := h x (List.mem_cons_self x (y :: ys))
        cases x with
        | nil => exact absurd rfl hx
        | cons a as => simp
      have h2 := ih (fun u hu => h u (List.mem_cons_of_mem x hu))
      simp only [List.length_append, List.length_cons]
      simp only [List.length_cons] at h2 ⊢
      omega

theorem wfEntry_ne_nil (e : String × List String) (h : wfEntry e = true) :
    entryChars e ≠ [] := by
  have hrun := wfEntry_run e h
  have hne := lexItems_toks_ne_nil _ _ _ _ hrun e.1.data (by rw [entryToks]; exact List.mem_cons_self _ _)
  rw [entryChars_eq_flatten, entryToks, List.flatten_cons]
  intro hcon
  rcases List.append_eq_nil.mp hcon with ⟨h1, _⟩
  exact hne h1

theorem andChars_length_ge (l : List String) : l.length ≤ (andChars l).length := by
  induction l with
  | nil => simp [andChars]
  | cons s ss ih =>
    rw [andChars, List.map_cons, List.flatten_cons, List.length_append]
    rw [andChars] at ih
    simp only [List.length_cons]
    omega

theorem parseORList_print :
    ∀ (ors : List (String × List String)) (c : Char) (r : List Char) (fuel : Nat),
      ors ≠ [] → (∀ e ∈ ors, wfEntry e = true) →
      isStopChar c = true → ¬ c = ',' → ors.length < fuel →
      parseORList fuel (sepBy ',' (ors.map entryChars) ++ c :: r) = some (ors, c :: r) := by
  intro ors
  induction ors with
  | nil =>
    intro c r fuel hne
    exact absurd rfl hne
  | cons e es ih =>
    intro c r fuel _ hwf hc hcc hf
    have hwfe := hwf e (List.mem_cons_self e es)
    have hrun := wfEntry_run e hwfe
    have htoksne := lexItems_toks_ne_nil _ _ _ _ hrun
    have hlen := toks_length_le_flatten (entryToks e) htoksne
    cases fuel with
    | zero => exact absurd hf (by omega)
    | succ f =>
      cases es with
      | nil =>
        rw [List.map_cons, List.map_nil,
          show sepBy ',' [entryChars e] = entryChars e from rfl,
          entryChars_eq_flatten]
        simp only [parseORList]
        have htr := lexItems_trans (entryToks e) _ c r
          (((entryToks e).flatten ++ c :: r).length + 1) hrun hc
          (by rw [List.length_append, List.length_cons]; omega)
        rw [htr]
        show (match entryOfToks (entryToks e) with
          | none => none
          | some e0 =>
            match c :: r with
            | c0 :: rest2 =>
              if c0 = ',' then Option.map (fun p => (e0 :: p.1, p.2)) (parseORList f rest2)
              else some ([e0], c0 :: rest2)
            | [] => some ([e0], [])) = some ([e], c :: r)
        rw [entryOfToks_entryToks]
        show (if c = ',' then Option.map (fun p => (e :: p.1, p.2)) (parseORList f r)
          else some ([e], c :: r)) = some ([e], c :: r)
        rw [if_neg hcc]
      | cons e2 es2 =>
        rw [List.map_cons,
          show sepBy ',' (entryChars e :: (e2 :: es2).map entryChars) =
            entryChars e ++ ',' :: sepBy ',' ((e2 :: es2).map entryChars) from rfl,
          entryChars_eq_flatten, List.append_assoc, List.cons_append]
        simp only [parseORList]
        have htr := lexItems_trans (entryToks e) _ ','
          (sepBy ',' ((e2 :: es2).map entryChars) ++ c :: r)
          (((entryToks e).flatten ++
            (',' :: (sepBy ',' ((e2 :: es2).map entryChars) ++ c :: r))).length + 1)
          hrun (by decide)
          (by rw [List.length_append, List.length_cons]; omega)
        rw [htr]
        show (match entryOfToks (entryToks e) with
          | none => none
          | some e0 =>
            match ',' :: (sepBy ',' ((e2 :: es2).map entryChars) ++ c :: r) with
            | c0 :: rest2 =>
              if c0 = ',' then Option.map (fun p => (e0 :: p.1, p.2)) (parseORList f rest2)
              else some ([e0], c0 :: rest2)
            | [] => some ([e0], [])) = some (e :: e2 :: es2, c :: r)
        rw [entryOfToks_entryToks]
        show (if (',' : Char) = ',' then
            Option.map (fun p => (e :: p.1, p.2))
              (parseORList f (sepBy ',' ((e2 :: es2).map entryChars) ++ c :: r))
          else some ([e], ',' :: (sepBy ',' ((e2 :: es2).map entryChars) ++ c :: r))) =
          some (e :: e2 :: es2, c :: r)
        rw [if_pos rfl]
        have hrec := ih c r f (by simp) (fun u hu => hwf u (List.mem_cons_of_mem e hu))
          hc hcc (by simp only [List.length_cons] at hf ⊢; omega)
        rw [hrec]
        rfl

theorem parseANDList_print :
    ∀ (ands : List String) (c : Char) (r : List Char) (fuel : Nat),
      (∀ s ∈ ands, wfAndStr s = true) →
      isStopChar c = true → ¬ c = ';' → ands.length < fuel →
      parseANDList fuel (andChars ands ++ c :: r) = some (ands, c :: r) := by
  intro ands
  induction ands with
  | nil =>
    intro c r fuel _ hc hcc hf
    cases fuel with
    | zero => exact absurd hf (by omega)
    | succ f =>
      rw [show andChars [] = [] from rfl, List.nil_append]
      simp only [parseANDList]
      rw [if_neg hcc]
  | cons s ss ih =>
    intro c r fuel hwf hc hcc hf
    cases fuel with
    | zero => exact absurd hf (by omega)
    | succ f =>
      rcases wfAndStr_run s (hwf s (List.mem_cons_self s ss)) with ⟨toks, htne, hflat, hrun⟩
      rw [show andChars (s :: ss) = (';' :: s.data) ++ andChars ss from rfl]
      rw [List.cons_append, List.cons_append, List.append_assoc]
      simp only [parseANDList]
      rw [if_pos trivial]
      have hlen : toks.length ≤ s.data.length := by
        have h1 := toks_length_le_flatten toks (lexItems_toks_ne_nil _ _ _ _ hrun)
        rw [hflat] at h1
        exact h1
      have hrun2 : lexItems isStopChar (toks.flatten.length + 1)
          (toks.flatten ++ [']']) = some (toks, [']']) := by
        rw [hflat]
        exact hrun
      have htr : lexItems isStopChar ((s.data ++ (andChars ss ++ c :: r)).length + 1)
          (s.data ++ (andChars ss ++ c :: r)) = some (toks, andChars ss ++ c :: r) := by
        cases hss : ss with
        | nil =>
          rw [show andChars [] = [] from rfl, List.nil_append]
          have := lexItems_trans toks _ c r ((s.data ++ c :: r).length + 1) hrun2 hc
            (by rw [List.length_append, List.length_cons]; omega)
          rw [hflat] at this
          exact this
        | cons s2 ss2 =>
          rw [show andChars (s2 :: ss2) = (';' :: s2.data) ++ andChars ss2 from rfl,
            List.cons_append]
          have := lexItems_trans toks _ ';' (s2.data ++ (andChars ss2 ++ c :: r))
            ((s.data ++ (';' :: (s2.data ++ (andChars ss2 ++ c :: r)))).length + 1) hrun2
            (by decide)
            (by rw [List.length_append, List.length_cons]; omega)
          rw [hflat] at this
          rw [List.cons_append, List.append_assoc]
          exact this
      rw [htr]
      show (if toks.isEmpty = true then none
        else Option.map (fun p => (String.mk toks.flatten :: p.1, p.2))
          (parseANDList f (andChars ss ++ c :: r))) = some (s :: ss, c :: r)
      rw [if_neg (by simpa using htne)]
      have hrec := ih c r f (fun u hu => hwf u (List.mem_cons_of_mem s hu)) hc hcc
        (by simp only [List.length_cons] at hf ⊢; omega)
      rw [hrec]
      show some ((String.mk toks.flatten) :: ss, c :: r) = some (s :: ss, c :: r)
      rw [hflat]

theorem digitChar_isDigit (d : Nat) (h : d < 10) : (digitChar d).isDigit = true := by
  interval_cases d <;> decide

theorem digitChar_toNat (d : Nat) (h : d < 10) : (digitChar d).toNat - 48 = d := by
  interval_cases d <;> decide

theorem natToDigits_all_digit :
    ∀ (fuel n : Nat), n ≤ fuel → ∀ c ∈ natToDigits fuel n, c.isDigit = true := by
  intro fuel
  induction fuel with
  | zero =>
    intro n _ c hc
    cases hc
  | succ f ih =>
    intro n hn c hc
    rw [natToDigits] at hc
    by_cases h10 : n < 10
    · rw [if_pos h10] at hc
      rcases List.mem_singleton.mp hc with rfl
      exact digitChar_isDigit n h10
    · rw [if_neg h10] at hc
      rcases List.mem_append.mp hc with h1 | h1
      · have hdiv : n / 10 ≤ f := by
          have := Nat.div_lt_self (by omega : 0 < n) (by omega : 1 < 10)
          omega
        exact ih (n / 10) hdiv c h1
      · rcases List.mem_singleton.mp h1 with rfl
        exact digitChar_isDigit (n % 10) (Nat.mod_lt _ (by omega))

theorem natToDigits_ne_nil (fuel n : Nat) (h : 1 ≤ fuel) : natToDigits fuel n ≠ [] := by
  cases fuel with
  | zero => omega
  | succ f =>
    rw [natToDigits]
    by_cases h10 : n < 10
    · rw [if_pos h10]
      simp
    · rw [if_neg h10]
      simp

theorem digitsToNat_append_one (l : List Char) (c : Char) :
    digitsToNat (l ++ [c]) = 10 * digitsToNat l + (c.toNat - 48) := by
  rw [digitsToNat, digitsToNat, List.foldl_append]
  rfl

theorem digitsToNat_natToDigits :
    ∀ (fuel n : Nat), n ≤ fuel → digitsToNat (natToDigits fuel n) = n := by
  intro fuel
  induction fuel with
  | zero =>
    intro n hn
    have : n = 0 := by omega
    rw [this]
    rfl
  | succ f ih =>
    intro n hn
    rw [natToDigits]
    by_cases h10 : n < 10
    · rw [if_pos h10]
      have hfold : digitsToNat [digitChar n] = (digitChar n).toNat - 48 := by
        rw [digitsToNat]
        simp
      rw [hfold]
      exact digitChar_toNat n h10
    · rw [if_neg h10]
      rw [digitsToNat_append_one]
      have hdiv : n / 10 ≤ f := by
        have := Nat.div_lt_self (by omega : 0 < n) (by omega : 1 < 10)
        omega
      rw [ih (n / 10) hdiv]
      rw [digitChar_toNat (n % 10) (Nat.mod_lt _ (by omega))]
      omega

theorem parseTagClose_print (idx : Option Nat) (r : List Char) (h : wfTag idx = true) :
    parseTagClose (tagChars idx ++ ']' :: r) = some (idx, r) := by
  cases idx with
  | none =>
    rw [show tagChars none = [] from rfl, List.nil_append]
    rw [parseTagClose]
    rw [if_neg (by decide), if_pos rfl]
  | some n =>
    have hn : 1 ≤ n := by
      simpa [wfTag] using h
    rw [show tagChars (some n) = ':' :: natToDigits n n from rfl, List.cons_append]
    rw [parseTagClose]
    rw [if_pos rfl]
    have hsplit := takeWhile_of_all Char.isDigit (natToDigits n n) ']' r
      (natToDigits_all_digit n n (Nat.le_refl n)) (by decide)
    rw [hsplit.1, hsplit.2]
    rw [if_neg (by simpa using natToDigits_ne_nil n n hn)]
    show (if (']' : Char) = ']' then some (some (digitsToNat (natToDigits n n)), r)
      else none) = some (some n, r)
    rw [if_pos rfl]
    rw [digitsToNat_natToDigits n n (Nat.le_refl n)]

theorem parseORList_wild (b0 : Char) (X2 : List Char) (fuel : Nat)
    (hb : isStopChar b0 = true) (hbc : ¬ b0 = ',') (hf : 1 ≤ fuel) :
    parseORList fuel ('*' :: b0 :: X2) = some ([("*", [])], b0 :: X2) := by
  cases fuel with
  | zero => omega
  | succ f =>
    simp only [parseORList]
    have hlex : lexItems isStopChar (('*' :: b0 :: X2).length + 1) ('*' :: b0 :: X2) =
        some ([['*']], b0 :: X2) := by
      rw [show ('*' :: b0 :: X2).length + 1 = (X2.length + 2) + 1 from by simp]
      simp only [lexItems]
      rw [if_neg (by decide)]
      show Option.map (fun p => (['*'] :: p.1, p.2))
          (lexItems isStopChar (X2.length + 2) (b0 :: X2)) = some ([['*']], b0 :: X2)
      have hrest : lexItems isStopChar (X2.length + 2) (b0 :: X2) = some ([], b0 :: X2) := by
        rw [show X2.length + 2 = (X2.length + 1) + 1 from rfl]
        simp only [lexItems]
        rw [if_pos hb]
      rw [hrest]
      rfl
    rw [hlex]
    show (match entryOfToks [['*']] with
      | none => none
      | some e0 =>
        match b0 :: X2 with
        | c0 :: rest2 =>
          if c0 = ',' then Option.map (fun p => (e0 :: p.1, p.2)) (parseORList f rest2)
          else some ([e0], c0 :: rest2)
        | [] => some ([e0], [])) = some ([("*", [])], b0 :: X2)
    show (if b0 = ',' then
        Option.map (fun p => (("*", ([] : List String)) :: p.1, p.2)) (parseORList f X2)
      else some ([("*", [])], b0 :: X2)) = some ([("*", [])], b0 :: X2)
    rw [if_neg hbc]

theorem orChars_parse (ors : List (String × List String)) (b0 : Char) (X2 : List Char)
    (hor : ∀ e ∈ ors, wfEntry e = true) (hstar : ors ≠ [("*", [])])
    (hb : isStopChar b0 = true) (hbc : ¬ b0 = ',') :
    ∃ ors0, parseORList ((orChars ors '*' ++ b0 :: X2).length + 1)
        (orChars ors '*' ++ b0 :: X2) = some (ors0, b0 :: X2) ∧
      normalizeAtomORs ors0 = ors := by
  cases hors : ors with
  | nil =>
    refine ⟨[("*", [])], ?_, rfl⟩
    rw [show orChars [] '*' = ['*'] from rfl, List.cons_append, List.nil_append]
    exact parseORList_wild b0 X2 _ hb hbc (by simp)
  | cons e es =>
    refine ⟨e :: es, ?_, ?_⟩
    · have hwild : orChars (e :: es) '*' = sepBy ',' ((e :: es).map entryChars) := by
        rw [orChars, if_neg (by simp)]
      rw [hwild]
      apply parseORList_print (e :: es) b0 X2 _ (by simp)
        (fun u hu => hor u (hors ▸ hu)) hb hbc
      have hlen : (e :: es).length ≤ (sepBy ',' ((e :: es).map entryChars)).length := by
        have := sepBy_length_ge ',' ((e :: es).map entryChars) ?_
        · rw [List.length_map] at this
          exact this
        · intro x hx
          rcases List.mem_map.mp hx with ⟨u, hu, hux⟩
          rw [← hux]
          exact wfEntry_ne_nil u (hor u (hors ▸ hu))
      rw [List.length_append]
      omega
    · rw [normalizeAtomORs, if_neg (hors ▸ hstar)]

theorem parseAtomBody_print (a : AtomInfo) (r : List Char) (h : wfAtom a = true) :
    parseAtomBody (a.bodyChars ++ r) = some (a, r) := by
  have hor : a.ORtypes.all wfEntry = true := by
    simp only [wfAtom, Bool.and_eq_true] at h
    exact h.1.1.1
  have hstar : a.ORtypes ≠ [("*", [])] := by
    simp only [wfAtom, Bool.and_eq_true, decide_eq_true_eq] at h
    exact h.1.1.2
  have hand : a.ANDtypes.all wfAndStr = true := by
    simp only [wfAtom, Bool.and_eq_true] at h
    exact h.1.2
  have htag : wfTag a.index = true := by
    simp only [wfAtom, Bool.and_eq_true] at h
    exact h.2
  obtain ⟨c1, Y, hT, hc1s, hc1semi, hc1comma⟩ :
      ∃ c1 Y, tagChars a.index ++ ']' :: r = c1 :: Y ∧ isStopChar c1 = true ∧
        ¬ c1 = ';' ∧ ¬ c1 = ',' := by
    cases a.index with
    | none => exact ⟨']', r, rfl, by decide, by decide, by decide⟩
    | some n => exact ⟨':', natToDigits n n ++ ']' :: r, rfl, by decide, by decide, by decide⟩
  obtain ⟨b0, X2, hX, hb0s, hb0c⟩ :
      ∃ b0 X2, andChars a.ANDtypes ++ (c1 :: Y) = b0 :: X2 ∧ isStopChar b0 = true ∧
        ¬ b0 = ',' := by
    cases hands : a.ANDtypes with
    | nil => exact ⟨c1, Y, rfl, hc1s, hc1comma⟩
    | cons s ss => exact ⟨';', (s.data ++ andChars ss) ++ c1 :: Y, by
        show ((';' :: s.data) ++ andChars ss) ++ (c1 :: Y) = _
        simp [List.append_assoc], by decide, by decide⟩
  have hbody : a.bodyChars ++ r = orChars a.ORtypes '*' ++ (b0 :: X2) := by
    rw [← hX, ← hT, AtomInfo.bodyChars]
    simp [List.append_assoc]
  rw [hbody]
  obtain ⟨ors0, hOR, hnorm⟩ := orChars_parse a.ORtypes b0 X2
    (fun e he => List.all_eq_true.mp hor e he) hstar hb0s hb0c
  simp only [parseAtomBody]
  rw [hOR]
  show (match parseANDList ((b0 :: X2).length + 1) (b0 :: X2) with
      | none => none
      | some (ands, r2) =>
        match parseTagClose r2 with
        | none => none
        | some (tag, rest) => some (⟨tag, normalizeAtomORs ors0, ands⟩, rest)) = some (a, r)
  rw [← hX]
  have hAND := parseANDList_print a.ANDtypes c1 Y
    ((andChars a.ANDtypes ++ c1 :: Y).length + 1)
    (fun u hu => List.all_eq_true.mp hand u hu) hc1s hc1semi
    (by
      have := andChars_length_ge a.ANDtypes
      rw [List.length_append]
      omega)
  rw [hAND]
  show (match parseTagClose (c1 :: Y) with
      | none => none
      | some (tag, rest) => some (⟨tag, normalizeAtomORs ors0, a.ANDtypes⟩, rest)) = some (a, r)
  rw [← hT, parseTagClose_print a.index r htag]
  show some (⟨a.index, normalizeAtomORs ors0, a.ANDtypes⟩, r) = some (a, r)
  rw [hnorm]

/-! Bond-token inversion: the bond lexer is a pure prefix scanner, so a
successful lex transfers to any suffix. -/

theorem lexBondTok_split (l t rest : List Char) (h : lexBondTok l = some (t, rest)) :
    l = t ++ rest := by
  cases l with
  | nil => exact Option.noConfusion h
  | cons c cs =>
    simp only [lexBondTok] at h
    by_cases hbang : c = '!'
    · rw [if_pos hbang] at h
      cases cs with
      | nil => exact Option.noConfusion h
      | cons d rest2 =>
        have h3 : (if isBondChar d = true then some ([c, d], rest2) else none) =
            some (t, rest) := h
        by_cases hd : isBondChar d = true
        · rw [if_pos hd] at h3
          have h2 := Option.some.inj h3
          have ht : t = [c, d] := (congrArg Prod.fst h2).symm
          have hr : rest = rest2 := (congrArg Prod.snd h2).symm
          rw [ht, hr]
          rfl
        · rw [if_neg hd] at h3
          exact Option.noConfusion h3
    · rw [if_neg hbang] at h
      by_cases hc : isBondChar c = true
      · rw [if_pos hc] at h
        have h2 := Option.some.inj h
        have ht : t = [c] := (congrArg Prod.fst h2).symm
        have hr : rest = cs := (congrArg Prod.snd h2).symm
        rw [ht, hr]
        rfl
      · rw [if_neg hc] at h
        exact Option.noConfusion h

theorem lexBondTok_local (l t rest : List Char) (h : lexBondTok l = some (t, rest)) :
    ∀ r2, lexBondTok (t ++ r2) = some (t, r2) := by
  intro r2
  cases l with
  | nil => exact Option.noConfusion h
  | cons c cs =>
    simp only [lexBondTok] at h
    by_cases hbang : c = '!'
    · rw [if_pos hbang] at h
      cases cs with
      | nil => exact Option.noConfusion h
      | cons d rest2 =>
        have h3 : (if isBondChar d = true then some ([c, d], rest2) else none) =
            some (t, rest) := h
        by_cases hd : isBondChar d = true
        · rw [if_pos hd] at h3
          have ht : t = [c, d] := (congrArg Prod.fst (Option.some.inj h3)).symm
          rw [ht]
          show lexBondTok (c :: d :: r2) = some ([c, d], r2)
          simp only [lexBondTok]
          rw [if_pos hbang]
          show (if isBondChar d = true then some ([c, d], r2) else none) = some ([c, d], r2)
          rw [if_pos hd]
        · rw [if_neg hd] at h3
          exact Option.noConfusion h3
    · rw [if_neg hbang] at h
      by_cases hc : isBondChar c = true
      · rw [if_pos hc] at h
        have ht : t = [c] := (congrArg Prod.fst (Option.some.inj h)).symm
        rw [ht]
        show lexBondTok (c :: r2) = some ([c], r2)
        simp only [lexBondTok]
        rw [if_neg hbang, if_pos hc]
      · rw [if_neg hc] at h
        exact Option.noConfusion h

theorem lexBondTok_stop (c : Char) (r : List Char)
    (hb : ¬ isBondChar c = true) (hbang : ¬ c = '!') :
    lexBondTok (c :: r) = none := by
  simp only [lexBondTok]
  rw [if_neg hbang, if_neg hb]

theorem lexBondToks_trans :
    ∀ (toks : List (List Char)) (fuel1 : Nat) (c : Char) (r : List Char) (fuel : Nat),
      lexBondToks fuel1 toks.flatten = some (toks, []) →
      ¬ isBondChar c = true → ¬ c = '!' →
      toks.length < fuel →
      lexBondToks fuel (toks.flatten ++ c :: r) = some (toks, c :: r) := by
  intro toks
  induction toks with
  | nil =>
    intro fuel1 c r fuel _ hb hbang hf
    match fuel, hf with
    | f + 1, _ =>
      simp only [List.flatten_nil, List.nil_append, lexBondToks]
      rw [lexBondTok_stop c r hb hbang]
  | cons t ts ih =>
    intro fuel1 c r fuel hrun hb hbang hf
    match fuel1 with
    | 0 => exact Option.noConfusion hrun
    | f1 + 1 =>
      rw [List.flatten_cons] at hrun
      simp only [lexBondToks] at hrun
      cases hlex : lexBondTok (t ++ ts.flatten) with
      | none =>
        rw [hlex] at hrun
        exfalso
        exact List.noConfusion (congrArg Prod.fst (Option.some.inj hrun))
      | some q =>
        rw [hlex] at hrun
        rcases Option.map_eq_some'.mp hrun with ⟨p, hpp, hf2⟩
        have hq1 : q.1 = t := (List.cons.inj (congrArg Prod.fst hf2)).1
        have hp1 : p.1 = ts := (List.cons.inj (congrArg Prod.fst hf2)).2
        have hp2 : p.2 = [] := congrArg Prod.snd hf2
        have hq2 : q.2 = ts.flatten := by
          have hs := lexBondTok_split _ _ _ hlex
          rw [hq1] at hs
          exact (List.append_right_inj t).mp hs.symm
        have hrec : lexBondToks f1 ts.flatten = some (ts, []) := by
          rw [← hq2, hpp, show p = (ts, []) from Prod.ext hp1 hp2]
        cases fuel with
        | zero => exact absurd hf (by omega)
        | succ f =>
          have hfts : ts.length < f := by
            have h5 : (t :: ts).length < f + 1 := hf
            simpa using h5
          have hrec2 := ih f1 c r f hrec hb hbang hfts
          rw [List.flatten_cons, List.append_assoc]
          have hlex2 : lexBondTok (t ++ (ts.flatten ++ c :: r)) =
              some (t, ts.flatten ++ c :: r) := by
            have := lexBondTok_local _ _ _ hlex (ts.flatten ++ c :: r)
            rw [hq1] at this
            exact this
          simp only [lexBondToks]
          rw [hlex2]
          show Option.map (fun p => (t :: p.1, p.2))
              (lexBondToks f (ts.flatten ++ c :: r)) = some (t :: ts, c :: r)
          rw [hrec2]
          rfl
theorem lexBondTok_ne_nil (l t rest : List Char) (h : lexBondTok l = some (t, rest)) :
    t ≠ [] := by
  cases l with
  | nil => exact Option.noConfusion h
  | cons c cs =>
    simp only [lexBondTok] at h
    by_cases hbang : c = '!'
    · rw [if_pos hbang] at h
      cases cs with
      | nil => exact Option.noConfusion h
      | cons d rest2 =>
        have h3 : (if isBondChar d = true then some ([c, d], rest2) else none) =
            some (t, rest) := h
        by_cases hd : isBondChar d = true
        · rw [if_pos hd] at h3
          have ht : t = [c, d] := (congrArg Prod.fst (Option.some.inj h3)).symm
          rw [ht]
          exact List.cons_ne_nil _ _
        · rw [if_neg hd] at h3
          exact Option.noConfusion h3
    · rw [if_neg hbang] at h
      by_cases hc : isBondChar c = true
      · rw [if_pos hc] at h
        have ht : t = [c] := (congrArg Prod.fst (Option.some.inj h)).symm
        rw [ht]
        exact List.cons_ne_nil _ _
      · rw [if_neg hc] at h
        exact Option.noConfusion h

theorem lexBondTok_head (c : Char) (cs t rest : List Char)
    (h : lexBondTok (c :: cs) = some (t, rest)) : isBondChar c = true ∨ c = '!' := by
  simp only [lexBondTok] at h
  by_cases hbang : c = '!'
  · exact Or.inr hbang
  · rw [if_neg hbang] at h
    by_cases hc : isBondChar c = true
    · exact Or.inl hc
    · rw [if_neg hc] at h
      exact Option.noConfusion h

theorem lexBondToks_toks_ne_nil :
    ∀ (fuel : Nat) (l : List Char) (toks : List (List Char)) (r : List Char),
      lexBondToks fuel l = some (toks, r) → ∀ t ∈ toks, t ≠ [] := by
  intro fuel
  induction fuel with
  | zero =>
    intro l toks r h
    exact Option.noConfusion h
  | succ f ih =>
    intro l toks r h t ht
    simp only [lexBondToks] at h
    cases hlex : lexBondTok l with
    | none =>
      rw [hlex] at h
      have h2 : some (([] : List (List Char)), l) = some (toks, r) := h
      injection h2 with h3
      injection h3 with h4 h5
      rw [← h4] at ht
      cases ht
    | some q =>
      rw [hlex] at h
      rcases Option.map_eq_some'.mp h with ⟨p, hpp, hf⟩
      have hq1 : q.1 :: p.1 = toks := congrArg Prod.fst hf
      rw [← hq1] at ht
      rcases List.mem_cons.mp ht with h1 | h1
      · rw [h1]
        exact lexBondTok_ne_nil l q.1 q.2 (by rw [hlex])
      · exact ih q.2 p.1 p.2 (by rw [hpp]) t h1

theorem wfBondEntry_run (e : String × List String) (h : wfBondEntry e = true) :
    lexBondToks ((entryToks e).flatten.length + 1) (entryToks e).flatten =
      some (entryToks e, []) := by
  unfold wfBondEntry wfBondGroupToks at h
  cases hrun : lexBondToks ((entryToks e).flatten.length + 1) (entryToks e).flatten with
  | none =>
    rw [hrun] at h
    exact Bool.noConfusion h
  | some p =>
    rw [hrun] at h
    rcases p with ⟨toks2, rest⟩
    simp only [Bool.and_eq_true, beq_iff_eq] at h
    rw [h.1, h.2]

theorem wfBondAndStr_run (s : String) (h : wfBondAndStr s = true) :
    ∃ toks, toks ≠ [] ∧ toks.flatten = s.data ∧
      lexBondToks (s.data.length + 1) s.data = some (toks, []) := by
  unfold wfBondAndStr at h
  cases hrun : lexBondToks (s.data.length + 1) s.data with
  | none =>
    rw [hrun] at h
    exact Bool.noConfusion h
  | some p =>
    rw [hrun] at h
    rcases p with ⟨toks, rest⟩
    simp only [Bool.and_eq_true, decide_eq_true_eq] at h
    refine ⟨toks, ?_, h.1.1, by rw [h.1.2]⟩
    intro hcon
    have h2 := h.2
    rw [hcon] at h2
    simp at h2

theorem wfBondEntry_ne_nil (e : String × List String) (h : wfBondEntry e = true) :
    entryChars e ≠ [] := by
  have hrun := wfBondEntry_run e h
  have hne := lexBondToks_toks_ne_nil _ _ _ _ hrun e.1.data
    (by rw [entryToks]; exact List.mem_cons_self _ _)
  rw [entryChars_eq_flatten, entryToks, List.flatten_cons]
  intro hcon
  rcases List.append_eq_nil.mp hcon with ⟨h1, _⟩
  exact hne h1

theorem wfBondEntry_head (e : String × List String) (h : wfBondEntry e = true) :
    ∃ c cs, entryChars e = c :: cs ∧ (isBondChar c = true ∨ c = '!') := by
  have hrun := wfBondEntry_run e h
  rw [← entryChars_eq_flatten] at hrun
  cases hec : entryChars e with
  | nil => exact absurd hec (wfBondEntry_ne_nil e h)
  | cons c cs =>
    refine ⟨c, cs, rfl, ?_⟩
    rw [hec] at hrun
    simp only [lexBondToks] at hrun
    cases hlex : lexBondTok (c :: cs) with
    | none =>
      rw [hlex] at hrun
      exfalso
      have h1 := congrArg Prod.fst (Option.some.inj hrun)
      have h2 : entryToks e ≠ [] := by
        rw [entryToks]
        exact List.cons_ne_nil _ _
      exact h2 h1.symm
    | some q => exact lexBondTok_head c cs q.1 q.2 (by rw [hlex])

theorem parseBondORList_print :
    ∀ (ors : List (String × List String)) (c : Char) (r : List Char) (fuel : Nat),
      ors ≠ [] → (∀ e ∈ ors, wfBondEntry e = true) →
      ¬ isBondChar c = true → ¬ c = '!' → ¬ c = ',' → ors.length < fuel →
      parseBondORList fuel (sepBy ',' (ors.map entryChars) ++ c :: r) = some (ors, c :: r) := by
  intro ors
  induction ors with
  | nil =>
    intro c r fuel hne
    exact absurd rfl hne
  | cons e es ih =>
    intro c r fuel _ hwf hb hbang hcc hf
    have hwfe := hwf e (List.mem_cons_self e es)
    have hrun := wfBondEntry_run e hwfe
    have htoksne := lexBondToks_toks_ne_nil _ _ _ _ hrun
    have hlen := toks_length_le_flatten (entryToks e) htoksne
    cases fuel with
    | zero => exact absurd hf (by omega)
    | succ f =>
      cases es with
      | nil =>
        rw [List.map_cons, List.map_nil,
          show sepBy ',' [entryChars e] = entryChars e from rfl,
          entryChars_eq_flatten]
        simp only [parseBondORList]
        have htr := lexBondToks_trans (entryToks e) _ c r
          (((entryToks e).flatten ++ c :: r).length + 1) hrun hb hbang
          (by rw [List.length_append, List.length_cons]; omega)
        rw [htr]
        show (match entryOfToks (entryToks e) with
          | none => none
          | some e0 =>
            match c :: r with
            | c0 :: rest2 =>
              if c0 = ',' then Option.map (fun p => (e0 :: p.1, p.2)) (parseBondORList f rest2)
              else some ([e0], c0 :: rest2)
            | [] => some ([e0], [])) = some ([e], c :: r)
        rw [entryOfToks_entryToks]
        show (if c = ',' then Option.map (fun p => (e :: p.1, p.2)) (parseBondORList f r)
          else some ([e], c :: r)) = some ([e], c :: r)
        rw [if_neg hcc]
      | cons e2 es2 =>
        rw [List.map_cons,
          show sepBy ',' (entryChars e :: (e2 :: es2).map entryChars) =
            entryChars e ++ ',' :: sepBy ',' ((e2 :: es2).map entryChars) from rfl,
          entryChars_eq_flatten, List.append_assoc, List.cons_append]
        simp only [parseBondORList]
        have htr := lexBondToks_trans (entryToks e) _ ','
          (sepBy ',' ((e2 :: es2).map entryChars) ++ c :: r)
          (((entryToks e).flatten ++
            (',' :: (sepBy ',' ((e2 :: es2).map entryChars) ++ c :: r))).length + 1)
          hrun (by decide) (by decide)
          (by rw [List.length_append, List.length_cons]; omega)
        rw [htr]
        show (match entryOfToks (entryToks e) with
          | none => none
          | some e0 =>
            match ',' :: (sepBy ',' ((e2 :: es2).map entryChars) ++ c :: r) with
            | c0 :: rest2 =>
              if c0 = ',' then Option.map (fun p => (e0 :: p.1, p.2)) (parseBondORList f rest2)
              else some ([e0], c0 :: rest2)
            | [] => some ([e0], [])) = some (e :: e2 :: es2, c :: r)
        rw [entryOfToks_entryToks]
        show (if (',' : Char) = ',' then
            Option.map (fun p => (e :: p.1, p.2))
              (parseBondORList f (sepBy ',' ((e2 :: es2).map entryChars) ++ c :: r))
          else some ([e], ',' :: (sepBy ',' ((e2 :: es2).map entryChars) ++ c :: r))) =
          some (e :: e2 :: es2, c :: r)
        rw [if_pos rfl]
        have hrec := ih c r f (by simp) (fun u hu => hwf u (List.mem_cons_of_mem e hu))
          hb hbang hcc (by simp only [List.length_cons] at hf ⊢; omega)
        rw [hrec]
        rfl

theorem parseBondANDList_print :
    ∀ (ands : List String) (c : Char) (r : List Char) (fuel : Nat),
      (∀ s ∈ ands, wfBondAndStr s = true) →
      ¬ isBondChar c = true → ¬ c = '!' → ¬ c = ';' → ands.length < fuel →
      parseBondANDList fuel (andChars ands ++ c :: r) = some (ands, c :: r) := by
  intro ands
  induction ands with
  | nil =>
    intro c r fuel _ hb hbang hcc hf
    cases fuel with
    | zero => exact absurd hf (by omega)
    | succ f =>
      rw [show andChars [] = [] from rfl, List.nil_append]
      simp only [parseBondANDList]
      rw [if_neg hcc]
  | cons s ss ih =>
    intro c r fuel hwf hb hbang hcc hf
    cases fuel with
    | zero => exact absurd hf (by omega)
    | succ f =>
      rcases wfBondAndStr_run s (hwf s (List.mem_cons_self s ss)) with ⟨toks, htne, hflat, hrun⟩
      rw [show andChars (s :: ss) = (';' :: s.data) ++ andChars ss from rfl]
      rw [List.cons_append, List.cons_append, List.append_assoc]
      simp only [parseBondANDList]
      rw [if_pos trivial]
      have hlen : toks.length ≤ s.data.length := by
        have h1 := toks_length_le_flatten toks (lexBondToks_toks_ne_nil _ _ _ _ hrun)
        rw [hflat] at h1
        exact h1
      have hrun2 : lexBondToks (toks.flatten.length + 1) toks.flatten = some (toks, []) := by
        rw [hflat]
        exact hrun
      have htr : lexBondToks ((s.data ++ (andChars ss ++ c :: r)).length + 1)
          (s.data ++ (andChars ss ++ c :: r)) = some (toks, andChars ss ++ c :: r) := by
        cases hss : ss with
        | nil =>
          rw [show andChars [] = [] from rfl, List.nil_append]
          have := lexBondToks_trans toks _ c r ((s.data ++ c :: r).length + 1) hrun2 hb hbang
            (by rw [List.length_append, List.length_cons]; omega)
          rw [hflat] at this
          exact this
        | cons s2 ss2 =>
          rw [show andChars (s2 :: ss2) = (';' :: s2.data) ++ andChars ss2 from rfl,
            List.cons_append]
          have := lexBondToks_trans toks _ ';' (s2.data ++ (andChars ss2 ++ c :: r))
            ((s.data ++ (';' :: (s2.data ++ (andChars ss2 ++ c :: r)))).length + 1) hrun2
            (by decide) (by decide)
            (by rw [List.length_append, List.length_cons]; omega)
          rw [hflat] at this
          rw [List.cons_append, List.append_assoc]
          exact this
      rw [htr]
      show (if toks.isEmpty = true then none
        else Option.map (fun p => (String.mk toks.flatten :: p.1, p.2))
          (parseBondANDList f (andChars ss ++ c :: r))) = some (s :: ss, c :: r)
      rw [if_neg (by simpa using htne)]
      have hrec := ih c r f (fun u hu => hwf u (List.mem_cons_of_mem s hu)) hb hbang hcc
        (by simp only [List.length_cons] at hf ⊢; omega)
      rw [hrec]
      show some ((String.mk toks.flatten) :: ss, c :: r) = some (s :: ss, c :: r)
      rw [hflat]

theorem parseBondORList_wild (b0 : Char) (X2 : List Char) (fuel : Nat)
    (hb : ¬ isBondChar b0 = true) (hbang : ¬ b0 = '!') (hbc : ¬ b0 = ',') (hf : 1 ≤ fuel) :
    parseBondORList fuel ('~' :: b0 :: X2) = some ([("~", [])], b0 :: X2) := by
  cases fuel with
  | zero => omega
  | succ f =>
    simp only [parseBondORList]
    have hlex : lexBondToks (('~' :: b0 :: X2).length + 1) ('~' :: b0 :: X2) =
        some ([['~']], b0 :: X2) := by
      rw [show ('~' :: b0 :: X2).length + 1 = (X2.length + 2) + 1 from by simp]
      simp only [lexBondToks]
      show Option.map (fun p => (['~'] :: p.1, p.2))
          (lexBondToks (X2.length + 2) (b0 :: X2)) = some ([['~']], b0 :: X2)
      have hrest : lexBondToks (X2.length + 2) (b0 :: X2) = some ([], b0 :: X2) := by
        rw [show X2.length + 2 = (X2.length + 1) + 1 from rfl]
        simp only [lexBondToks]
        rw [lexBondTok_stop b0 X2 hb hbang]
      rw [hrest]
      rfl
    rw [hlex]
    show (match entryOfToks [['~']] with
      | none => none
      | some e0 =>
        match b0 :: X2 with
        | c0 :: rest2 =>
          if c0 = ',' then Option.map (fun p => (e0 :: p.1, p.2)) (parseBondORList f rest2)
          else some ([e0], c0 :: rest2)
        | [] => some ([e0], [])) = some ([("~", [])], b0 :: X2)
    show (if b0 = ',' then
        Option.map (fun p => (("~", ([] : List String)) :: p.1, p.2)) (parseBondORList f X2)
      else some ([("~", [])], b0 :: X2)) = some ([("~", [])], b0 :: X2)
    rw [if_neg hbc]

theorem bondOrChars_parse (ors : List (String × List String)) (b0 : Char) (X2 : List Char)
    (hor : ∀ e ∈ ors, wfBondEntry e = true) (hstar : ors ≠ [("~", [])])
    (hb : ¬ isBondChar b0 = true) (hbang : ¬ b0 = '!') (hbc : ¬ b0 = ',') :
    ∃ ors0, parseBondORList ((orChars ors '~' ++ b0 :: X2).length + 1)
        (orChars ors '~' ++ b0 :: X2) = some (ors0, b0 :: X2) ∧
      normalizeBondORs ors0 = ors := by
  cases hors : ors with
  | nil =>
    refine ⟨[("~", [])], ?_, rfl⟩
    rw [show orChars [] '~' = ['~'] from rfl, List.cons_append, List.nil_append]
    exact parseBondORList_wild b0 X2 _ hb hbang hbc (by simp)
  | cons e es =>
    refine ⟨e :: es, ?_, ?_⟩
    · have hwild : orChars (e :: es) '~' = sepBy ',' ((e :: es).map entryChars) := by
        rw [orChars, if_neg (by simp)]
      rw [hwild]
      apply parseBondORList_print (e :: es) b0 X2 _ (by simp)
        (fun u hu => hor u (hors ▸ hu)) hb hbang hbc
      have hlen : (e :: es).length ≤ (sepBy ',' ((e :: es).map entryChars)).length := by
        have := sepBy_length_ge ',' ((e :: es).map entryChars) ?_
        · rw [List.length_map] at this
          exact this
        · intro x hx
          rcases List.mem_map.mp hx with ⟨u, hu, hux⟩
          rw [← hux]
          exact wfBondEntry_ne_nil u (hor u (hors ▸ hu))
      rw [List.length_append]
      omega
    · rw [normalizeBondORs, if_neg (hors ▸ hstar)]

theorem bondChars_head (b : BondInfo) (h : wfBond b = true) :
    ∃ c cs, b.chars = c :: cs ∧ (isBondChar c = true ∨ c = '!') := by
  have hor : b.ORtypes.all wfBondEntry = true := by
    simp only [wfBond, Bool.and_eq_true] at h
    exact h.1.1
  cases hors : b.ORtypes with
  | nil =>
    refine ⟨'~', andChars b.ANDtypes, ?_, Or.inl (by decide)⟩
    rw [BondInfo.chars, hors]
    rfl
  | cons e es =>
    have hwfe : wfBondEntry e = true := by
      have := List.all_eq_true.mp hor e (by rw [hors]; exact List.mem_cons_self _ _)
      exact this
    rcases wfBondEntry_head e hwfe with ⟨c, cs, hec, hcb⟩
    rw [BondInfo.chars, hors]
    have hwild : orChars (e :: es) '~' = sepBy ',' ((e :: es).map entryChars) := by
      rw [orChars, if_neg (by simp)]
    rw [hwild]
    cases es with
    | nil =>
      rw [List.map_cons, List.map_nil, show sepBy ',' [entryChars e] = entryChars e from rfl,
        hec, List.cons_append]
      exact ⟨c, cs ++ andChars b.ANDtypes, rfl, hcb⟩
    | cons e2 es2 =>
      rw [List.map_cons,
        show sepBy ',' (entryChars e :: (e2 :: es2).map entryChars) =
          entryChars e ++ ',' :: sepBy ',' ((e2 :: es2).map entryChars) from rfl,
        hec, List.cons_append, List.cons_append]
      exact ⟨c, (cs ++ ',' :: sepBy ',' ((e2 :: es2).map entryChars)) ++ andChars b.ANDtypes,
        rfl, hcb⟩

theorem parseBondSection_print (b : BondInfo) (c : Char) (r : List Char)
    (h : wfBond b = true) (hb : ¬ isBondChar c = true) (hbang : ¬ c = '!')
    (hcomma : ¬ c = ',') (hsemi : ¬ c = ';') :
    parseBondSection (b.chars ++ c :: r) = some (some b, c :: r) := by
  have hor : b.ORtypes.all wfBondEntry = true := by
    simp only [wfBond, Bool.and_eq_true] at h
    exact h.1.1
  have hstar : b.ORtypes ≠ [("~", [])] := by
    simp only [wfBond, Bool.and_eq_true, decide_eq_true_eq] at h
    exact h.1.2
  have hand : b.ANDtypes.all wfBondAndStr = true := by
    simp only [wfBond, Bool.and_eq_true] at h
    exact h.2
  obtain ⟨b1, Y, hX, hb1, hb1bang, hb1c⟩ :
      ∃ b1 Y, andChars b.ANDtypes ++ c :: r = b1 :: Y ∧ ¬ isBondChar b1 = true ∧
        ¬ b1 = '!' ∧ ¬ b1 = ',' := by
    cases hands : b.ANDtypes with
    | nil => exact ⟨c, r, rfl, hb, hbang, hcomma⟩
    | cons s ss => exact ⟨';', (s.data ++ andChars ss) ++ c :: r, by
        show ((';' :: s.data) ++ andChars ss) ++ (c :: r) = _
        simp [List.append_assoc], by decide, by decide, by decide⟩
  have hbody : b.chars ++ c :: r = orChars b.ORtypes '~' ++ (b1 :: Y) := by
    rw [← hX, BondInfo.chars]
    rw [List.append_assoc]
  obtain ⟨ors0, hOR, hnorm⟩ := bondOrChars_parse b.ORtypes b1 Y
    (fun e he => List.all_eq_true.mp hor e he) hstar hb1 hb1bang hb1c
  rcases bondChars_head b h with ⟨h0, t0, hchars, hcb⟩
  rw [hbody]
  have hcons : ∃ t1, orChars b.ORtypes '~' ++ (b1 :: Y) = h0 :: t1 := by
    have : b.chars ++ c :: r = (h0 :: t0) ++ c :: r := by rw [hchars]
    rw [hbody] at this
    exact ⟨t0 ++ c :: r, by rw [this, List.cons_append]⟩
  rcases hcons with ⟨t1, ht1⟩
  rw [ht1]
  simp only [parseBondSection]
  rw [if_pos (by
    rcases hcb with h1 | h1
    · simp [h1]
    · simp [h1])]
  rw [← ht1, hOR]
  show (match parseBondANDList ((b1 :: Y).length + 1) (b1 :: Y) with
      | none => none
      | some (ands, rest) =>
        some (some ⟨normalizeBondORs ors0, ands⟩, rest)) = some (some b, c :: r)
  rw [← hX]
  have hAND := parseBondANDList_print b.ANDtypes c r
    ((andChars b.ANDtypes ++ c :: r).length + 1)
    (fun u hu => List.all_eq_true.mp hand u hu) hb hbang hsemi
    (by
      have := andChars_length_ge b.ANDtypes
      rw [List.length_append]
      omega)
  rw [hAND]
  show some (some ⟨normalizeBondORs ors0, b.ANDtypes⟩, c :: r) = some (some b, c :: r)
  rw [hnorm]
/-! Positional lookup facts used by the round-trip simulation. -/

theorem indexOf_append_cons (v : Nat) (A B : List Nat) (h : v ∉ A) :
    (A ++ v :: B).indexOf v = A.length := by
  induction A with
  | nil =>
    rw [List.nil_append]
    exact List.indexOf_cons_self v B
  | cons a as ih =>
    rw [List.cons_append, List.length_cons]
    have hva : v ≠ a := by
      intro hcon
      exact h (hcon ▸ List.mem_cons_self a as)
    rw [List.indexOf_cons_ne _ (fun hcon => hva hcon.symm)]
    rw [ih (fun hm => h (List.mem_cons_of_mem a hm))]

theorem not_mem_of_nodup_append_cons (v : Nat) (A B : List Nat)
    (h : (A ++ v :: B).Nodup) : v ∉ A := by
  rcases List.nodup_append.mp h with ⟨_, _, hdisj⟩
  intro hm
  exact hdisj hm (List.mem_cons_self v B)

theorem find?_eq_of_unique {α : Type} (l : List α) (p : α → Bool) (e : α)
    (he : e ∈ l) (hp : p e = true) (huniq : ∀ x ∈ l, p x = true → x = e) :
    l.find? p = some e := by
  induction l with
  | nil => cases he
  | cons a as ih =>
    by_cases hpa : p a = true
    · rw [List.find?_cons_of_pos _ hpa]
      rw [huniq a (List.mem_cons_self a as) hpa]
    · rw [List.find?_cons_of_neg _ hpa]
      rcases List.mem_cons.mp he with h1 | h1
      · exact absurd (h1 ▸ hp) hpa
      · exact ih h1 (fun x hx hpx => huniq x (List.mem_cons_of_mem a hx) hpx)

theorem imageFrom_append (G : Graph) :
    ∀ (A B : List Nat) (k : Nat),
      imageFrom G k (A ++ B) = imageFrom G k A ++ imageFrom G (k + A.length) B := by
  intro A
  induction A with
  | nil =>
    intro B k
    simp [imageFrom]
  | cons v vs ih =>
    intro B k
    rw [List.cons_append, imageFrom, imageFrom, List.cons_append, ih]
    rw [List.length_cons]
    have : k + 1 + vs.length = k + (vs.length + 1) := by omega
    rw [this]

theorem imageFrom_length (G : Graph) :
    ∀ (vs : List Nat) (k : Nat), (imageFrom G k vs).length = vs.length := by
  intro vs
  induction vs with
  | nil => intro k; rfl
  | cons v vs ih =>
    intro k
    rw [imageFrom, List.length_cons, List.length_cons, ih]

theorem imageFrom_ids_lt (G : Graph) :
    ∀ (vs : List Nat) (k : Nat) (p : Nat × AtomInfo), p ∈ imageFrom G k vs →
      k ≤ p.1 ∧ p.1 < k + vs.length := by
  intro vs
  induction vs with
  | nil => intro k p hp; cases hp
  | cons v vs ih =>
    intro k p hp
    rw [imageFrom] at hp
    rcases List.mem_cons.mp hp with h1 | h1
    · rw [h1]
      simp only [List.length_cons]
      omega
    · have := ih (k + 1) p h1
      simp only [List.length_cons]
      omega

theorem imageFrom_find (G : Graph) (A : List Nat) (v : Nat) (B : List Nat) (k : Nat) :
    ((imageFrom G k (A ++ v :: B)).find? (fun p => p.1 == k + A.length)).map
        (fun p => p.2) = some ((G.findAtom v).getD ⟨none, [], []⟩) := by
  rw [imageFrom_append]
  rw [List.find?_append]
  have h1 : (imageFrom G k A).find? (fun p => p.1 == k + A.length) = none := by
    rw [List.find?_eq_none]
    intro p hp
    have := imageFrom_ids_lt G A k p hp
    simp only [beq_iff_eq]
    omega
  rw [h1]
  rw [imageFrom]
  rw [List.find?_cons_of_pos _ (by simp)]
  rfl

theorem usedTags_imageFrom (G : Graph) :
    ∀ (vs : List Nat) (k : Nat),
      (imageFrom G k vs).filterMap (fun p => p.2.index) = tagsAlong G vs := by
  intro vs
  induction vs with
  | nil => intro k; rfl
  | cons v vs ih =>
    intro k
    have ihk := ih (k + 1)
    simp only [tagsAlong] at ihk ⊢
    cases hfa : G.findAtom v with
    | none =>
      simp only [imageFrom, List.filterMap_cons, hfa, Option.getD_none]
      exact ihk
    | some a =>
      simp only [imageFrom, List.filterMap_cons, hfa, Option.getD_some]
      cases a.index with
      | none => exact ihk
      | some t => rw [ihk]

theorem mem_of_subset_of_length {l1 l2 : List Nat} (h1 : l1.Nodup) (h2 : l2.Nodup)
    (hsub : ∀ x ∈ l1, x ∈ l2) (hlen : l2.length ≤ l1.length) : ∀ x ∈ l2, x ∈ l1 := by
  intro x hx
  have hfs : l1.toFinset ⊆ l2.toFinset := by
    intro y hy
    exact List.mem_toFinset.mpr (hsub y (List.mem_toFinset.mp hy))
  have hc1 : l1.toFinset.card = l1.length := List.toFinset_card_of_nodup h1
  have hc2 : l2.toFinset.card = l2.length := List.toFinset_card_of_nodup h2
  have heq : l1.toFinset = l2.toFinset :=
    Finset.eq_of_subset_of_card_le hfs (by omega)
  exact List.mem_toFinset.mp (heq ▸ List.mem_toFinset.mpr hx)

theorem adj_mem_iff (G : Graph) (u v : Nat) (b : BondInfo) :
    (v, b) ∈ G.adj u ↔ (u, v, b) ∈ G.bonds ∨ ((v, u, b) ∈ G.bonds ∧ v ≠ u) := by
  rw [Graph.adj, List.mem_filterMap]
  constructor
  · rintro ⟨e, he, hfe⟩
    by_cases h1 : e.1 = u
    · rw [if_pos h1] at hfe
      left
      have h2 : e.2.1 = v := congrArg Prod.fst (Option.some.inj hfe)
      have h3 : e.2.2 = b := congrArg Prod.snd (Option.some.inj hfe)
      have : e = (u, v, b) := by
        rcases e with ⟨x, y, bb⟩
        simp only at h1 h2 h3
        rw [h1, h2, h3]
      exact this ▸ he
    · rw [if_neg h1] at hfe
      by_cases h2 : e.2.1 = u
      · rw [if_pos h2] at hfe
        right
        have h3 : e.1 = v := congrArg Prod.fst (Option.some.inj hfe)
        have h4 : e.2.2 = b := congrArg Prod.snd (Option.some.inj hfe)
        have he2 : e = (v, u, b) := by
          rcases e with ⟨x, y, bb⟩
          simp only at h2 h3 h4
          rw [h2, h3, h4]
        refine ⟨he2 ▸ he, ?_⟩
        intro hvu
        exact h1 (h3.trans hvu)
      · rw [if_neg h2] at hfe
        exact Option.noConfusion hfe
  · rintro (h1 | ⟨h1, hne⟩)
    · exact ⟨(u, v, b), h1, by rw [if_pos rfl]⟩
    · refine ⟨(v, u, b), h1, ?_⟩
      rw [if_neg (by simpa using hne), if_pos rfl]
theorem wellFormed_some {G : Graph} {r : Nat} (hroot : G.root = some r)
    (h : WellFormed G = true) :
    G.atomIds.Nodup ∧
    (∀ p ∈ G.atoms, wfAtom p.2 = true) ∧
    (∀ e ∈ G.bonds, wfBond e.2.2 = true) ∧
    (tagsAlong G G.dfs.1).Nodup ∧
    (∀ e ∈ G.bonds, e.1 ∈ G.atomIds ∧ e.2.1 ∈ G.atomIds ∧ e.1 ≠ e.2.1) ∧
    (G.bonds.map (fun e => (Nat.min e.1 e.2.1, Nat.max e.1 e.2.1))).Nodup ∧
    G.dfs.1.Nodup ∧
    G.dfs.1.length = G.atoms.length ∧
    (∀ v ∈ G.dfs.1, v ∈ G.atomIds) ∧
    G.dfs.2.1.map Prod.fst = G.dfs.1.drop 1 ∧
    G.dfs.1 = preorderF G G.dfs.2.1 (G.atoms.length + 1) r ∧
    fullF G G.dfs.2.1 (G.atoms.length + 1) r = true ∧
    (∀ q ∈ orientedOf G, q.2.1 ∈ G.dfs.1 ∧ q.2.2.1 ∈ G.dfs.1 ∧
      G.dfs.1.indexOf q.2.1 < G.dfs.1.indexOf q.2.2.1) ∧
    G.dfs.2.2.length ≤ 9 ∧
    ((orientedOf G).map (fun q => q.1)).Nodup ∧
    (∀ e ∈ G.dfs.2.2, ∃ fb, fb ∈ G.bonds ∧
      ((fb.1 = e.1 ∧ fb.2.1 = e.2.1) ∨ (fb.1 = e.2.1 ∧ fb.2.1 = e.1)) ∧ fb.2.2 = e.2.2) ∧
    G.dfs.2.1.length + G.dfs.2.2.length = G.bonds.length ∧
    (∀ e ∈ G.bonds,
      (∃ p, p ∈ G.dfs.2.1 ∧ ((p.1 = e.2.1 ∧ p.2 = e.1) ∨ (p.1 = e.1 ∧ p.2 = e.2.1))) ∨
      (∃ q, q ∈ G.dfs.2.2 ∧ ((q.1 = e.1 ∧ q.2.1 = e.2.1) ∨ (q.1 = e.2.1 ∧ q.2.1 = e.1)))) := by
  simp only [WellFormed] at h
  rw [hroot] at h
  simp only [Bool.and_eq_true, decide_eq_true_eq, List.all_eq_true, List.any_eq_true,
    beq_iff_eq, Bool.or_eq_true, bne_iff_ne] at h
  obtain ⟨⟨⟨⟨⟨⟨⟨⟨⟨⟨⟨⟨⟨⟨⟨⟨⟨h1, h2⟩, h3⟩, h4⟩, h5⟩, h6⟩, h7⟩, h8⟩, h9⟩, h10⟩, h11⟩,
    h12⟩, h13⟩, h14⟩, h15⟩, h16⟩, h17⟩, h18⟩ := h
  refine ⟨h1, h2, h3, h4, ?_, h6, h7, h8, fun v hv => List.elem_iff.mp (h9 v hv),
    h10, h11, h12, ?_, h14, h15, ?_, h17, ?_⟩
  · intro e he
    have := h5 e he
    exact ⟨List.elem_iff.mp this.1.1, List.elem_iff.mp this.1.2, this.2⟩
  · intro q hq
    have := h13 q hq
    exact ⟨List.elem_iff.mp this.1.1, List.elem_iff.mp this.1.2, this.2⟩
  · intro e he
    rcases h16 e he with ⟨fb, hfb, hcond⟩
    exact ⟨fb, hfb, hcond.1, hcond.2⟩
  · intro e he
    rcases h18 e he with h | h
    · rcases h with ⟨p, hp, hcond⟩
      exact Or.inl ⟨p, hp, hcond⟩
    · rcases h with ⟨q, hq, hcond⟩
      exact Or.inr ⟨q, hq, hcond⟩
/-! Single steps of the Recursive-Descent Builder on serializer output. -/

theorem attachAtom_tag_ok (st : PState) (a : AtomInfo)
    (htag : ∀ t, a.index = some t → t ∉ st.g.usedTags) :
    (match a.index with | some t => st.g.usedTags.contains t | none => false) = false := by
  cases hidx : a.index with
  | none => rfl
  | some t =>
    show st.g.usedTags.contains t = false
    rcases hc : st.g.usedTags.contains t with _ | _
    · rfl
    · exact absurd (List.elem_iff.mp hc) (htag t hidx)

theorem attachAtom_ok_cursor (st : PState) (a : AtomInfo) (obnd : Option BondInfo) (cu : Nat)
    (hcur : st.cursor = some cu)
    (htag : ∀ t, a.index = some t → t ∉ st.g.usedTags) :
    attachAtom st a obnd = .ok { st with
      g := ⟨st.g.atoms ++ [(st.g.fresh, a)],
            st.g.bonds ++ [(cu, st.g.fresh, obnd.getD defaultBond)], st.g.fresh + 1⟩,
      cursor := some st.g.fresh } := by
  rw [attachAtom, if_neg (by rw [attachAtom_tag_ok st a htag]; exact Bool.false_ne_true)]
  rw [hcur]

theorem attachAtom_ok_root (st : PState) (a : AtomInfo)
    (hcur : st.cursor = none)
    (htag : ∀ t, a.index = some t → t ∉ st.g.usedTags) :
    attachAtom st a none = .ok { st with
      g := ⟨st.g.atoms ++ [(st.g.fresh, a)], st.g.bonds, st.g.fresh + 1⟩,
      cursor := some st.g.fresh } := by
  rw [attachAtom, if_neg (by rw [attachAtom_tag_ok st a htag]; exact Bool.false_ne_true)]
  rw [hcur]
  rfl

theorem step_atom_kid (st : PState) (a : AtomInfo) (bv : BondInfo) (cu : Nat)
    (rest : List Char) (F : Nat)
    (hcur : st.cursor = some cu)
    (hwa : wfAtom a = true) (hwb : wfBond bv = true)
    (htag : ∀ t, a.index = some t → t ∉ st.g.usedTags) :
    parseChain (F + 1) (bv.chars ++ '[' :: a.bodyChars ++ rest) st =
      parseChain F rest
        { st with
          g := ⟨st.g.atoms ++ [(st.g.fresh, a)],
                st.g.bonds ++ [(cu, st.g.fresh, bv)], st.g.fresh + 1⟩,
          cursor := some st.g.fresh } := by
  rcases bondChars_head bv hwb with ⟨h0, t0, hchars, hcb⟩
  have hbsec : parseBondSection (bv.chars ++ '[' :: (a.bodyChars ++ rest)) =
      some (some bv, '[' :: (a.bodyChars ++ rest)) :=
    parseBondSection_print bv '[' (a.bodyChars ++ rest) hwb (by decide) (by decide)
      (by decide) (by decide)
  have hinput : bv.chars ++ '[' :: a.bodyChars ++ rest =
      h0 :: (t0 ++ ('[' :: (a.bodyChars ++ rest))) := by
    rw [hchars]
    simp [List.cons_append, List.append_assoc]
  rw [hinput]
  have hnp : ¬ h0 = '(' := by
    rcases hcb with h1 | h1
    · intro hcon
      rw [hcon] at h1
      exact absurd h1 (by decide)
    · rw [h1]
      decide
  have hnq : ¬ h0 = ')' := by
    rcases hcb with h1 | h1
    · intro hcon
      rw [hcon] at h1
      exact absurd h1 (by decide)
    · rw [h1]
      decide
  simp only [parseChain]
  rw [if_neg hnp, if_neg hnq]
  rw [show h0 :: (t0 ++ ('[' :: (a.bodyChars ++ rest))) =
    bv.chars ++ '[' :: (a.bodyChars ++ rest) from by
      rw [hchars, List.cons_append]]
  rw [hbsec]
  show (if ('[' : Char).isDigit = true then _ else _) = _
  rw [if_neg (by decide)]
  rw [if_pos rfl]
  rw [parseAtomBody_print a rest hwa]
  show (match attachAtom st a (some bv) with
    | Except.error e => Except.error e
    | Except.ok st2 => parseChain F rest st2) =
    parseChain F rest
      { st with
        g := ⟨st.g.atoms ++ [(st.g.fresh, a)],
              st.g.bonds ++ [(cu, st.g.fresh, bv)], st.g.fresh + 1⟩,
        cursor := some st.g.fresh }
  rw [attachAtom_ok_cursor st a (some bv) cu hcur htag]
  rfl
theorem digitChar_facts (k : Nat) (h1 : 1 ≤ k) (h9 : k ≤ 9) :
    ¬ digitChar k = '(' ∧ ¬ digitChar k = ')' ∧ ¬ isBondChar (digitChar k) = true ∧
      ¬ digitChar k = '!' ∧ (digitChar k).isDigit = true ∧ (digitChar k).toNat - 48 = k ∧
      ¬ digitChar k = ',' ∧ ¬ digitChar k = ';' ∧ ¬ digitChar k = '[' := by
  interval_cases k <;> exact (by decide)

theorem step_atom_root (st : PState) (a : AtomInfo) (rest : List Char) (F : Nat)
    (hcur : st.cursor = none) (hwa : wfAtom a = true)
    (htag : ∀ t, a.index = some t → t ∉ st.g.usedTags) :
    parseChain (F + 1) ('[' :: a.bodyChars ++ rest) st =
      parseChain F rest
        { st with
          g := ⟨st.g.atoms ++ [(st.g.fresh, a)], st.g.bonds, st.g.fresh + 1⟩,
          cursor := some st.g.fresh } := by
  rw [List.cons_append]
  simp only [parseChain]
  rw [if_neg (by decide), if_neg (by decide)]
  have hbsec : parseBondSection ('[' :: (a.bodyChars ++ rest)) =
      some (none, '[' :: (a.bodyChars ++ rest)) := by
    simp only [parseBondSection]
    rw [if_neg (by decide)]
  rw [hbsec]
  show (if ('[' : Char).isDigit = true then _ else _) = _
  rw [if_neg (by decide)]
  rw [if_pos rfl]
  rw [parseAtomBody_print a rest hwa]
  show (match attachAtom st a none with
    | Except.error e => Except.error e
    | Except.ok st2 => parseChain F rest st2) =
    parseChain F rest
      { st with
        g := ⟨st.g.atoms ++ [(st.g.fresh, a)], st.g.bonds, st.g.fresh + 1⟩,
        cursor := some st.g.fresh }
  rw [attachAtom_ok_root st a hcur htag]

theorem step_open (st : PState) (k : Nat) (cur : Nat) (rest : List Char) (F : Nat)
    (hcur : st.cursor = some cur) (hk1 : 1 ≤ k) (hk9 : k ≤ 9)
    (hlook : ringLookup st.rings k = none) :
    parseChain (F + 1) (digitChar k :: rest) st =
      parseChain F rest { st with rings := st.rings ++ [(k, cur, none)] } := by
  rcases digitChar_facts k hk1 hk9 with ⟨hp, hq, hbc, hbang, hdig, htn, _, _, _⟩
  simp only [parseChain]
  rw [if_neg hp, if_neg hq]
  have hbsec : parseBondSection (digitChar k :: rest) = some (none, digitChar k :: rest) := by
    simp only [parseBondSection]
    rw [if_neg (by
      intro hcon
      rcases (Bool.or_eq_true _ _).mp hcon with h1 | h1
      · exact hbc h1
      · exact hbang (by simpa using h1))]
  rw [hbsec]
  show (if (digitChar k).isDigit = true then _ else _) = _
  rw [if_pos hdig, hcur]
  simp only [htn, hlook]

theorem step_close (st : PState) (k : Nat) (cur aop : Nat) (ob : Option BondInfo)
    (b : BondInfo) (rest : List Char) (F : Nat)
    (hcur : st.cursor = some cur) (hk1 : 1 ≤ k) (hk9 : k ≤ 9) (hwb : wfBond b = true)
    (hlook : ringLookup st.rings k = some (aop, ob)) :
    parseChain (F + 1) (b.chars ++ digitChar k :: rest) st =
      parseChain F rest
        { st with
          g := ⟨st.g.atoms, st.g.bonds ++ [(aop, cur, b)], st.g.fresh⟩,
          rings := ringRemove st.rings k } := by
  rcases digitChar_facts k hk1 hk9 with ⟨hp, hq, hbc, hbang, hdig, htn, hcm, hsm, _⟩
  rcases bondChars_head b hwb with ⟨h0, t0, hchars, hcb⟩
  have hbsec : parseBondSection (b.chars ++ digitChar k :: rest) =
      some (some b, digitChar k :: rest) :=
    parseBondSection_print b (digitChar k) rest hwb hbc hbang hcm hsm
  have hinput : b.chars ++ digitChar k :: rest = h0 :: (t0 ++ digitChar k :: rest) := by
    rw [hchars, List.cons_append]
  rw [hinput]
  have hnp : ¬ h0 = '(' := by
    rcases hcb with h1 | h1
    · intro hcon
      rw [hcon] at h1
      exact absurd h1 (by decide)
    · rw [h1]
      decide
  have hnq : ¬ h0 = ')' := by
    rcases hcb with h1 | h1
    · intro hcon
      rw [hcon] at h1
      exact absurd h1 (by decide)
    · rw [h1]
      decide
  simp only [parseChain]
  rw [if_neg hnp, if_neg hnq]
  rw [show h0 :: (t0 ++ digitChar k :: rest) = b.chars ++ digitChar k :: rest from by
    rw [hchars, List.cons_append]]
  rw [hbsec]
  show (if (digitChar k).isDigit = true then _ else _) = _
  rw [if_pos hdig, hcur]
  simp only [htn, hlook]

theorem step_paren_open (st : PState) (cu : Nat) (rest : List Char) (F : Nat)
    (hcur : st.cursor = some cu) :
    parseChain (F + 1) ('(' :: rest) st = parseChain F rest { st with stack := cu :: st.stack } := by
  simp only [parseChain]
  rw [if_pos trivial, hcur]

theorem step_paren_close (st : PState) (p : Nat) (ps : List Nat) (rest : List Char) (F : Nat)
    (hstk : st.stack = p :: ps) :
    parseChain (F + 1) (')' :: rest) st =
      parseChain F rest { st with cursor := some p, stack := ps } := by
  simp only [parseChain]
  rw [if_neg (by decide), if_pos trivial, hstk]

theorem parse_end (st : PState) (F : Nat) (hstk : st.stack = []) (hrng : st.rings = []) :
    parseChain (F + 1) [] st = .ok st := by
  simp only [parseChain]
  rw [hstk, hrng]
  rfl
/-! Ring-registration bookkeeping helpers. -/

theorem filterMap_if_eq_map_filter {α β : Type} (f : α → β) (p : α → Bool) :
    ∀ l : List α,
      l.filterMap (fun x => if p x then some (f x) else none) = (l.filter p).map f := by
  intro l
  induction l with
  | nil => rfl
  | cons x xs ih =>
    rw [List.filterMap_cons, List.filter_cons]
    by_cases hp : p x = true
    · rw [if_pos hp, if_pos hp, List.map_cons, ih]
    · rw [if_neg hp, if_neg hp, ih]

theorem ringLookup_append_single_ne (A : List (Nat × Nat × Option BondInfo))
    (e : Nat × Nat × Option BondInfo) (d : Nat)
    (h : ringLookup A d = none) (hne : ¬ e.1 = d) :
    ringLookup (A ++ [e]) d = none := by
  rw [ringLookup] at h ⊢
  have hA : A.find? (fun p => p.1 == d) = none := by
    cases hf : A.find? (fun p => p.1 == d) with
    | none => rfl
    | some q =>
      rw [hf] at h
      exact Option.noConfusion h
  rw [List.find?_append, hA]
  have he : List.find? (fun p => p.1 == d) [e] = none := by
    rw [List.find?_cons_of_neg _ (by simpa using hne)]
    rfl
  rw [he]
  rfl

theorem ringLookup_remove_ne (rs : List (Nat × Nat × Option BondInfo)) (k1 k2 : Nat)
    (h : ¬ k1 = k2) : ringLookup (ringRemove rs k1) k2 = ringLookup rs k2 := by
  rw [ringLookup, ringLookup, ringRemove]
  congr 1
  induction rs with
  | nil => rfl
  | cons e es ih =>
    rw [List.filter_cons]
    by_cases hk : e.1 = k1
    · have hne2 : (e.1 == k2) = false := by
        simp only [beq_eq_false_iff_ne, ne_eq]
        intro hcon
        exact h (hk ▸ hcon ▸ rfl)
      rw [if_neg (by simp [hk])]
      rw [List.find?_cons_of_neg _ (by simp [hne2])]
      exact ih
    · rw [if_pos (by simpa using hk)]
      by_cases he2 : (e.1 == k2) = true
      · simp only [List.find?_cons, he2]
      · have he3 : (e.1 == k2) = false := by
          cases hb : (e.1 == k2) with
          | false => rfl
          | true => exact absurd hb he2
        simp only [List.find?_cons, he3]
        exact ih

theorem mem_fold_ringRemove :
    ∀ (ds : List Nat) (rs : List (Nat × Nat × Option BondInfo))
      (e : Nat × Nat × Option BondInfo),
      e ∈ ds.foldl (fun acc d => ringRemove acc d) rs ↔ e ∈ rs ∧ ∀ d ∈ ds, ¬ e.1 = d := by
  intro ds
  induction ds with
  | nil =>
    intro rs e
    simp
  | cons d ds ih =>
    intro rs e
    rw [List.foldl_cons, ih]
    constructor
    · rintro ⟨h1, h2⟩
      rw [ringRemove, List.mem_filter] at h1
      refine ⟨h1.1, ?_⟩
      intro d2 hd2
      rcases List.mem_cons.mp hd2 with h3 | h3
      · have := h1.2
        simp only [bne_iff_ne, ne_eq] at this
        exact h3 ▸ this
      · exact h2 d2 h3
    · rintro ⟨h1, h2⟩
      refine ⟨?_, fun d2 hd2 => h2 d2 (List.mem_cons_of_mem d hd2)⟩
      rw [ringRemove, List.mem_filter]
      refine ⟨h1, ?_⟩
      simp only [bne_iff_ne, ne_eq]
      exact h2 d (List.mem_cons_self d ds)

theorem fold_ringRemove_sublist :
    ∀ (ds : List Nat) (rs : List (Nat × Nat × Option BondInfo)),
      (ds.foldl (fun acc d => ringRemove acc d) rs).Sublist rs := by
  intro ds
  induction ds with
  | nil =>
    intro rs
    exact List.Sublist.refl rs
  | cons d ds ih =>
    intro rs
    rw [List.foldl_cons]
    exact (ih (ringRemove rs d)).trans (List.filter_sublist rs)

theorem fold_ringRemove_lookup :
    ∀ (ds : List Nat) (rs : List (Nat × Nat × Option BondInfo)) (k : Nat),
      (∀ d ∈ ds, ¬ d = k) →
      ringLookup (ds.foldl (fun acc d => ringRemove acc d) rs) k = ringLookup rs k := by
  intro ds
  induction ds with
  | nil =>
    intro rs k _
    rfl
  | cons d ds ih =>
    intro rs k hk
    rw [List.foldl_cons]
    rw [ih (ringRemove rs d) k (fun d2 hd2 => hk d2 (List.mem_cons_of_mem d hd2))]
    exact ringLookup_remove_ne rs d k (hk d (List.mem_cons_self d ds))
theorem opensLoop (cu : Nat) :
    ∀ (os : List (Nat × Nat × Nat × BondInfo)) (st : PState) (rest : List Char) (F : Nat),
      st.cursor = some cu →
      (∀ q ∈ os, 1 ≤ q.1 ∧ q.1 ≤ 9) →
      (∀ q ∈ os, ringLookup st.rings q.1 = none) →
      (os.map (fun q => q.1)).Nodup →
      parseChain (F + os.length) (os.map (fun q => digitChar q.1) ++ rest) st =
        parseChain F rest { st with rings := st.rings ++ os.map (fun q => (q.1, cu, none)) } := by
  intro os
  induction os with
  | nil =>
    intro st rest F hcur _ _ _
    rw [List.map_nil, List.nil_append, List.map_nil, List.append_nil, List.length_nil,
      Nat.add_zero]
  | cons q os ih =>
    intro st rest F hcur hdig hlk hnd
    rw [List.map_cons, List.cons_append]
    have hq := hdig q (List.mem_cons_self q os)
    show parseChain ((F + os.length) + 1) (digitChar q.1 :: (os.map (fun q => digitChar q.1)
      ++ rest)) st = _
    rw [step_open st q.1 cu _ (F + os.length) hcur hq.1 hq.2
      (hlk q (List.mem_cons_self q os))]
    have hq1nm : q.1 ∉ os.map (fun q => q.1) := by
      have := hnd
      rw [List.map_cons] at this
      exact (List.nodup_cons.mp this).1
    rw [ih { st with rings := st.rings ++ [(q.1, cu, none)] } rest F hcur
      (fun q2 hq2 => hdig q2 (List.mem_cons_of_mem q hq2))
      (fun q2 hq2 => ringLookup_append_single_ne st.rings (q.1, cu, none) q2.1
        (hlk q2 (List.mem_cons_of_mem q hq2))
        (fun hcon => hq1nm (hcon ▸ List.mem_map_of_mem (fun q => q.1) hq2)))
      (by
        have := hnd
        rw [List.map_cons] at this
        exact (List.nodup_cons.mp this).2)]
    congr 1
    simp [List.append_assoc]

theorem closesLoop (cu : Nat) (visited : List Nat) :
    ∀ (cs : List (Nat × Nat × Nat × BondInfo)) (st : PState) (rest : List Char) (F : Nat),
      st.cursor = some cu →
      (∀ q ∈ cs, 1 ≤ q.1 ∧ q.1 ≤ 9 ∧ wfBond q.2.2.2 = true) →
      (∀ q ∈ cs, ∃ ob, ringLookup st.rings q.1 = some (visited.indexOf q.2.1, ob)) →
      (cs.map (fun q => q.1)).Nodup →
      parseChain (F + cs.length)
        ((cs.map (fun q => q.2.2.2.asSMIRKS.data ++ [digitChar q.1])).flatten ++ rest) st =
        parseChain F rest
          { st with
            g := ⟨st.g.atoms,
                  st.g.bonds ++ cs.map (fun q => (visited.indexOf q.2.1, cu, q.2.2.2)),
                  st.g.fresh⟩,
            rings := (cs.map (fun q => q.1)).foldl (fun acc d => ringRemove acc d) st.rings } := by
  intro cs
  induction cs with
  | nil =>
    intro st rest F hcur _ _ _
    rw [List.map_nil, List.flatten_nil, List.nil_append, List.map_nil, List.append_nil,
      List.map_nil, List.foldl_nil, List.length_nil, Nat.add_zero]
  | cons q cs ih =>
    intro st rest F hcur hinfo hlk hnd
    rw [List.map_cons, List.flatten_cons]
    have hq := hinfo q (List.mem_cons_self q cs)
    rcases hlk q (List.mem_cons_self q cs) with ⟨ob, hob⟩
    have hassoc : (q.2.2.2.asSMIRKS.data ++ [digitChar q.1]) ++
        ((cs.map (fun q2 => q2.2.2.2.asSMIRKS.data ++ [digitChar q2.1])).flatten ++ rest) =
        q.2.2.2.chars ++ digitChar q.1 ::
          ((cs.map (fun q2 => q2.2.2.2.asSMIRKS.data ++ [digitChar q2.1])).flatten ++ rest) := by
      rw [List.append_assoc]
      rfl
    rw [List.append_assoc, hassoc]
    show parseChain ((F + cs.length) + 1) _ st = _
    rw [step_close st q.1 cu (visited.indexOf q.2.1) ob q.2.2.2 _ (F + cs.length) hcur
      hq.1 hq.2.1 hq.2.2 hob]
    have hq1nm : q.1 ∉ cs.map (fun q2 => q2.1) := by
      have := hnd
      rw [List.map_cons] at this
      exact (List.nodup_cons.mp this).1
    rw [ih { st with
        g := ⟨st.g.atoms, st.g.bonds ++ [(visited.indexOf q.2.1, cu, q.2.2.2)], st.g.fresh⟩,
        rings := ringRemove st.rings q.1 } rest F hcur
      (fun q2 hq2 => hinfo q2 (List.mem_cons_of_mem q hq2))
      (fun q2 hq2 => by
        rcases hlk q2 (List.mem_cons_of_mem q hq2) with ⟨ob2, hob2⟩
        refine ⟨ob2, ?_⟩
        show ringLookup (ringRemove st.rings q.1) q2.1 = _
        rw [ringLookup_remove_ne st.rings q.1 q2.1
          (fun hcon => hq1nm (hcon ▸ List.mem_map_of_mem (fun q2 => q2.1) hq2))]
        exact hob2)
      (by
        have := hnd
        rw [List.map_cons] at this
        exact (List.nodup_cons.mp this).2)]
    congr 1 <;> simp [List.append_assoc, List.foldl_cons]
theorem bond_asSMIRKS_data (b : BondInfo) : b.asSMIRKS.data = b.chars := rfl

theorem kidsLoop (G : Graph) (par : List (Nat × Nat))
    (oriented : List (Nat × Nat × Nat × BondInfo)) (visited : List Nat) (fuel : Nat)
    (ihB : BStmt G par oriented visited fuel) :
    ∀ (ks : List (Nat × BondInfo)) (pre2 post2 : List Nat) (cu : Nat) (st : PState)
      (rest : List Char) (F : Nat),
      visited = pre2 ++ ((ks.map (fun q => preorderF G par fuel q.1)).flatten ++ post2) →
      (∀ q ∈ ks, fullF G par fuel q.1 = true ∧ wfBond q.2 = true) →
      st.g.atoms = imageFrom G 0 pre2 →
      st.g.fresh = pre2.length →
      st.cursor = some cu →
      RingsInv oriented visited st.rings pre2.length →
      F ≥ (assembleKids (ks.map (fun q =>
        (q.2.asSMIRKS.data, printFrom G par oriented fuel q.1))) ++ rest).length + 1 →
      ∃ F2 cur2 rings2,
        F2 ≥ rest.length + 1 ∧
        RingsInv oriented visited rings2
          (pre2.length + ((ks.map (fun q => preorderF G par fuel q.1)).flatten).length) ∧
        parseChain F (assembleKids (ks.map (fun q =>
          (q.2.asSMIRKS.data, printFrom G par oriented fuel q.1))) ++ rest) st =
          parseChain F2 rest
            { g := ⟨imageFrom G 0 (pre2 ++ (ks.map (fun q => preorderF G par fuel q.1)).flatten),
                    st.g.bonds ++ (ks.map (fun q =>
                      (cu, visited.indexOf q.1, q.2) ::
                        evBonds G par oriented visited fuel q.1)).flatten,
                    pre2.length + ((ks.map (fun q => preorderF G par fuel q.1)).flatten).length⟩,
              cursor := cur2, stack := st.stack, rings := rings2 } := by
  intro ks
  induction ks with
  | nil =>
    intro pre2 post2 cu st rest F hsub hkw hatoms hfresh hcur hinv hF
    refine ⟨F, cu, st.rings, ?_, ?_, ?_⟩
    · simpa [assembleKids] using hF
    · simpa using hinv
    · rw [show assembleKids (([] : List (Nat × BondInfo)).map (fun q =>
        (q.2.asSMIRKS.data, printFrom G par oriented fuel q.1))) = [] from rfl,
        List.nil_append]
      congr 1
      rcases st with ⟨⟨ga, gb, gf⟩, gc, gstk, gr⟩
      simp only at hatoms hfresh hcur
      simp [hatoms, hfresh, hcur]
  | cons q ks ihK =>
    intro pre2 post2 cu st rest F hsub hkw hatoms hfresh hcur hinv hF
    have hq := hkw q (List.mem_cons_self q ks)
    cases ks with
    | nil =>
      rw [show ([q] : List (Nat × BondInfo)).map (fun q2 =>
          (q2.2.asSMIRKS.data, printFrom G par oriented fuel q2.1)) =
          [(q.2.chars, printFrom G par oriented fuel q.1)] from rfl,
        show assembleKids [(q.2.chars, printFrom G par oriented fuel q.1)] =
          q.2.chars ++ printFrom G par oriented fuel q.1 from rfl,
        List.append_assoc]
      have hsub2 : visited = pre2 ++ (preorderF G par fuel q.1 ++ post2) := by
        rw [hsub]
        simp
      rcases ihB q.1 pre2 post2 q.2 cu st rest F hsub2 hq.1 hq.2 hatoms hfresh hcur hinv
        (by
          simp only [assembleKids, List.map_cons, List.map_nil, bond_asSMIRKS_data,
            List.length_append, ge_iff_le] at hF ⊢
          omega) with ⟨F2, cur2, rings2, hF2, hinv2, heq⟩
      refine ⟨F2, cur2, rings2, hF2, ?_, ?_⟩
      · simpa using hinv2
      · rw [heq]
        congr 1
        simp
    | cons k2 ks2 =>
      have hak2 : assembleKids ((q :: k2 :: ks2).map (fun q2 =>
          (q2.2.asSMIRKS.data, printFrom G par oriented fuel q2.1))) ++ rest =
          '(' :: (q.2.chars ++ (printFrom G par oriented fuel q.1 ++
            (')' :: (assembleKids ((k2 :: ks2).map (fun q2 =>
              (q2.2.asSMIRKS.data, printFrom G par oriented fuel q2.1))) ++ rest)))) := by
        show '(' :: (((q.2.chars ++ printFrom G par oriented fuel q.1) ++
          (')' :: assembleKids ((k2 :: ks2).map (fun q2 =>
            (q2.2.asSMIRKS.data, printFrom G par oriented fuel q2.1))))) ++ rest) = _
        rw [List.append_assoc, List.append_assoc]
        rfl
      rw [hak2]
      cases F with
      | zero => exact absurd hF (by simp)
      | succ F0 =>
        rw [step_paren_open st cu _ F0 hcur]
        have hsub2 : visited = pre2 ++ (preorderF G par fuel q.1 ++
            ((((k2 :: ks2).map (fun q2 => preorderF G par fuel q2.1)).flatten) ++ post2)) := by
          rw [hsub]
          simp [List.append_assoc]
        rcases ihB q.1 pre2
          ((((k2 :: ks2).map (fun q2 => preorderF G par fuel q2.1)).flatten) ++ post2)
          q.2 cu { st with stack := cu :: st.stack }
          (')' :: (assembleKids ((k2 :: ks2).map (fun q2 =>
            (q2.2.asSMIRKS.data, printFrom G par oriented fuel q2.1))) ++ rest)) F0
          hsub2 hq.1 hq.2 hatoms hfresh hcur hinv
          (by
            have hlen := congrArg List.length hak2
            simp only [List.length_append, List.length_cons] at hlen hF ⊢
            omega) with ⟨F2, cur2, rings2, hF2, hinv2, heq⟩
        rw [heq]
        cases F2 with
        | zero => exact absurd hF2 (by simp)
        | succ F2p =>
          rw [step_paren_close _ cu st.stack _ F2p rfl]
          rcases ihK (pre2 ++ preorderF G par fuel q.1) post2 cu
            { g := ⟨imageFrom G 0 (pre2 ++ preorderF G par fuel q.1),
                st.g.bonds ++ ((cu, visited.indexOf q.1, q.2) ::
                  evBonds G par oriented visited fuel q.1),
                pre2.length + (preorderF G par fuel q.1).length⟩,
              cursor := some cu, stack := st.stack, rings := rings2 }
            rest F2p
            (by
              rw [hsub]
              simp [List.append_assoc])
            (fun q2 hq2 => hkw q2 (List.mem_cons_of_mem q hq2))
            rfl
            (by
              show pre2.length + (preorderF G par fuel q.1).length = _
              rw [List.length_append])
            rfl
            (by
              show RingsInv oriented visited rings2 (pre2 ++ preorderF G par fuel q.1).length
              rw [List.length_append]
              exact hinv2)
            (by
              simp only [List.length_cons, List.length_append] at hF2 ⊢
              omega) with ⟨F3, cur3, rings3, hF3, hinv3, heq3⟩
          rw [heq3]
          refine ⟨F3, cur3, rings3, hF3, ?_, ?_⟩
          · have hlen2 : pre2.length +
                (((q :: k2 :: ks2).map (fun q2 => preorderF G par fuel q2.1)).flatten).length =
                (pre2 ++ preorderF G par fuel q.1).length +
                  (((k2 :: ks2).map (fun q2 => preorderF G par fuel q2.1)).flatten).length := by
              simp only [List.map_cons, List.flatten_cons, List.length_append]
              omega
            rw [hlen2]
            exact hinv3
          · congr 1
            congr 1
            congr 1
            · simp [List.map_cons, List.flatten_cons, List.append_assoc]
            · show (st.g.bonds ++ ((cu, visited.indexOf q.1, q.2) ::
                evBonds G par oriented visited fuel q.1)) ++
                (((k2 :: ks2).map (fun q2 => (cu, visited.indexOf q2.1, q2.2) ::
                  evBonds G par oriented visited fuel q2.1)).flatten) =
                st.g.bonds ++ (((q :: k2 :: ks2).map (fun q2 =>
                  (cu, visited.indexOf q2.1, q2.2) ::
                    evBonds G par oriented visited fuel q2.1)).flatten)
              simp [List.map_cons, List.flatten_cons, List.append_assoc]
            · show (pre2 ++ preorderF G par fuel q.1).length +
                (((k2 :: ks2).map (fun q2 => preorderF G par fuel q2.1)).flatten).length =
                pre2.length +
                  (((q :: k2 :: ks2).map (fun q2 => preorderF G par fuel q2.1)).flatten).length
              simp only [List.length_append, List.map_cons, List.flatten_cons]
              omega
theorem pairwise_digit_unique {α : Type} (l : List (Nat × α))
    (hp : l.Pairwise (fun e1 e2 => e1.1 ≠ e2.1)) (e x : Nat × α)
    (he : e ∈ l) (hx : x ∈ l) (hd : x.1 = e.1) : x = e := by
  induction l with
  | nil => cases he
  | cons a as ih =>
    rcases List.pairwise_cons.mp hp with ⟨ha, has⟩
    rcases List.mem_cons.mp he with h1 | h1
    · rcases List.mem_cons.mp hx with h2 | h2
      · rw [h1, h2]
      · exfalso
        exact (ha x h2) (by rw [hd, h1])
    · rcases List.mem_cons.mp hx with h2 | h2
      · exfalso
        refine (ha e h1) ?_
        rw [← h2]
        exact hd
      · exact ih has h1 h2

theorem childrenOf_subset_adj (G : Graph) (par : List (Nat × Nat)) (u : Nat) :
    ∀ q ∈ childrenOf G par u, q ∈ G.adj u := by
  intro q hq
  rw [childrenOf, List.mem_filterMap] at hq
  rcases hq with ⟨q2, hq2, hf⟩
  by_cases hc : ((par.find? (fun pr => pr.1 == q2.1)).map (fun pr => pr.2) == some u) = true
  · rw [if_pos hc] at hf
    exact (Option.some.inj hf) ▸ hq2
  · rw [if_neg hc] at hf
    exact Option.noConfusion hf
theorem node_events (G : Graph) (par : List (Nat × Nat))
    (oriented : List (Nat × Nat × Nat × BondInfo)) (visited : List Nat) (fuel : Nat)
    (hnodup : visited.Nodup)
    (hwfbonds : ∀ e ∈ G.bonds, wfBond e.2.2 = true)
    (hor : ∀ q ∈ oriented, q.2.1 ∈ visited ∧ q.2.2.1 ∈ visited ∧
      visited.indexOf q.2.1 < visited.indexOf q.2.2.1)
    (hordig : (oriented.map (fun q => q.1)).Nodup)
    (hdig9 : ∀ q ∈ oriented, 1 ≤ q.1 ∧ q.1 ≤ 9)
    (hclosewf : ∀ q ∈ oriented, wfBond q.2.2.2 = true)
    (ihB : BStmt G par oriented visited fuel) :
    ∀ (u : Nat) (pre post : List Nat) (st : PState) (rest : List Char) (F : Nat),
      visited = pre ++ (preorderF G par (fuel + 1) u ++ post) →
      fullF G par (fuel + 1) u = true →
      st.g.atoms = imageFrom G 0 (pre ++ [u]) →
      st.g.fresh = pre.length + 1 →
      st.cursor = some pre.length →
      RingsInv oriented visited st.rings pre.length →
      F ≥ ((oriented.filterMap (fun q => if q.2.1 == u then some (digitChar q.1) else none)) ++
        (((oriented.filterMap (fun q => if q.2.2.1 == u then
            some (q.2.2.2.asSMIRKS.data ++ [digitChar q.1]) else none)).flatten) ++
          (assembleKids ((childrenOf G par u).map (fun q =>
            (q.2.asSMIRKS.data, printFrom G par oriented fuel q.1))) ++ rest))).length + 1 →
      ∃ F2 cur2 rings2,
        F2 ≥ rest.length + 1 ∧
        RingsInv oriented visited rings2 (pre.length + (preorderF G par (fuel + 1) u).length) ∧
        parseChain F ((oriented.filterMap (fun q => if q.2.1 == u then
            some (digitChar q.1) else none)) ++
          (((oriented.filterMap (fun q => if q.2.2.1 == u then
              some (q.2.2.2.asSMIRKS.data ++ [digitChar q.1]) else none)).flatten) ++
            (assembleKids ((childrenOf G par u).map (fun q =>
              (q.2.asSMIRKS.data, printFrom G par oriented fuel q.1))) ++ rest))) st =
          parseChain F2 rest
            { g := ⟨imageFrom G 0 (pre ++ preorderF G par (fuel + 1) u),
                    st.g.bonds ++ evBonds G par oriented visited (fuel + 1) u,
                    pre.length + (preorderF G par (fuel + 1) u).length⟩,
              cursor := cur2, stack := st.stack, rings := rings2 } := by
  intro u pre post st rest F hsub hfull hatoms hfresh hcur hinv hF
  have hpre : preorderF G par (fuel + 1) u =
      u :: ((childrenOf G par u).map (fun q => preorderF G par fuel q.1)).flatten := rfl
  have hsub2 : visited = pre ++ u ::
      (((childrenOf G par u).map (fun q => preorderF G par fuel q.1)).flatten ++ post) := by
    rw [hsub, hpre, List.cons_append]
  have hnotmem : u ∉ pre := by
    have hnd2 := hnodup
    rw [hsub2] at hnd2
    exact not_mem_of_nodup_append_cons u pre _ hnd2
  have hphiu : visited.indexOf u = pre.length := by
    rw [hsub2]
    exact indexOf_append_cons u pre _ hnotmem
  have hops : oriented.filterMap (fun q => if q.2.1 == u then some (digitChar q.1) else none) =
      (oriented.filter (fun q => q.2.1 == u)).map (fun q => digitChar q.1) :=
    filterMap_if_eq_map_filter _ _ oriented
  have hlknone : ∀ q ∈ oriented.filter (fun q => q.2.1 == u),
      ringLookup st.rings q.1 = none := by
    intro q hq
    have hqo : q ∈ oriented := List.mem_of_mem_filter hq
    have hqu : q.2.1 = u := by
      have := List.of_mem_filter hq
      simpa using this
    rw [ringLookup]
    cases hfind : st.rings.find? (fun p => p.1 == q.1) with
    | none => rfl
    | some e =>
      exfalso
      have hmem := List.mem_of_find?_eq_some hfind
      have hpred0 := List.find?_some hfind
      have hpred : (e.1 == q.1) = true := by simpa using hpred0
      rcases (hinv.1 e).mp hmem with ⟨a, c, b, hoe, he1, he2, hlt, hge⟩
      have heq1 : e.1 = q.1 := by simpa using hpred
      have heq2 : (e.1, a, c, b) = q := by
        have hinj := List.inj_on_of_nodup_map hordig
        exact hinj hoe hqo (by simpa using heq1)
      have ha : a = u := by
        have := congrArg (fun z => z.2.1) heq2
        simp only at this
        rw [this, hqu]
      rw [ha, hphiu] at hlt
      exact absurd hlt (lt_irrefl _)
  have hosnd : ((oriented.filter (fun q => q.2.1 == u)).map (fun q => q.1)).Nodup :=
    List.Nodup.sublist (List.Sublist.map _ (List.filter_sublist oriented)) hordig
  have hoslen : (oriented.filterMap (fun q =>
      if q.2.1 == u then some (digitChar q.1) else none)).length =
      (oriented.filter (fun q => q.2.1 == u)).length := by
    rw [hops, List.length_map]
  have hosle : (oriented.filter (fun q => q.2.1 == u)).length ≤ F := by
    simp only [List.length_append, ge_iff_le] at hF
    omega
  have h1 := opensLoop pre.length (oriented.filter (fun q => q.2.1 == u)) st
    ((oriented.filterMap (fun q => if q.2.2.1 == u then
        some (q.2.2.2.asSMIRKS.data ++ [digitChar q.1]) else none)).flatten ++
      (assembleKids ((childrenOf G par u).map (fun q =>
        (q.2.asSMIRKS.data, printFrom G par oriented fuel q.1))) ++ rest))
    (F - (oriented.filter (fun q => q.2.1 == u)).length) hcur
    (fun q hq => hdig9 q (List.mem_of_mem_filter hq)) hlknone hosnd
  rw [hops, show F = (F - (oriented.filter (fun q => q.2.1 == u)).length) +
    (oriented.filter (fun q => q.2.1 == u)).length from (Nat.sub_add_cancel hosle).symm, h1]
  have hcls : oriented.filterMap (fun q => if q.2.2.1 == u then
      some (q.2.2.2.asSMIRKS.data ++ [digitChar q.1]) else none) =
      (oriented.filter (fun q => q.2.2.1 == u)).map
        (fun q => q.2.2.2.asSMIRKS.data ++ [digitChar q.1]) :=
    filterMap_if_eq_map_filter _ _ oriented
  have hr1pw : (st.rings ++ (oriented.filter (fun q => q.2.1 == u)).map
      (fun q => (q.1, pre.length, (none : Option BondInfo)))).Pairwise
      (fun e1 e2 => e1.1 ≠ e2.1) := by
    rw [List.pairwise_append]
    refine ⟨hinv.2, ?_, ?_⟩
    · rw [List.pairwise_map]
      exact List.pairwise_map.mp hosnd
    · intro e1 he1 e2 he2
      rcases (hinv.1 e1).mp he1 with ⟨a, c, b, hoe, he1a, he1b, hlt, hge⟩
      rcases List.mem_map.mp he2 with ⟨osq, hosq, hge2⟩
      have hosqo : osq ∈ oriented := List.mem_of_mem_filter hosq
      have hosqu : osq.2.1 = u := by
        have := List.of_mem_filter hosq
        simpa using this
      intro hcon
      have he21 : e2.1 = osq.1 := by rw [← hge2]
      have heq2 : (e1.1, a, c, b) = osq := by
        have hinj := List.inj_on_of_nodup_map hordig
        exact hinj hoe hosqo (by simp only; rw [hcon, he21])
      have ha : a = u := by
        have := congrArg (fun z => z.2.1) heq2
        simp only at this
        rw [this, hosqu]
      rw [ha, hphiu] at hlt
      exact absurd hlt (lt_irrefl _)
  have hlkcs : ∀ q ∈ oriented.filter (fun q => q.2.2.1 == u),
      ∃ ob, ringLookup (st.rings ++ (oriented.filter (fun q => q.2.1 == u)).map
        (fun q => (q.1, pre.length, (none : Option BondInfo)))) q.1 =
        some (visited.indexOf q.2.1, ob) := by
    intro q hq
    have hqo : q ∈ oriented := List.mem_of_mem_filter hq
    have hqu : q.2.2.1 = u := by
      have := List.of_mem_filter hq
      simpa using this
    have hentry : (q.1, visited.indexOf q.2.1, (none : Option BondInfo)) ∈
        st.rings ++ (oriented.filter (fun q => q.2.1 == u)).map
          (fun q => (q.1, pre.length, (none : Option BondInfo))) := by
      apply List.mem_append_left
      apply (hinv.1 _).mpr
      refine ⟨q.2.1, q.2.2.1, q.2.2.2, ?_, rfl, rfl, ?_, ?_⟩
      · exact hqo
      · have := (hor q hqo).2.2
        rw [hqu, hphiu] at this
        exact this
      · rw [hqu, hphiu]
    refine ⟨none, ?_⟩
    rw [ringLookup, find?_eq_of_unique _ _ (q.1, visited.indexOf q.2.1,
      (none : Option BondInfo)) hentry (by simp)
      (fun x hx hpx => pairwise_digit_unique _ hr1pw _ x hentry hx (by simpa using hpx))]
    rfl
  have hcsnd : ((oriented.filter (fun q => q.2.2.1 == u)).map (fun q => q.1)).Nodup :=
    List.Nodup.sublist (List.Sublist.map _ (List.filter_sublist oriented)) hordig
  have hflatge : (oriented.filter (fun q => q.2.2.1 == u)).length ≤
      ((oriented.filter (fun q => q.2.2.1 == u)).map
        (fun q => q.2.2.2.asSMIRKS.data ++ [digitChar q.1])).flatten.length := by
    have h5 := toks_length_le_flatten ((oriented.filter (fun q => q.2.2.1 == u)).map
      (fun q => q.2.2.2.asSMIRKS.data ++ [digitChar q.1])) ?_
    · rw [List.length_map] at h5
      exact h5
    · intro t ht
      rcases List.mem_map.mp ht with ⟨q2, hq2, hqt⟩
      rw [← hqt]
      simp
  have hF2 := hF
  rw [hops, hcls] at hF2
  have hcsle : (oriented.filter (fun q => q.2.2.1 == u)).length ≤
      F - (oriented.filter (fun q => q.2.1 == u)).length := by
    simp only [List.length_append, List.length_map, ge_iff_le] at hF2
    omega
  have h2 := closesLoop pre.length visited (oriented.filter (fun q => q.2.2.1 == u))
    { st with rings := (st.rings ++ (oriented.filter (fun q => q.2.1 == u)).map
        (fun q => (q.1, pre.length, (none : Option BondInfo)))) }
    (assembleKids ((childrenOf G par u).map (fun q =>
      (q.2.asSMIRKS.data, printFrom G par oriented fuel q.1))) ++ rest)
    (F - (oriented.filter (fun q => q.2.1 == u)).length -
      (oriented.filter (fun q => q.2.2.1 == u)).length)
    hcur (fun q hq => ⟨(hdig9 q (List.mem_of_mem_filter hq)).1,
      (hdig9 q (List.mem_of_mem_filter hq)).2, hclosewf q (List.mem_of_mem_filter hq)⟩)
    hlkcs hcsnd
  rw [hcls, show F - (oriented.filter (fun q => q.2.1 == u)).length =
    (F - (oriented.filter (fun q => q.2.1 == u)).length -
      (oriented.filter (fun q => q.2.2.1 == u)).length) +
      (oriented.filter (fun q => q.2.2.1 == u)).length from (Nat.sub_add_cancel hcsle).symm,
    h2]
  have huv : u ∈ visited := by
    rw [hsub2]
    exact List.mem_append_right _ (List.mem_cons_self _ _)
  have hinv2 : RingsInv oriented visited
      (((oriented.filter (fun q => q.2.2.1 == u)).map (fun q => q.1)).foldl
        (fun acc d => ringRemove acc d)
        (st.rings ++ (oriented.filter (fun q => q.2.1 == u)).map
          (fun q => (q.1, pre.length, (none : Option BondInfo)))))
      (pre.length + 1) := by
    constructor
    · intro e
      rw [mem_fold_ringRemove]
      constructor
      · rintro ⟨hmem, hnd⟩
        rcases List.mem_append.mp hmem with hmem1 | hmem1
        · rcases (hinv.1 e).mp hmem1 with ⟨a, c, b, hoe, he1, he2, hlt, hge⟩
          refine ⟨a, c, b, hoe, he1, he2, by omega, ?_⟩
          by_cases hcm : visited.indexOf c = pre.length
          · exfalso
            have hcv : c ∈ visited := (hor _ hoe).2.1
            have hcu : c = u :=
              (List.indexOf_inj hcv huv).mp (by rw [hcm, hphiu])
            have hcs : (e.1, a, c, b) ∈ oriented.filter (fun q => q.2.2.1 == u) := by
              rw [List.mem_filter]
              exact ⟨hoe, by simp [hcu]⟩
            have hmem2 : e.1 ∈ (oriented.filter (fun q => q.2.2.1 == u)).map
                (fun q => q.1) := List.mem_map.mpr ⟨_, hcs, rfl⟩
            exact (hnd e.1 hmem2) rfl
          · have hgec := (hor _ hoe).2.2
            omega
        · rcases List.mem_map.mp hmem1 with ⟨osq, hosq, rfl⟩
          have hosqo : osq ∈ oriented := List.mem_of_mem_filter hosq
          have hosqu : osq.2.1 = u := by
            have := List.of_mem_filter hosq
            simpa using this
          refine ⟨osq.2.1, osq.2.2.1, osq.2.2.2, hosqo, ?_, rfl, ?_, ?_⟩
          · show pre.length = visited.indexOf osq.2.1
            rw [hosqu, hphiu]
          · show visited.indexOf osq.2.1 < pre.length + 1
            rw [hosqu, hphiu]
            omega
          · have := (hor osq hosqo).2.2
            rw [hosqu, hphiu] at this
            omega
      · rintro ⟨a, c, b, hoe, he1, he2, hlt, hge⟩
        constructor
        · by_cases ham : visited.indexOf a = pre.length
          · have hav : a ∈ visited := (hor _ hoe).1
            have hau : a = u := (List.indexOf_inj hav huv).mp (by rw [ham, hphiu])
            apply List.mem_append_right
            apply List.mem_map.mpr
            refine ⟨(e.1, a, c, b), ?_, ?_⟩
            · rw [List.mem_filter]
              exact ⟨hoe, by simp [hau]⟩
            · rcases e with ⟨ed, ev, eb⟩
              simp only at he1 he2
              simp only
              rw [he1, he2, ham]
          · apply List.mem_append_left
            apply (hinv.1 e).mpr
            exact ⟨a, c, b, hoe, he1, he2, by omega, by omega⟩
        · intro d hd hcon
          rcases List.mem_map.mp hd with ⟨csq, hcsq, rfl⟩
          have hcsqo : csq ∈ oriented := List.mem_of_mem_filter hcsq
          have hcsqu : csq.2.2.1 = u := by
            have := List.of_mem_filter hcsq
            simpa using this
          have heq3 : (e.1, a, c, b) = csq := by
            have hinj := List.inj_on_of_nodup_map hordig
            exact hinj hoe hcsqo (by simp only; rw [hcon])
          have hc : c = u := by
            have := congrArg (fun z => z.2.2.1) heq3
            simp only at this
            rw [this, hcsqu]
          rw [hc, hphiu] at hge
          omega
    · exact List.Pairwise.sublist (fold_ringRemove_sublist _ _) hr1pw
  have hkw : ∀ q ∈ childrenOf G par u, fullF G par fuel q.1 = true ∧ wfBond q.2 = true := by
    intro q hq
    constructor
    · have hfull2 : (childrenOf G par u).all (fun q => fullF G par fuel q.1) = true := hfull
      exact List.all_eq_true.mp hfull2 q hq
    · have hadj := childrenOf_subset_adj G par u q hq
      rcases (adj_mem_iff G u q.1 q.2).mp (by
        rcases q with ⟨qv, qb⟩
        exact hadj) with h3 | h3
      · exact hwfbonds _ h3
      · exact hwfbonds _ h3.1
  have hsub3 : visited = (pre ++ [u]) ++
      ((((childrenOf G par u).map (fun q => preorderF G par fuel q.1)).flatten) ++ post) := by
    rw [hsub2]
    simp [List.append_assoc]
  have hFk : F - (oriented.filter (fun q => q.2.1 == u)).length -
      (oriented.filter (fun q => q.2.2.1 == u)).length ≥
      (assembleKids ((childrenOf G par u).map (fun q =>
        (q.2.asSMIRKS.data, printFrom G par oriented fuel q.1))) ++ rest).length + 1 := by
    have h6 := hF2
    simp only [List.length_append, List.length_map, List.length_cons, List.length_nil,
      ge_iff_le] at h6
    simp only [List.length_append, ge_iff_le]
    omega
  rcases kidsLoop G par oriented visited fuel ihB (childrenOf G par u) (pre ++ [u]) post
    pre.length
    { g := ⟨st.g.atoms,
        st.g.bonds ++ (oriented.filter (fun q => q.2.2.1 == u)).map
          (fun q => (visited.indexOf q.2.1, pre.length, q.2.2.2)), st.g.fresh⟩,
      cursor := st.cursor, stack := st.stack,
      rings := ((oriented.filter (fun q => q.2.2.1 == u)).map (fun q => q.1)).foldl
        (fun acc d => ringRemove acc d)
        (st.rings ++ (oriented.filter (fun q => q.2.1 == u)).map
          (fun q => (q.1, pre.length, (none : Option BondInfo)))) }
    rest
    (F - (oriented.filter (fun q => q.2.1 == u)).length -
      (oriented.filter (fun q => q.2.2.1 == u)).length)
    hsub3 hkw (by simpa using hatoms) (by simpa using hfresh) hcur
    (by simpa using hinv2) hFk with ⟨F3, cur3, rings3, hF3, hinv4, heq3⟩
  rw [heq3]
  have hclosesAt : closesAt oriented visited u =
      (oriented.filter (fun q => q.2.2.1 == u)).map
        (fun q => (visited.indexOf q.2.1, visited.indexOf u, q.2.2.2)) :=
    filterMap_if_eq_map_filter _ _ oriented
  refine ⟨F3, cur3, rings3, hF3, ?_, ?_⟩
  · have hlen5 : pre.length + (preorderF G par (fuel + 1) u).length =
        (pre ++ [u]).length +
          (((childrenOf G par u).map (fun q => preorderF G par fuel q.1)).flatten).length := by
      rw [hpre]
      simp only [List.length_cons, List.length_append, List.length_nil]
      omega
    rw [hlen5]
    exact hinv4
  · congr 1
    congr 1
    congr 1
    · rw [hpre]
      simp [List.append_assoc]
    · show (st.g.bonds ++ (oriented.filter (fun q => q.2.2.1 == u)).map
          (fun q => (visited.indexOf q.2.1, pre.length, q.2.2.2))) ++
          (((childrenOf G par u).map (fun q => (pre.length, visited.indexOf q.1, q.2) ::
            evBonds G par oriented visited fuel q.1)).flatten) =
        st.g.bonds ++ evBonds G par oriented visited (fuel + 1) u
      rw [show evBonds G par oriented visited (fuel + 1) u =
        closesAt oriented visited u ++
          (((childrenOf G par u).map (fun q =>
            (visited.indexOf u, visited.indexOf q.1, q.2) ::
              evBonds G par oriented visited fuel q.1)).flatten) from rfl]
      rw [hclosesAt]
      simp only [hphiu]
      rw [List.append_assoc]
    · show (pre ++ [u]).length +
          (((childrenOf G par u).map (fun q => preorderF G par fuel q.1)).flatten).length =
        pre.length + (preorderF G par (fuel + 1) u).length
      rw [hpre]
      simp only [List.length_cons, List.length_append, List.length_nil]
      omega
theorem subtree_sim (G : Graph) (par : List (Nat × Nat))
    (oriented : List (Nat × Nat × Nat × BondInfo)) (visited : List Nat)
    (hnodup : visited.Nodup)
    (htags : (tagsAlong G visited).Nodup)
    (hvatoms : ∀ v ∈ visited, ∃ a, G.findAtom v = some a)
    (hwfatoms : ∀ p ∈ G.atoms, wfAtom p.2 = true)
    (hwfbonds : ∀ e ∈ G.bonds, wfBond e.2.2 = true)
    (hor : ∀ q ∈ oriented, q.2.1 ∈ visited ∧ q.2.2.1 ∈ visited ∧
      visited.indexOf q.2.1 < visited.indexOf q.2.2.1)
    (hordig : (oriented.map (fun q => q.1)).Nodup)
    (hdig9 : ∀ q ∈ oriented, 1 ≤ q.1 ∧ q.1 ≤ 9)
    (hclosewf : ∀ q ∈ oriented, wfBond q.2.2.2 = true) :
    ∀ fuel, BStmt G par oriented visited fuel := by
  intro fuel
  induction fuel with
  | zero =>
    intro v pre post bv cu st rest F hsub hfull
    exact fun _ _ _ _ _ _ => absurd hfull (by rw [fullF]; exact Bool.false_ne_true)
  | succ f ih =>
    intro v pre post bv cu st rest F hsub hfull hwb hatoms hfresh hcur hinv hF
    have hpre : preorderF G par (f + 1) v =
        v :: ((childrenOf G par v).map (fun q => preorderF G par f q.1)).flatten := rfl
    have hsub2 : visited = pre ++ v ::
        (((childrenOf G par v).map (fun q => preorderF G par f q.1)).flatten ++ post) := by
      rw [hsub, hpre, List.cons_append]
    have hvv : v ∈ visited := by
      rw [hsub2]
      exact List.mem_append_right _ (List.mem_cons_self _ _)
    have hnotmem : v ∉ pre := by
      have hnd2 := hnodup
      rw [hsub2] at hnd2
      exact not_mem_of_nodup_append_cons v pre _ hnd2
    have hphiu : visited.indexOf v = pre.length := by
      rw [hsub2]
      exact indexOf_append_cons v pre _ hnotmem
    rcases hvatoms v hvv with ⟨a, ha⟩
    have hwa : wfAtom a = true := by
      rw [Graph.findAtom] at ha
      rcases Option.map_eq_some'.mp ha with ⟨p, hfind, hpa⟩
      have := hwfatoms p (List.mem_of_find?_eq_some hfind)
      rw [hpa] at this
      exact this
    have hasm : a.asSMIRKS.data = '[' :: a.bodyChars := rfl
    have hprint : printFrom G par oriented (f + 1) v =
        ((((match G.findAtom v with | some a2 => a2.asSMIRKS.data | none => []) ++
          oriented.filterMap (fun q => if q.2.1 == v then some (digitChar q.1) else none)) ++
          (oriented.filterMap (fun q => if q.2.2.1 == v then
            some (q.2.2.2.asSMIRKS.data ++ [digitChar q.1]) else none)).flatten) ++
          assembleKids ((childrenOf G par v).map (fun q =>
            (q.2.asSMIRKS.data, printFrom G par oriented f q.1)))) := rfl
    have hinp : bv.chars ++ (printFrom G par oriented (f + 1) v ++ rest) =
        bv.chars ++ '[' :: a.bodyChars ++
          (oriented.filterMap (fun q => if q.2.1 == v then some (digitChar q.1) else none) ++
            ((oriented.filterMap (fun q => if q.2.2.1 == v then
              some (q.2.2.2.asSMIRKS.data ++ [digitChar q.1]) else none)).flatten ++
            (assembleKids ((childrenOf G par v).map (fun q =>
              (q.2.asSMIRKS.data, printFrom G par oriented f q.1))) ++ rest))) := by
      rw [hprint, ha]
      simp [hasm, List.append_assoc]
    rw [hinp]
    cases F with
    | zero =>
      exfalso
      have := hF
      simp only [ge_iff_le, List.length_append] at this
      omega
    | succ F0 =>
      have htagok : ∀ t, a.index = some t → t ∉ st.g.usedTags := by
        intro t hat hmem
        have husd : st.g.usedTags = tagsAlong G pre := by
          rw [Graph.usedTags, hatoms, usedTags_imageFrom]
        rw [husd] at hmem
        have hsplit : tagsAlong G visited =
            tagsAlong G pre ++ tagsAlong G (v ::
              (((childrenOf G par v).map (fun q => preorderF G par f q.1)).flatten ++ post)) := by
          rw [hsub2, tagsAlong, tagsAlong, tagsAlong, List.filterMap_append]
        have hhead : tagsAlong G (v ::
            (((childrenOf G par v).map (fun q => preorderF G par f q.1)).flatten ++ post)) =
            t :: tagsAlong G
              ((((childrenOf G par v).map (fun q => preorderF G par f q.1)).flatten ++ post)) := by
          simp only [tagsAlong, List.filterMap_cons, ha, hat]
        have hnd3 := htags
        rw [hsplit, hhead] at hnd3
        rcases List.nodup_append.mp hnd3 with ⟨_, _, hdisj⟩
        exact hdisj hmem (List.mem_cons_self _ _)
      rw [step_atom_kid st a bv cu _ F0 hcur hwa hwb htagok]
      have hne := node_events G par oriented visited f hnodup hwfbonds hor hordig hdig9
        hclosewf ih v pre post
        { st with
          g := ⟨st.g.atoms ++ [(st.g.fresh, a)],
                st.g.bonds ++ [(cu, st.g.fresh, bv)], st.g.fresh + 1⟩,
          cursor := some st.g.fresh }
        rest F0 hsub hfull
        (by
          show st.g.atoms ++ [(st.g.fresh, a)] = imageFrom G 0 (pre ++ [v])
          rw [imageFrom_append, hatoms, hfresh]
          rw [show imageFrom G (0 + pre.length) [v] =
            [(0 + pre.length, (G.findAtom v).getD ⟨none, [], []⟩)] from rfl]
          rw [ha, Option.getD_some, Nat.zero_add])
        (by
          show st.g.fresh + 1 = pre.length + 1
          rw [hfresh])
        (by
          show some st.g.fresh = some pre.length
          rw [hfresh])
        (by
          show RingsInv oriented visited st.rings pre.length
          exact hinv)
        (by
          have hlen6 := congrArg List.length hinp
          simp only [List.length_append, List.length_cons] at hlen6
          have hF3 := hF
          simp only [ge_iff_le, List.length_append] at hF3 ⊢
          omega)
      rcases hne with ⟨F2, cur2, rings2, hF2, hinv2, heq2⟩
      rw [heq2]
      refine ⟨F2, cur2, rings2, hF2, ?_, ?_⟩
      · exact hinv2
      · congr 1
        congr 1
        congr 1
        · show st.g.bonds ++ [(cu, st.g.fresh, bv)] ++
            evBonds G par oriented visited (f + 1) v =
            st.g.bonds ++ ((cu, visited.indexOf v, bv) ::
              evBonds G par oriented visited (f + 1) v)
          rw [hfresh, hphiu, List.append_assoc]
          rfl
theorem enumFrom_mem_facts {α : Type} :
    ∀ (l : List α) (k : Nat) (x : Nat × α), x ∈ l.enumFrom k →
      k ≤ x.1 ∧ x.1 < k + l.length ∧ x.2 ∈ l := by
  intro l
  induction l with
  | nil =>
    intro k x hx
    cases hx
  | cons a as ih =>
    intro k x hx
    rw [List.enumFrom_cons] at hx
    rcases List.mem_cons.mp hx with h1 | h1
    · rw [h1]
      simp only [List.length_cons]
      exact ⟨Nat.le_refl k, by omega, List.mem_cons_self a as⟩
    · rcases ih (k + 1) x h1 with ⟨h2, h3, h4⟩
      simp only [List.length_cons]
      exact ⟨by omega, by omega, List.mem_cons_of_mem a h4⟩

theorem findAtom_of_mem_ids (G : Graph) (v : Nat) (hv : v ∈ G.atomIds) :
    ∃ a, G.findAtom v = some a := by
  rw [Graph.atomIds] at hv
  rcases List.mem_map.mp hv with ⟨p, hp, hpv⟩
  rw [Graph.findAtom]
  cases hfind : G.atoms.find? (fun p2 => p2.1 == v) with
  | none =>
    exfalso
    have := List.find?_eq_none.mp hfind p hp
    rw [hpv] at this
    simp at this
  | some p2 => exact ⟨p2.2, rfl⟩

theorem orientBacks_payload (visited : List Nat) (backs : List (Nat × Nat × BondInfo)) :
    ∀ e ∈ orientBacks visited backs, ∃ be, be ∈ backs ∧
      ((e.1 = be.1 ∧ e.2.1 = be.2.1) ∨ (e.1 = be.2.1 ∧ e.2.1 = be.1)) ∧ e.2.2 = be.2.2 := by
  intro e he
  rw [orientBacks] at he
  rcases List.mem_map.mp he with ⟨be, hbe, hbee⟩
  by_cases hle : visited.indexOf be.1 ≤ visited.indexOf be.2.1
  · rw [if_pos hle] at hbee
    exact ⟨be, hbe, Or.inl ⟨by rw [← hbee], by rw [← hbee]⟩, by rw [← hbee]⟩
  · rw [if_neg hle] at hbee
    exact ⟨be, hbe, Or.inr ⟨by rw [← hbee], by rw [← hbee]⟩, by rw [← hbee]⟩

theorem oriented_snd_mem (G : Graph) :
    ∀ q ∈ orientedOf G, q.2 ∈ orientBacks G.dfs.1 G.dfs.2.2 ∧
      ∃ i, i < G.dfs.2.2.length ∧ q.1 = i + 1 := by
  intro q hq
  rw [orientedOf] at hq
  rcases List.mem_map.mp hq with ⟨p, hp, hpq⟩
  rw [List.enum_eq_enumFrom] at hp
  rcases enumFrom_mem_facts _ 0 p hp with ⟨_, hlt, hmem⟩
  constructor
  · rw [← hpq]
    exact hmem
  · refine ⟨p.1, ?_, by rw [← hpq]⟩
    have hlen : (orientBacks G.dfs.1 G.dfs.2.2).length = G.dfs.2.2.length := by
      rw [orientBacks, List.length_map]
    omega
theorem roundtrip_core (G : Graph) (r : Nat) (hroot : G.root = some r)
    (hWF : WellFormed G = true) :
    parseSmirks (Graph.asSMIRKS G) =
      .ok ⟨imageFrom G 0 G.dfs.1,
           evBonds G G.dfs.2.1 (orientedOf G) G.dfs.1 (G.atoms.length + 1) r,
           G.atoms.length⟩ := by
  obtain ⟨w1, w2, w3, w4, w5, w6, w7, w8, w9, w10, w11, w12, w13, w14, w15, w16, w17, w18⟩ :=
    wellFormed_some hroot hWF
  have hvatoms : ∀ v ∈ G.dfs.1, ∃ a, G.findAtom v = some a :=
    fun v hv => findAtom_of_mem_ids G v (w9 v hv)
  have hdig9 : ∀ q ∈ orientedOf G, 1 ≤ q.1 ∧ q.1 ≤ 9 := by
    intro q hq
    rcases (oriented_snd_mem G q hq).2 with ⟨i, hi, hqi⟩
    omega
  have hclosewf : ∀ q ∈ orientedOf G, wfBond q.2.2.2 = true := by
    intro q hq
    rcases orientBacks_payload _ _ q.2 (oriented_snd_mem G q hq).1 with ⟨be, hbe, _, hpay⟩
    rcases w16 be hbe with ⟨fb, hfb, _, hpay2⟩
    rw [hpay, ← hpay2]
    exact w3 fb hfb
  have hBn := subtree_sim G G.dfs.2.1 (orientedOf G) G.dfs.1 w7 w4 hvatoms w2 w3 w13 w15
    hdig9 hclosewf G.atoms.length
  have hrv : r ∈ G.dfs.1 := by
    rw [w11]
    exact List.mem_cons_self _ _
  rcases hvatoms r hrv with ⟨ar, har⟩
  have hwar : wfAtom ar = true := by
    have har2 := har
    rw [Graph.findAtom] at har2
    rcases Option.map_eq_some'.mp har2 with ⟨p, hfind, hpa⟩
    have := w2 p (List.mem_of_find?_eq_some hfind)
    rw [hpa] at this
    exact this
  have hpr : (Graph.asSMIRKS G).data =
      printFrom G G.dfs.2.1 (orientedOf G) (G.atoms.length + 1) r := by
    rw [show Graph.asSMIRKS G = (match G.root with
      | none => ""
      | some r2 =>
        String.mk (printFrom G G.dfs.2.1
          ((orientBacks G.dfs.1 G.dfs.2.2).enum.map (fun q => (q.1 + 1, q.2)))
          (G.atoms.length + 1) r2)) from rfl, hroot]
    rfl
  have hprint2 : printFrom G G.dfs.2.1 (orientedOf G) (G.atoms.length + 1) r =
      '[' :: ar.bodyChars ++
        ((orientedOf G).filterMap (fun q => if q.2.1 == r then
            some (digitChar q.1) else none) ++
          (((orientedOf G).filterMap (fun q => if q.2.2.1 == r then
              some (q.2.2.2.asSMIRKS.data ++ [digitChar q.1]) else none)).flatten ++
            (assembleKids ((childrenOf G G.dfs.2.1 r).map (fun q =>
              (q.2.asSMIRKS.data, printFrom G G.dfs.2.1 (orientedOf G)
                G.atoms.length q.1))) ++ []))) := by
    rw [show printFrom G G.dfs.2.1 (orientedOf G) (G.atoms.length + 1) r =
      ((((match G.findAtom r with | some a2 => a2.asSMIRKS.data | none => []) ++
        (orientedOf G).filterMap (fun q => if q.2.1 == r then
          some (digitChar q.1) else none)) ++
        ((orientedOf G).filterMap (fun q => if q.2.2.1 == r then
          some (q.2.2.2.asSMIRKS.data ++ [digitChar q.1]) else none)).flatten) ++
        assembleKids ((childrenOf G G.dfs.2.1 r).map (fun q =>
          (q.2.asSMIRKS.data, printFrom G G.dfs.2.1 (orientedOf G)
            G.atoms.length q.1)))) from rfl, har]
    simp [show ar.asSMIRKS.data = '[' :: ar.bodyChars from rfl, List.append_assoc]
  have hnem : (Graph.asSMIRKS G).data.isEmpty = false := by
    rw [hpr, hprint2]
    rfl
  rw [parseSmirks, if_neg (by rw [hnem]; exact Bool.false_ne_true)]
  rw [hpr, hprint2]
  rw [step_atom_root ⟨⟨[], [], 0⟩, none, [], []⟩ ar _ _ rfl hwar
    (fun t _ hmem => absurd hmem (by simp [Graph.usedTags]))]
  have hne := node_events G G.dfs.2.1 (orientedOf G) G.dfs.1 G.atoms.length w7 w3 w13 w15
    hdig9 hclosewf hBn r [] []
    { g := ⟨([] : List (Nat × AtomInfo)) ++ [(0, ar)], [], 0 + 1⟩,
      cursor := some 0, stack := [], rings := [] }
    [] (('[' :: ar.bodyChars ++
      ((orientedOf G).filterMap (fun q : Nat × Nat × Nat × BondInfo =>
          if q.2.1 == r then some (digitChar q.1) else none) ++
        (((orientedOf G).filterMap (fun q : Nat × Nat × Nat × BondInfo =>
            if q.2.2.1 == r then
              some (q.2.2.2.asSMIRKS.data ++ [digitChar q.1]) else none)).flatten ++
          (assembleKids ((childrenOf G G.dfs.2.1 r).map
            (fun q : Nat × BondInfo =>
              (q.2.asSMIRKS.data, printFrom G G.dfs.2.1 (orientedOf G)
                G.atoms.length q.1))) ++ [])))).length)
    (by rw [w11]; simp) w12
    (by
      show ([] : List (Nat × AtomInfo)) ++ [(0, ar)] = imageFrom G 0 ([] ++ [r])
      rw [show imageFrom G 0 (([] : List Nat) ++ [r]) =
        [(0, (G.findAtom r).getD ⟨none, [], []⟩)] from rfl, har]
      rfl)
    rfl rfl
    (by
      constructor
      · intro e
        constructor
        · intro he
          exact absurd he (List.not_mem_nil e)
        · rintro ⟨a, c, b, _, _, _, hlt, _⟩
          simp only [List.length_nil] at hlt
          omega
      · exact List.Pairwise.nil)
    (by
      simp only [List.length_cons, List.length_append, ge_iff_le, List.length_nil]
      omega)
  rcases hne with ⟨F2, cur2, rings2, hF2, hinv2, heq2⟩
  rw [heq2]
  have hlenv := congrArg List.length w11
  have hr2 : rings2 = [] := by
    rw [List.eq_nil_iff_forall_not_mem]
    intro e he
    rcases (hinv2.1 e).mp he with ⟨a, c, b, hoe, _, _, _, hge⟩
    have hcv : c ∈ G.dfs.1 := (w13 _ hoe).2.1
    have hlt2 : G.dfs.1.indexOf c < G.dfs.1.length := List.indexOf_lt_length.mpr hcv
    simp only [List.length_nil] at hge
    omega
  cases F2 with
  | zero => exact absurd hF2 (by simp)
  | succ F2p =>
    rw [parse_end _ F2p rfl hr2]
    show Except.ok (Graph.mk (imageFrom G 0 ([] ++ preorderF G G.dfs.2.1
      (G.atoms.length + 1) r))
      (([] : List (Nat × Nat × BondInfo)) ++
        evBonds G G.dfs.2.1 (orientedOf G) G.dfs.1 (G.atoms.length + 1) r)
      (List.length ([] : List Nat) + (preorderF G G.dfs.2.1 (G.atoms.length + 1) r).length)) = _
    rw [List.nil_append, List.nil_append, ← w11]
    simp only [List.length_nil, Nat.zero_add]
    rw [w8]
/-! Counting lemmas relating the builder's bond table to the graph's. -/

theorem sum_map_add_nat {β : Type} (f g : β → Nat) :
    ∀ l : List β, (l.map (fun x => f x + g x)).sum = (l.map f).sum + (l.map g).sum := by
  intro l
  induction l with
  | nil => rfl
  | cons x xs ih =>
    simp only [List.map_cons, List.sum_cons, ih]
    omega

theorem sum_map_zero_nat {β : Type} :
    ∀ l : List β, (l.map (fun _ => (0 : Nat))).sum = 0 := by
  intro l
  induction l with
  | nil => rfl
  | cons x xs ih => simp only [List.map_cons, List.sum_cons, ih]

theorem sum_indicator_one (k : Nat) :
    ∀ vs : List Nat, vs.Nodup → k ∈ vs →
      (vs.map (fun u => if k == u then 1 else 0)).sum = 1 := by
  intro vs
  induction vs with
  | nil =>
    intro _ hk
    cases hk
  | cons v vs ih =>
    intro hnd hk
    rcases List.nodup_cons.mp hnd with ⟨hnv, hnd2⟩
    rw [List.map_cons, List.sum_cons]
    by_cases hkv : k = v
    · rw [if_pos (by simpa using hkv)]
      have hzero : (vs.map (fun u => if k == u then 1 else 0)).sum = 0 := by
        have : ∀ u ∈ vs, (if k == u then 1 else 0) = 0 := by
          intro u hu
          rw [if_neg (by
            intro hcon
            have hku : k = u := by simpa using hcon
            exact hnv (by rw [← hkv, hku]; exact hu))]
        calc (vs.map (fun u => if k == u then 1 else 0)).sum
            = (vs.map (fun _ => (0 : Nat))).sum := by
              apply congrArg
              exact List.map_congr_left this
          _ = 0 := sum_map_zero_nat vs
      omega
    · rw [if_neg (by simpa using hkv)]
      rcases List.mem_cons.mp hk with h1 | h1
      · exact absurd h1 hkv
      · rw [ih hnd2 h1]

theorem count_partition {β : Type} (key : β → Nat) :
    ∀ (l : List β) (vs : List Nat), vs.Nodup → (∀ x ∈ l, key x ∈ vs) →
      (vs.map (fun u => (l.filter (fun x => key x == u)).length)).sum = l.length := by
  intro l
  induction l with
  | nil =>
    intro vs _ _
    calc (vs.map (fun u => (List.filter (fun x => key x == u) []).length)).sum
        = (vs.map (fun _ => (0 : Nat))).sum := rfl
      _ = 0 := sum_map_zero_nat vs
  | cons x xs ih =>
    intro vs hnd hkey
    have hsplit : ∀ u, (List.filter (fun y => key y == u) (x :: xs)).length =
        (if key x == u then 1 else 0) + (List.filter (fun y => key y == u) xs).length := by
      intro u
      rw [List.filter_cons]
      by_cases hku : (key x == u) = true
      · rw [if_pos hku, if_pos hku, List.length_cons]
        omega
      · rw [if_neg hku, if_neg hku]
        omega
    calc (vs.map (fun u => (List.filter (fun y => key y == u) (x :: xs)).length)).sum
        = (vs.map (fun u => (if key x == u then 1 else 0) +
            (List.filter (fun y => key y == u) xs).length)).sum := by
          apply congrArg
          exact List.map_congr_left (fun u _ => hsplit u)
      _ = (vs.map (fun u => if key x == u then 1 else 0)).sum +
          (vs.map (fun u => (List.filter (fun y => key y == u) xs).length)).sum :=
        sum_map_add_nat _ _ vs
      _ = 1 + xs.length := by
        rw [sum_indicator_one (key x) vs hnd (hkey x (List.mem_cons_self x xs)),
          ih vs hnd (fun y hy => hkey y (List.mem_cons_of_mem x hy))]
      _ = (x :: xs).length := by
        rw [List.length_cons]
        omega
theorem evBonds_length (G : Graph) (par : List (Nat × Nat))
    (oriented : List (Nat × Nat × Nat × BondInfo)) (visited : List Nat) :
    ∀ fuel u, fullF G par fuel u = true →
      (evBonds G par oriented visited fuel u).length + 1 =
      ((preorderF G par fuel u).map (fun w => (closesAt oriented visited w).length)).sum +
        (preorderF G par fuel u).length := by
  intro fuel
  induction fuel with
  | zero =>
    intro u h
    exact absurd h (by rw [fullF]; exact Bool.false_ne_true)
  | succ f ih =>
    intro u hfull
    have hkids : ∀ q ∈ childrenOf G par u, fullF G par f q.1 = true := by
      intro q hq
      have hfull2 : (childrenOf G par u).all (fun q => fullF G par f q.1) = true := hfull
      exact List.all_eq_true.mp hfull2 q hq
    have hinner : ∀ ks : List (Nat × BondInfo), (∀ q ∈ ks, fullF G par f q.1 = true) →
        ((ks.map (fun q => (visited.indexOf u, visited.indexOf q.1, q.2) ::
          evBonds G par oriented visited f q.1)).flatten).length =
        (((ks.map (fun q => preorderF G par f q.1)).flatten).map
          (fun w => (closesAt oriented visited w).length)).sum +
        ((ks.map (fun q => preorderF G par f q.1)).flatten).length := by
      intro ks
      induction ks with
      | nil => intro _; rfl
      | cons q ks ihk =>
        intro hks
        rw [List.map_cons, List.flatten_cons, List.map_cons, List.flatten_cons]
        rw [List.length_append, List.length_cons]
        rw [List.map_append, List.sum_append, List.length_append]
        rw [ihk (fun q2 hq2 => hks q2 (List.mem_cons_of_mem q hq2))]
        have h2 := ih q.1 (hks q (List.mem_cons_self q ks))
        omega
    rw [show evBonds G par oriented visited (f + 1) u = closesAt oriented visited u ++
      ((childrenOf G par u).map (fun q => (visited.indexOf u, visited.indexOf q.1, q.2) ::
        evBonds G par oriented visited f q.1)).flatten from rfl]
    rw [show preorderF G par (f + 1) u = u ::
      ((childrenOf G par u).map (fun q => preorderF G par f q.1)).flatten from rfl]
    rw [List.length_append, List.map_cons, List.sum_cons, List.length_cons]
    rw [hinner (childrenOf G par u) hkids]
    omega

theorem evBonds_mem_tree (G : Graph) (par : List (Nat × Nat))
    (oriented : List (Nat × Nat × Nat × BondInfo)) (visited : List Nat) :
    ∀ fuel w u, u ∈ preorderF G par fuel w →
      ∀ q ∈ childrenOf G par u,
        (visited.indexOf u, visited.indexOf q.1, q.2) ∈
          evBonds G par oriented visited fuel w := by
  intro fuel
  induction fuel with
  | zero =>
    intro w u hu
    cases hu
  | succ f ih =>
    intro w u hu q hq
    rw [show preorderF G par (f + 1) w = w ::
      ((childrenOf G par w).map (fun q2 => preorderF G par f q2.1)).flatten from rfl] at hu
    rw [show evBonds G par oriented visited (f + 1) w = closesAt oriented visited w ++
      ((childrenOf G par w).map (fun q2 => (visited.indexOf w, visited.indexOf q2.1, q2.2) ::
        evBonds G par oriented visited f q2.1)).flatten from rfl]
    rcases List.mem_cons.mp hu with h1 | h1
    · apply List.mem_append_right
      rw [h1] at hq ⊢
      rcases hq with _
      apply List.mem_flatten.mpr
      refine ⟨(visited.indexOf w, visited.indexOf q.1, q.2) ::
        evBonds G par oriented visited f q.1, ?_, List.mem_cons_self _ _⟩
      exact List.mem_map_of_mem _ hq
    · rcases List.mem_flatten.mp h1 with ⟨seg, hseg, huseg⟩
      rcases List.mem_map.mp hseg with ⟨k2, hk2, hks⟩
      apply List.mem_append_right
      apply List.mem_flatten.mpr
      refine ⟨(visited.indexOf w, visited.indexOf k2.1, k2.2) ::
        evBonds G par oriented visited f k2.1, List.mem_map_of_mem _ hk2, ?_⟩
      apply List.mem_cons_of_mem
      exact ih k2.1 u (by rw [hks]; exact huseg) q hq

theorem evBonds_mem_close (G : Graph) (par : List (Nat × Nat))
    (oriented : List (Nat × Nat × Nat × BondInfo)) (visited : List Nat) :
    ∀ fuel w c, c ∈ preorderF G par fuel w →
      ∀ q ∈ oriented, q.2.2.1 = c →
        (visited.indexOf q.2.1, visited.indexOf c, q.2.2.2) ∈
          evBonds G par oriented visited fuel w := by
  intro fuel
  induction fuel with
  | zero =>
    intro w c hc
    cases hc
  | succ f ih =>
    intro w c hc q hq hqc
    rw [show preorderF G par (f + 1) w = w ::
      ((childrenOf G par w).map (fun q2 => preorderF G par f q2.1)).flatten from rfl] at hc
    rw [show evBonds G par oriented visited (f + 1) w = closesAt oriented visited w ++
      ((childrenOf G par w).map (fun q2 => (visited.indexOf w, visited.indexOf q2.1, q2.2) ::
        evBonds G par oriented visited f q2.1)).flatten from rfl]
    rcases List.mem_cons.mp hc with h1 | h1
    · apply List.mem_append_left
      rw [closesAt]
      apply List.mem_filterMap.mpr
      refine ⟨q, hq, ?_⟩
      rw [if_pos (by rw [hqc, h1]; exact beq_self_eq_true w)]
      rw [h1]
    · rcases List.mem_flatten.mp h1 with ⟨seg, hseg, hcseg⟩
      rcases List.mem_map.mp hseg with ⟨k2, hk2, hks⟩
      apply List.mem_append_right
      apply List.mem_flatten.mpr
      refine ⟨(visited.indexOf w, visited.indexOf k2.1, k2.2) ::
        evBonds G par oriented visited f k2.1, List.mem_map_of_mem _ hk2, ?_⟩
      apply List.mem_cons_of_mem
      exact ih k2.1 c (by rw [hks]; exact hcseg) q hq hqc

theorem evBonds_mem_rev (G : Graph) (par : List (Nat × Nat))
    (oriented : List (Nat × Nat × Nat × BondInfo)) (visited : List Nat) :
    ∀ fuel w e, e ∈ evBonds G par oriented visited fuel w →
      (∃ q ∈ oriented, e = (visited.indexOf q.2.1, visited.indexOf q.2.2.1, q.2.2.2)) ∨
      (∃ u q2, q2 ∈ childrenOf G par u ∧
        e = (visited.indexOf u, visited.indexOf q2.1, q2.2)) := by
  intro fuel
  induction fuel with
  | zero =>
    intro w e he
    cases he
  | succ f ih =>
    intro w e he
    rw [show evBonds G par oriented visited (f + 1) w = closesAt oriented visited w ++
      ((childrenOf G par w).map (fun q2 => (visited.indexOf w, visited.indexOf q2.1, q2.2) ::
        evBonds G par oriented visited f q2.1)).flatten from rfl] at he
    rcases List.mem_append.mp he with h1 | h1
    · rw [closesAt] at h1
      rcases List.mem_filterMap.mp h1 with ⟨q, hq, hqe⟩
      by_cases hqc : (q.2.2.1 == w) = true
      · rw [if_pos hqc] at hqe
        left
        refine ⟨q, hq, ?_⟩
        have hw : q.2.2.1 = w := by simpa using hqc
        rw [hw]
        exact (Option.some.inj hqe).symm
      · rw [if_neg hqc] at hqe
        exact Option.noConfusion hqe
    · rcases List.mem_flatten.mp h1 with ⟨seg, hseg, heseg⟩
      rcases List.mem_map.mp hseg with ⟨k2, hk2, hks⟩
      rw [← hks] at heseg
      rcases List.mem_cons.mp heseg with h2 | h2
      · right
        exact ⟨w, k2, hk2, h2⟩
      · exact ih k2.1 e h2
theorem mem_enumFrom_of_mem {α : Type} :
    ∀ (l : List α) (k : Nat) (x : α), x ∈ l → ∃ i, (i, x) ∈ l.enumFrom k := by
  intro l
  induction l with
  | nil =>
    intro k x hx
    cases hx
  | cons a as ih =>
    intro k x hx
    rw [List.enumFrom_cons]
    rcases List.mem_cons.mp hx with h1 | h1
    · exact ⟨k, by rw [h1]; exact List.mem_cons_self _ _⟩
    · rcases ih (k + 1) x h1 with ⟨i, hi⟩
      exact ⟨i, List.mem_cons_of_mem _ hi⟩

theorem backs_to_oriented (G : Graph) :
    ∀ bk ∈ G.dfs.2.2, ∃ q, q ∈ orientedOf G ∧
      ((q.2.1 = bk.1 ∧ q.2.2.1 = bk.2.1) ∨ (q.2.1 = bk.2.1 ∧ q.2.2.1 = bk.1)) ∧
      q.2.2.2 = bk.2.2 := by
  intro bk hbk
  have hob : (if G.dfs.1.indexOf bk.1 ≤ G.dfs.1.indexOf bk.2.1 then bk
      else (bk.2.1, bk.1, bk.2.2)) ∈ orientBacks G.dfs.1 G.dfs.2.2 := by
    rw [orientBacks]
    exact List.mem_map_of_mem _ hbk
  rcases mem_enumFrom_of_mem _ 0 _ hob with ⟨i, hi⟩
  refine ⟨(i + 1, if G.dfs.1.indexOf bk.1 ≤ G.dfs.1.indexOf bk.2.1 then bk
    else (bk.2.1, bk.1, bk.2.2)), ?_, ?_, ?_⟩
  · rw [orientedOf]
    exact List.mem_map.mpr ⟨(i, if G.dfs.1.indexOf bk.1 ≤ G.dfs.1.indexOf bk.2.1 then bk
      else (bk.2.1, bk.1, bk.2.2)), by rw [List.enum_eq_enumFrom]; exact hi, rfl⟩
  · by_cases hle : G.dfs.1.indexOf bk.1 ≤ G.dfs.1.indexOf bk.2.1
    · rw [if_pos hle]
      exact Or.inl ⟨rfl, rfl⟩
    · rw [if_neg hle]
      exact Or.inr ⟨rfl, rfl⟩
  · by_cases hle : G.dfs.1.indexOf bk.1 ≤ G.dfs.1.indexOf bk.2.1
    · rw [if_pos hle]
    · rw [if_neg hle]
theorem evBonds_covers (G : Graph) (r : Nat) (hroot : G.root = some r)
    (hWF : WellFormed G = true) :
    ∀ x y b, (x, y, b) ∈ G.bonds →
      (G.dfs.1.indexOf x, G.dfs.1.indexOf y, b) ∈
        evBonds G G.dfs.2.1 (orientedOf G) G.dfs.1 (G.atoms.length + 1) r ∨
      (G.dfs.1.indexOf y, G.dfs.1.indexOf x, b) ∈
        evBonds G G.dfs.2.1 (orientedOf G) G.dfs.1 (G.atoms.length + 1) r := by
  obtain ⟨w1, w2, w3, w4, w5, w6, w7, w8, w9, w10, w11, w12, w13, w14, w15, w16, w17, w18⟩ :=
    wellFormed_some hroot hWF
  have hsup : ∀ v ∈ G.atomIds, v ∈ G.dfs.1 := by
    apply mem_of_subset_of_length w7 w1 w9
    rw [w8, Graph.atomIds, List.length_map]
  have hkeysnd : (G.dfs.2.1.map Prod.fst).Nodup := by
    rw [w10]
    exact List.Nodup.sublist (List.drop_sublist 1 G.dfs.1) w7
  intro x y b hb
  have hxy : x ≠ y := (w5 _ hb).2.2
  have hxv : x ∈ G.dfs.1 := hsup x (w5 _ hb).1
  have hyv : y ∈ G.dfs.1 := hsup y (w5 _ hb).2.1
  rcases w18 _ hb with ⟨p, hp, hpc0⟩ | ⟨bk, hbk, hbkc0⟩
  · have hpc : p.1 = y ∧ p.2 = x ∨ p.1 = x ∧ p.2 = y := hpc0
    have hfind : G.dfs.2.1.find? (fun pr => pr.1 == p.1) = some p := by
      apply find?_eq_of_unique _ _ p hp (by simp)
      intro x2 hx2 hpx2
      exact List.inj_on_of_nodup_map hkeysnd hx2 hp (by simpa using hpx2)
    have hchild : (p.1, b) ∈ childrenOf G G.dfs.2.1 p.2 := by
      rw [childrenOf]
      apply List.mem_filterMap.mpr
      refine ⟨(p.1, b), ?_, ?_⟩
      · apply (adj_mem_iff G p.2 p.1 b).mpr
        rcases hpc with ⟨h1, h2⟩ | ⟨h1, h2⟩
        · left
          rw [h1, h2]
          exact hb
        · right
          constructor
          · rw [h1, h2]
            exact hb
          · rw [h1, h2]
            exact hxy
      · rw [hfind]
        simp
    have hu : p.2 ∈ preorderF G G.dfs.2.1 (G.atoms.length + 1) r := by
      rw [← w11]
      rcases hpc with ⟨h1, h2⟩ | ⟨h1, h2⟩
      · rw [h2]
        exact hxv
      · rw [h2]
        exact hyv
    have hmem := evBonds_mem_tree G G.dfs.2.1 (orientedOf G) G.dfs.1 (G.atoms.length + 1) r
      p.2 hu (p.1, b) hchild
    rcases hpc with ⟨h1, h2⟩ | ⟨h1, h2⟩
    · left
      rw [← h1, ← h2]
      exact hmem
    · right
      rw [← h1, ← h2]
      exact hmem
  · have hbkc : bk.1 = x ∧ bk.2.1 = y ∨ bk.1 = y ∧ bk.2.1 = x := hbkc0
    rcases backs_to_oriented G bk hbk with ⟨q, hq, hqe, hqp⟩
    have hpay : bk.2.2 = b := by
      rcases w16 bk hbk with ⟨fb, hfb, hfbp, hfbpay⟩
      have hkey : (fun e : Nat × Nat × BondInfo => (Nat.min e.1 e.2.1, Nat.max e.1 e.2.1)) fb =
          (fun e : Nat × Nat × BondInfo => (Nat.min e.1 e.2.1, Nat.max e.1 e.2.1)) (x, y, b) := by
        simp only
        rcases hfbp with ⟨h1, h2⟩ | ⟨h1, h2⟩ <;> rcases hbkc with ⟨h3, h4⟩ | ⟨h3, h4⟩ <;>
          rw [h1, h2, h3, h4] <;> simp [Nat.min_comm, Nat.max_comm]
      have hfbe : fb = (x, y, b) := List.inj_on_of_nodup_map w6 hfb hb hkey
      rw [← hfbpay, hfbe]
    have hcv : q.2.2.1 ∈ preorderF G G.dfs.2.1 (G.atoms.length + 1) r := by
      rw [← w11]
      exact (w13 q hq).2.1
    have hmem := evBonds_mem_close G G.dfs.2.1 (orientedOf G) G.dfs.1 (G.atoms.length + 1) r
      q.2.2.1 hcv q hq rfl
    rw [hqp, hpay] at hmem
    rcases hqe with ⟨h1, h2⟩ | ⟨h1, h2⟩ <;> rcases hbkc with ⟨h3, h4⟩ | ⟨h3, h4⟩
    · left
      rw [h1, h3, h2, h4] at hmem
      exact hmem
    · right
      rw [h1, h3, h2, h4] at hmem
      exact hmem
    · right
      rw [h1, h4, h2, h3] at hmem
      exact hmem
    · left
      rw [h1, h4, h2, h3] at hmem
      exact hmem

theorem evBonds_sound (G : Graph) (r : Nat) (hroot : G.root = some r)
    (hWF : WellFormed G = true) :
    ∀ i j b, (i, j, b) ∈ evBonds G G.dfs.2.1 (orientedOf G) G.dfs.1 (G.atoms.length + 1) r →
      ∃ x y, G.dfs.1.indexOf x = i ∧ G.dfs.1.indexOf y = j ∧
        ((x, y, b) ∈ G.bonds ∨ (y, x, b) ∈ G.bonds) := by
  obtain ⟨w1, w2, w3, w4, w5, w6, w7, w8, w9, w10, w11, w12, w13, w14, w15, w16, w17, w18⟩ :=
    wellFormed_some hroot hWF
  intro i j b he
  rcases evBonds_mem_rev G G.dfs.2.1 (orientedOf G) G.dfs.1 (G.atoms.length + 1) r (i, j, b)
    he with ⟨q, hq, hqe⟩ | ⟨u, q2, hq2, hqe⟩
  · have hi : G.dfs.1.indexOf q.2.1 = i := (congrArg (fun z => z.1) hqe).symm
    have hj : G.dfs.1.indexOf q.2.2.1 = j := (congrArg (fun z => z.2.1) hqe).symm
    have hbq : q.2.2.2 = b := (congrArg (fun z => z.2.2) hqe).symm
    refine ⟨q.2.1, q.2.2.1, hi, hj, ?_⟩
    rcases orientBacks_payload _ _ q.2 (oriented_snd_mem G q hq).1 with ⟨bk, hbk, hqbk, hqpay⟩
    rcases w16 bk hbk with ⟨fb, hfb, hfbp, hfbpay⟩
    have hbfb : fb.2.2 = b := by
      rw [hfbpay, ← hqpay]
      exact hbq
    rcases fb with ⟨f1, f2, f3⟩
    simp only at hfbp hbfb
    rcases hqbk with ⟨h1, h2⟩ | ⟨h1, h2⟩ <;> rcases hfbp with ⟨h3, h4⟩ | ⟨h3, h4⟩
    · left
      rw [show (q.2.1, q.2.2.1, b) = (f1, f2, f3) from by
        rw [h1, h2, h3, h4, hbfb]]
      exact hfb
    · right
      rw [show (q.2.2.1, q.2.1, b) = (f1, f2, f3) from by
        rw [h1, h2, h3, h4, hbfb]]
      exact hfb
    · right
      rw [show (q.2.2.1, q.2.1, b) = (f1, f2, f3) from by
        rw [h1, h2, h3, h4, hbfb]]
      exact hfb
    · left
      rw [show (q.2.1, q.2.2.1, b) = (f1, f2, f3) from by
        rw [h1, h2, h3, h4, hbfb]]
      exact hfb
  · have hi : G.dfs.1.indexOf u = i := (congrArg (fun z => z.1) hqe).symm
    have hj : G.dfs.1.indexOf q2.1 = j := (congrArg (fun z => z.2.1) hqe).symm
    have hbq : q2.2 = b := (congrArg (fun z => z.2.2) hqe).symm
    refine ⟨u, q2.1, hi, hj, ?_⟩
    have hadj := childrenOf_subset_adj G G.dfs.2.1 u q2 hq2
    rcases (adj_mem_iff G u q2.1 q2.2).mp (by
      rcases q2 with ⟨q2v, q2b⟩
      exact hadj) with h3 | h3
    · left
      rw [← hbq]
      exact h3
    · right
      rw [← hbq]
      exact h3.1
theorem findAtom_mem_ids (G : Graph) (v : Nat) (a : AtomInfo)
    (hfa : G.findAtom v = some a) : v ∈ G.atomIds := by
  rw [Graph.findAtom] at hfa
  cases hfind : G.atoms.find? (fun p => p.1 == v) with
  | none =>
    rw [hfind] at hfa
    exact absurd hfa (by simp)
  | some p =>
    have hp1 := List.find?_some hfind
    have hpm := List.mem_of_find?_eq_some hfind
    rw [Graph.atomIds]
    exact List.mem_map.mpr ⟨p, hpm, by simpa using hp1⟩

theorem roundtrip_iso (G : Graph) (r : Nat) (hroot : G.root = some r)
    (hWF : WellFormed G = true) :
    GraphIso (fun v => G.dfs.1.indexOf v) G
      ⟨imageFrom G 0 G.dfs.1,
       evBonds G G.dfs.2.1 (orientedOf G) G.dfs.1 (G.atoms.length + 1) r,
       G.atoms.length⟩ := by
  obtain ⟨w1, w2, w3, w4, w5, w6, w7, w8, w9, w10, w11, w12, w13, w14, w15, w16, w17, w18⟩ :=
    wellFormed_some hroot hWF
  have hsup : ∀ v ∈ G.atomIds, v ∈ G.dfs.1 := by
    apply mem_of_subset_of_length w7 w1 w9
    rw [w8, Graph.atomIds, List.length_map]
  refine ⟨?_, ?_, ?_, ?_, ?_, ?_⟩
  · intro v hv w hw hvw
    exact (List.indexOf_inj (hsup v hv) (hsup w hw)).mp hvw
  · show (imageFrom G 0 G.dfs.1).length = G.atoms.length
    rw [imageFrom_length, w8]
  · intro v a hfa
    have hvv : v ∈ G.dfs.1 := hsup v (findAtom_mem_ids G v a hfa)
    rcases List.append_of_mem hvv with ⟨A, B, hAB⟩
    have hidx : G.dfs.1.indexOf v = A.length := by
      rw [hAB]
      exact indexOf_append_cons v A B (not_mem_of_nodup_append_cons v A B (hAB ▸ w7))
    have hkey := imageFrom_find G A v B 0
    simp only [Nat.zero_add] at hkey
    rw [hfa] at hkey
    simp only [Option.getD_some] at hkey
    show ((imageFrom G 0 G.dfs.1).find? (fun p => p.1 == G.dfs.1.indexOf v)).map
      (fun p => p.2) = some a
    rw [hidx, hAB]
    exact hkey
  · show (evBonds G G.dfs.2.1 (orientedOf G) G.dfs.1 (G.atoms.length + 1) r).length =
      G.bonds.length
    have hEL := evBonds_length G G.dfs.2.1 (orientedOf G) G.dfs.1 (G.atoms.length + 1) r w12
    rw [← w11] at hEL
    have hclose : ∀ w2 ∈ G.dfs.1, (fun u => (closesAt (orientedOf G) G.dfs.1 u).length) w2 =
        (fun u => ((orientedOf G).filter (fun q => q.2.2.1 == u)).length) w2 := by
      intro w2 _
      show (closesAt (orientedOf G) G.dfs.1 w2).length = _
      rw [closesAt, filterMap_if_eq_map_filter
        (fun q : Nat × Nat × Nat × BondInfo =>
          (G.dfs.1.indexOf q.2.1, G.dfs.1.indexOf w2, q.2.2.2))
        (fun q : Nat × Nat × Nat × BondInfo => q.2.2.1 == w2), List.length_map]
    have hsum : ((G.dfs.1).map
        (fun u => (closesAt (orientedOf G) G.dfs.1 u).length)).sum = (orientedOf G).length := by
      rw [List.map_congr_left hclose]
      exact count_partition (fun q : Nat × Nat × Nat × BondInfo => q.2.2.1) (orientedOf G)
        G.dfs.1 w7 (fun q hq => (w13 q hq).2.1)
    have hOlen : (orientedOf G).length = G.dfs.2.2.length := by
      rw [orientedOf, List.length_map, List.enum_length, orientBacks, List.length_map]
    have hparlen : G.dfs.2.1.length = G.dfs.1.length - 1 := by
      have hc := congrArg List.length w10
      rw [List.length_map, List.length_drop] at hc
      exact hc
    have hn1 : 1 ≤ G.dfs.1.length := by
      rw [w8]
      have h0 : G.atomIds ≠ [] := by
        intro hnil
        rw [Graph.root, hnil] at hroot
        exact absurd hroot (by simp)
      have hp := List.length_pos.mpr h0
      rw [Graph.atomIds, List.length_map] at hp
      omega
    rw [hsum, hOlen] at hEL
    omega
  · exact evBonds_covers G r hroot hWF
  · exact evBonds_sound G r hroot hWF
/-- C1: for every well-formed Environment Graph `G`, parsing the SMIRKS string
produced by serializing `G` succeeds and yields a graph isomorphic to `G`:
the node relabelling that sends each node id to its visit position is a
tag-preserving, OR/AND-entry-preserving graph isomorphism — every atom keeps
its full descriptor (tag, OR-entries, AND-entries) and every bond keeps its
descriptor across the relabelling — so parse-after-serialize reproduces the
graph even when the original input string is not reproduced. -/
theorem parse_serialize_roundtrip (G : Graph) (h : WellFormed G = true) :
    ∃ G2, parseSmirks (Graph.asSMIRKS G) = Except.ok G2 ∧
      GraphIso (fun v => G.dfs.1.indexOf v) G G2 := by
  cases hroot : G.root with
  | none =>
    have hW := h
    simp only [WellFormed, hroot, Bool.and_eq_true] at hW
    rcases hW with ⟨ha, hb⟩
    have hatoms : G.atoms = [] := by
      cases hGa : G.atoms with
      | nil => rfl
      | cons x xs =>
        rw [hGa] at ha
        simp [List.isEmpty] at ha
    have hbonds : G.bonds = [] := by
      cases hGb : G.bonds with
      | nil => rfl
      | cons x xs =>
        rw [hGb] at hb
        simp [List.isEmpty] at hb
    have hser : Graph.asSMIRKS G = "" := by
      simp only [Graph.asSMIRKS, hroot]
    refine ⟨⟨[], [], 0⟩, ?_, ?_, ?_, ?_, ?_, ?_, ?_⟩
    · rw [hser]
      rfl
    · intro v hv w hw hvw
      rw [Graph.atomIds, hatoms] at hv
      simp at hv
    · simp [hatoms]
    · intro v a hfa
      rw [Graph.findAtom, hatoms] at hfa
      simp at hfa
    · simp [hbonds]
    · intro x y b hbm
      rw [hbonds] at hbm
      simp at hbm
    · intro i j b hbm
      simp at hbm
  | some r =>
    exact ⟨_, roundtrip_core G r hroot h, roundtrip_iso G r hroot h⟩

theorem parse_serialize_roundtrip_witness :
    WellFormed ⟨[(0, ⟨some 1, [("#6", [])], []⟩), (1, ⟨some 2, [("#8", [])], []⟩),
        (2, ⟨none, [("#7", [])], []⟩)],
      [(0, 1, ⟨[("-", [])], []⟩), (1, 2, ⟨[("-", [])], []⟩),
        (2, 0, ⟨[("=", [])], []⟩)], 3⟩ = true ∧
    ∃ G2, parseSmirks (Graph.asSMIRKS ⟨[(0, ⟨some 1, [("#6", [])], []⟩),
        (1, ⟨some 2, [("#8", [])], []⟩), (2, ⟨none, [("#7", [])], []⟩)],
      [(0, 1, ⟨[("-", [])], []⟩), (1, 2, ⟨[("-", [])], []⟩),
        (2, 0, ⟨[("=", [])], []⟩)], 3⟩) = Except.ok G2 ∧
      GraphIso (fun v => (Graph.dfs ⟨[(0, ⟨some 1, [("#6", [])], []⟩),
          (1, ⟨some 2, [("#8", [])], []⟩), (2, ⟨none, [("#7", [])], []⟩)],
        [(0, 1, ⟨[("-", [])], []⟩), (1, 2, ⟨[("-", [])], []⟩),
          (2, 0, ⟨[("=", [])], []⟩)], 3⟩).1.indexOf v)
        ⟨[(0, ⟨some 1, [("#6", [])], []⟩), (1, ⟨some 2, [("#8", [])], []⟩),
          (2, ⟨none, [("#7", [])], []⟩)],
        [(0, 1, ⟨[("-", [])], []⟩), (1, 2, ⟨[("-", [])], []⟩),
          (2, 0, ⟨[("=", [])], []⟩)], 3⟩ G2 :=
  ⟨by decide, parse_serialize_roundtrip _ (by decide)⟩
end ChemEnv
